import Mathlib

/-!
# cgcomp: the binary emitter of `tools/cgcomp/source/main.cpp`

A shallow embedding of `compileVP` / `compileFP`, the two functions that serialise a parsed and
compiled shader program into the `rsxVertexProgram` / `rsxFragmentProgram` container.

Modelling conventions.

* The output buffer is the zero-filled block obtained from `calloc`.  The emitter is modelled by
  the chronological list of byte stores it performs (`Write`); the content of the buffer is the
  last value stored at an address, or `0` (`load`).  Multi-byte stores are those of a
  little-endian host (`st`).
* C integers are naturals.  A `u32` operand is reduced modulo `2 ^ 32` where it is read, a
  signed `int` operand is represented by its two's-complement bit pattern, and a store into a
  field of `w` bytes keeps the low `w` bytes.
* The struct types `rsxVertexProgram`, `rsxFragmentProgram`, `rsxProgramAttrib` and
  `rsxProgramConst` are declared in a header that is not part of the translated file.  Their
  `sizeof` and member offsets are parameters (`VPHeader`, `FPHeader`, `AttribLayout`,
  `ConstLayout`); so are the `NVFX_VP(INST_CONST_SRC_*)` constants (`ConstSrc`).
* `param::user`, the only member the emitter mutates, is kept as a list of offsets parallel to
  the parameter list.
-/

namespace CgComp

/-! ## The byte-swapping macros and `endian_fp` -/

/-- The macro `#define SWAP16(v) ((v)>>8)|((v)<<8)`, on a non-negative `int` operand. -/
def SWAP16 (v : Nat) : Nat :=
  (v >>> 8) ||| (v <<< 8)

/-- The macro `#define SWAP32(v) ((v)>>24)|((v)<<24)|(((v)&0xFF00)<<8)|(((v)&0xFF0000)>>8)`,
on a `u32` operand: the left shifts wrap at 32 bits. -/
def SWAP32 (v : Nat) : Nat :=
  (v >>> 24) ||| ((v <<< 24) % 2 ^ 32) ||| (((v &&& 0xFF00) <<< 8) % 2 ^ 32) |||
    ((v &&& 0xFF0000) >>> 8)

/-- Arithmetic right shift by 24 of a signed 32-bit value given by its bit pattern. -/
def sar24 (v : Nat) : Nat :=
  if v < 2 ^ 31 then v >>> 24 else (v >>> 24) ||| 0xFFFFFF00

/-- The macro `SWAP32` on a signed `int` operand given by its bit pattern: `>>` is the
arithmetic shift. -/
def SWAP32_int (v : Nat) : Nat :=
  sar24 v ||| ((v <<< 24) % 2 ^ 32) ||| (((v &&& 0xFF00) <<< 8) % 2 ^ 32) |||
    ((v &&& 0xFF0000) >>> 8)

/-- The function `static u32 endian_fp(u32 v)`. -/
def endian_fp (v : Nat) : Nat :=
  (((v >>> 16) &&& 0xffff) <<< 0) ||| (((v >>> 0) &&& 0xffff) <<< 16)

/-! ## The buffer -/

/-- One byte store: address and value. -/
abbrev Write := Nat × Nat

/-- Store of the low `w` bytes of `v` at address `a`, least significant byte first. -/
def st (a w v : Nat) : List Write :=
  (List.range w).map fun k => (a + k, v / 256 ^ k % 256)

/-- Content of address `x` after the stores `ws`, starting from content `cur`. -/
def overlay : List Write → Nat → Nat → Nat
  | [], _, cur => cur
  | w :: ws, x, cur => overlay ws x (if w.1 = x then w.2 else cur)

/-- Content of address `x` of the zero-filled buffer after the stores `ws`. -/
def load (ws : List Write) (x : Nat) : Nat :=
  overlay ws x 0

/-- Big-endian reading of the 16-bit field at `a`. -/
def be16 (m : Nat → Nat) (a : Nat) : Nat :=
  m a * 2 ^ 8 + m (a + 1)

/-- Big-endian reading of the 32-bit field at `a`. -/
def be32 (m : Nat → Nat) (a : Nat) : Nat :=
  m a * 2 ^ 24 + m (a + 1) * 2 ^ 16 + m (a + 2) * 2 ^ 8 + m (a + 3)

/-- Reading of the 32-bit field at `a` by a little-endian host. -/
def le32 (m : Nat → Nat) (a : Nat) : Nat :=
  m a + m (a + 1) * 2 ^ 8 + m (a + 2) * 2 ^ 16 + m (a + 3) * 2 ^ 24

/-- The bytes at `a, a + 1, ..., a + len - 1`. -/
def bytesAt (m : Nat → Nat) (a len : Nat) : List Nat :=
  (List.range len).map fun k => m (a + k)

/-- The loop `while(lastoff&mask) buf[lastoff++] = 0;` with a bound on the number of iterations: the
stores and the final `lastoff`. -/
def padLoop (mask : Nat) : Nat → Nat → List Write × Nat
  | 0, lastoff => ([], lastoff)
  | fuel + 1, lastoff =>
    if lastoff &&& mask ≠ 0 then
      ((lastoff, 0) :: (padLoop mask fuel (lastoff + 1)).1, (padLoop mask fuel (lastoff + 1)).2)
    else ([], lastoff)

/-- The loop `while(lastoff&3) ...`: at most 3 iterations are needed. -/
def pad4 (lastoff : Nat) : List Write × Nat :=
  padLoop 3 4 lastoff

/-- The loop `while(lastoff&15) ...`: at most 15 iterations are needed. -/
def pad16 (lastoff : Nat) : List Write × Nat :=
  padLoop 15 16 lastoff

/-! ## Input data: parameters, instructions, relocations -/

/-- The `struct param` of the parser: `name` is the byte string, `values i j` the bit pattern of
the `f32` `values[i][j]`, `user` the value of the member before emission. -/
structure param where
  name : List Nat
  is_const : Bool
  is_internal : Bool
  type : Nat
  index : Nat
  count : Nat
  values : Nat → Nat → Nat
  user : Nat

/-- The instruction of either kind, `struct vertex_program_exec` or
`struct fragment_program_exec`: `u32 data[4]`. -/
structure program_exec where
  data : Nat → Nat

/-- The `struct nvfx_relocation` of the vertex compiler. -/
structure nvfx_relocation where
  location : Nat
  target : Nat

/-- The `struct fragment_program_data` of the fragment compiler. -/
structure fragment_program_data where
  index : Nat
  offset : Nat

/-! ## Layout parameters -/

/-- The size `sizeof(rsxProgramAttrib)` and the offsets of its members. -/
structure AttribLayout where
  size : Nat
  name_off : Nat
  index : Nat

/-- The size `sizeof(rsxProgramConst)`, the offsets of its members and the byte widths of the three
members that are stored without a swap. -/
structure ConstLayout where
  size : Nat
  name_off : Nat
  index : Nat
  values : Nat
  count : Nat
  count_w : Nat
  type : Nat
  type_w : Nat
  is_internal : Nat
  is_internal_w : Nat

/-- The size `sizeof(rsxVertexProgram)` and the offsets of the members `compileVP` writes. -/
structure VPHeader where
  size : Nat
  magic : Nat
  start_insn : Nat
  const_start : Nat
  input_mask : Nat
  output_mask : Nat
  attrib_off : Nat
  num_attrib : Nat
  const_off : Nat
  num_const : Nat
  ucode_off : Nat
  num_insn : Nat

/-- The size `sizeof(rsxFragmentProgram)` and the offsets of the members `compileFP` writes. -/
structure FPHeader where
  size : Nat
  magic : Nat
  num_regs : Nat
  fp_control : Nat
  attrib_off : Nat
  num_attrib : Nat
  const_off : Nat
  num_const : Nat
  ucode_off : Nat
  num_insn : Nat

/-- The constants `NVFX_VP(INST_CONST_SRC_MASK)` and `NVFX_VP(INST_CONST_SRC_SHIFT)`. -/
structure ConstSrc where
  mask : Nat
  shift : Nat

/-- Members given as (offset, width) lie inside `size` bytes and do not overlap. -/
def fieldsOk (size : Nat) (fs : List (Nat × Nat)) : Prop :=
  (∀ f ∈ fs, f.1 + f.2 ≤ size) ∧
    fs.Pairwise fun f g => f.1 + f.2 ≤ g.1 ∨ g.1 + g.2 ≤ f.1

/-- The header members both program kinds have: `sizeof` of the header and the offsets of the
table offsets and counts. -/
structure Header where
  size : Nat
  attrib_off : Nat
  num_attrib : Nat
  const_off : Nat
  num_const : Nat
  ucode_off : Nat
  num_insn : Nat

/-- The common members with their widths. -/
def Header.fields (H : Header) : List (Nat × Nat) :=
  [(H.attrib_off, 4), (H.num_attrib, 2), (H.const_off, 4), (H.num_const, 2), (H.ucode_off, 4),
    (H.num_insn, 2)]

/-- The common members of the vertex header. -/
def VPHeader.common (H : VPHeader) : Header :=
  { size := H.size, attrib_off := H.attrib_off, num_attrib := H.num_attrib,
    const_off := H.const_off, num_const := H.num_const, ucode_off := H.ucode_off,
    num_insn := H.num_insn }

/-- The common members of the fragment header. -/
def FPHeader.common (H : FPHeader) : Header :=
  { size := H.size, attrib_off := H.attrib_off, num_attrib := H.num_attrib,
    const_off := H.const_off, num_const := H.num_const, ucode_off := H.ucode_off,
    num_insn := H.num_insn }

/-- The members of the vertex header with their widths. -/
def VPHeader.fields (H : VPHeader) : List (Nat × Nat) :=
  [(H.magic, 2), (H.start_insn, 2), (H.const_start, 2), (H.input_mask, 4), (H.output_mask, 4)] ++
    H.common.fields

/-- The members of the fragment header with their widths. -/
def FPHeader.fields (H : FPHeader) : List (Nat × Nat) :=
  [(H.magic, 2), (H.num_regs, 4), (H.fp_control, 4)] ++ H.common.fields

/-- A vertex header layout is a struct layout. -/
def VPHeader.ok (H : VPHeader) : Prop :=
  fieldsOk H.size H.fields

/-- A fragment header layout is a struct layout. -/
def FPHeader.ok (H : FPHeader) : Prop :=
  fieldsOk H.size H.fields

/-- An attribute record layout whose first member is `name_off`: the name pass stores the
string offset through a `u32` pointer to the start of the record. -/
def AttribLayout.ok (A : AttribLayout) : Prop :=
  A.name_off = 0 ∧ fieldsOk A.size [(A.name_off, 4), (A.index, 4)]

/-- A constant record layout whose first member is `name_off`. -/
def ConstLayout.ok (C : ConstLayout) : Prop :=
  C.name_off = 0 ∧
    fieldsOk C.size [(C.name_off, 4), (C.index, 4), (C.values, 16), (C.count, C.count_w),
      (C.type, C.type_w), (C.is_internal, C.is_internal_w)]

/-! ## The passes of the emitter -/

/-- The stores of one iteration of the attribute loop, for the record at `rec`:
`attribs[n].index = SWAP32(it->index); attribs[n].name_off = SWAP32(0);`. -/
def attribRecord (A : AttribLayout) (rec : Nat) (p : param) : List Write :=
  st (rec + A.index) 4 (SWAP32 (p.index % 2 ^ 32)) ++ st (rec + A.name_off) 4 (SWAP32_int 0)

/-- The stores of the attribute loop started with counter `n`; `lastoff` is the offset of
`attribs`. -/
def attribWrites (A : AttribLayout) (lastoff : Nat) : Nat → List param → List Write
  | _, [] => []
  | n, p :: ps =>
    if p.is_const = false then
      attribRecord A (lastoff + n * A.size) p ++ attribWrites A lastoff (n + 1) ps
    else attribWrites A lastoff n ps

/-- The counter `n` after the attribute loop. -/
def attribCount : Nat → List param → Nat
  | n, [] => n
  | n, p :: ps => if p.is_const = false then attribCount (n + 1) ps else attribCount n ps

/-- The `user` members after the attribute loop: `it->user = lastoff + n*sizeof(...)`. -/
def attribUsers (A : AttribLayout) (lastoff : Nat) : Nat → List param → List Nat
  | _, [] => []
  | n, p :: ps =>
    if p.is_const = false then (lastoff + n * A.size) :: attribUsers A lastoff (n + 1) ps
    else p.user :: attribUsers A lastoff n ps

/-- Number of iterations of `for(i=0;i<(s32)it->count;i++)`. -/
def iterations (count : Nat) : Nat :=
  if count % 2 ^ 32 < 2 ^ 31 then count % 2 ^ 32 else 0

/-- The stores made once per selected constant, into the record at `rec`:
`count`, `type`, `is_internal` and `name_off = SWAP32(0)`. -/
def constHead (C : ConstLayout) (rec : Nat) (p : param) : List Write :=
  st (rec + C.count) C.count_w p.count ++ st (rec + C.type) C.type_w p.type ++
    st (rec + C.is_internal) C.is_internal_w (if p.is_internal then 1 else 0) ++
    st (rec + C.name_off) 4 (SWAP32_int 0)

/-- The stores of one iteration of the slot loop, into the record at `rec`: the swapped index
`idx` and the four swapped values of `pVal`. -/
def constSlot (C : ConstLayout) (idx : Nat) (rec : Nat) (pVal : Nat → Nat) : List Write :=
  st (rec + C.index) 4 idx ++
    st (rec + C.values + 0) 4 (SWAP32 (pVal 0 % 2 ^ 32)) ++
    st (rec + C.values + 4) 4 (SWAP32 (pVal 1 % 2 ^ 32)) ++
    st (rec + C.values + 8) 4 (SWAP32 (pVal 2 % 2 ^ 32)) ++
    st (rec + C.values + 12) 4 (SWAP32 (pVal 3 % 2 ^ 32))

/-- The stores of the slot loop of one constant, entered with counter `n`. -/
def constSlots (C : ConstLayout) (idx : Nat → Nat) (lastoff n : Nat) (p : param) : List Write :=
  (List.range (iterations p.count)).flatMap fun i =>
    constSlot C (idx i) (lastoff + (n + i) * C.size) (p.values i)

/-- The stores of the constant loop started with counter `n`; `sel` is the condition of the
`if`, `idx p i` the value stored in `index` for slot `i` of `p`, `lastoff` the offset of
`consts`. -/
def constWrites (C : ConstLayout) (sel : param → Bool) (idx : param → Nat → Nat)
    (lastoff : Nat) : Nat → List param → List Write
  | _, [] => []
  | n, p :: ps =>
    if sel p then
      constHead C (lastoff + n * C.size) p ++ constSlots C (idx p) lastoff n p ++
        constWrites C sel idx lastoff (n + iterations p.count) ps
    else constWrites C sel idx lastoff n ps

/-- The counter `n` after the constant loop. -/
def constCount (sel : param → Bool) : Nat → List param → Nat
  | n, [] => n
  | n, p :: ps =>
    if sel p then constCount sel (n + iterations p.count) ps else constCount sel n ps

/-- The `user` members after the constant loop, `us` being the members before it. -/
def constUsers (C : ConstLayout) (sel : param → Bool) (lastoff : Nat) :
    Nat → List param → List Nat → List Nat
  | n, p :: ps, u :: us =>
    if sel p then (lastoff + n * C.size) :: constUsers C sel lastoff (n + iterations p.count) ps us
    else u :: constUsers C sel lastoff n ps us
  | _, _, _ => []

/-- The characters `while(*name)` copies: those before the first NUL. -/
def c_str (name : List Nat) : List Nat :=
  name.takeWhile fun c => c ≠ 0

/-- The stores `while(*name) buf[lastoff++] = *name++; buf[lastoff++] = 0;`, `name` being
followed by the terminating NUL of `c_str()`. -/
def nameString : Nat → List Nat → List Write
  | lastoff, [] => [(lastoff, 0)]
  | lastoff, c :: name =>
    if c ≠ 0 then (lastoff, c % 256) :: nameString (lastoff + 1) name else [(lastoff, 0)]

/-- The condition of the name loop: `!it->name.empty() && !it->is_internal`. -/
def named (p : param) : Bool :=
  !p.name.isEmpty && !p.is_internal

/-- The stores of the name loop entered at `lastoff`, over the parameters paired with their
`user` members: the string, then the back-patch `*((u32*)(buf + it->user)) = SWAP32(off)`
with `int off`. -/
def nameWrites : Nat → List (param × Nat) → List Write
  | _, [] => []
  | lastoff, (p, user) :: ps =>
    if named p then
      nameString lastoff p.name ++ st user 4 (SWAP32_int (lastoff % 2 ^ 32)) ++
        nameWrites (lastoff + (c_str p.name).length + 1) ps
    else nameWrites lastoff ps

/-- The offset `lastoff` after the name loop. -/
def nameEnd : Nat → List param → Nat
  | lastoff, [] => lastoff
  | lastoff, p :: ps =>
    if named p then nameEnd (lastoff + (c_str p.name).length + 1) ps else nameEnd lastoff ps

/-- The stores of the instruction loop entered with word counter `n`: `dstcodeptr[n+j] =
enc(insn.data[j])`, `ucode` being the offset of `dstcodeptr`. -/
def insnWrites (enc : Nat → Nat) (ucode : Nat) : Nat → List program_exec → List Write
  | _, [] => []
  | n, e :: es =>
    st (ucode + 4 * (n + 0)) 4 (enc (e.data 0)) ++ st (ucode + 4 * (n + 1)) 4 (enc (e.data 1)) ++
      st (ucode + 4 * (n + 2)) 4 (enc (e.data 2)) ++ st (ucode + 4 * (n + 3)) 4 (enc (e.data 3)) ++
      insnWrites enc ucode (n + 4) es

/-! ## Relocation of vertex instructions -/

/-- The body of the relocation loop on one instruction:
`vpe->data[1] &= ~MASK; vpe->data[1] |= target << SHIFT;` in `u32` arithmetic. -/
def applyReloc (F : ConstSrc) (target : Nat) (vpe : program_exec) : program_exec :=
  { data := fun j =>
      if j = 1 then
        ((vpe.data 1 % 2 ^ 32) &&& (0xFFFFFFFF ^^^ (F.mask % 2 ^ 32))) |||
          (((target % 2 ^ 32) <<< F.shift) % 2 ^ 32)
      else vpe.data j }

/-- The relocation loop over `const_reloc`, in list order; a location outside the array
changes nothing. -/
def relocate (F : ConstSrc) : List nvfx_relocation → List program_exec → List program_exec
  | [], vpi => vpi
  | r :: rs, vpi => relocate F rs (vpi.modify (applyReloc F r.target) r.location)

/-- The constant-source field of an instruction: `(data[1] & MASK) >> SHIFT`. -/
def constSrcField (F : ConstSrc) (e : program_exec) : Nat :=
  ((e.data 1 % 2 ^ 32) &&& (F.mask % 2 ^ 32)) >>> F.shift

/-! ## The emitter -/

/-- Offset of the attribute table: `sizeof` of the header, padded to 4. -/
def attribOff (hsize : Nat) : Nat :=
  (pad4 hsize).2

/-- End of the attribute table: `lastoff += n*sizeof(rsxProgramAttrib)`. -/
def attribEnd (A : AttribLayout) (hsize : Nat) (ps : List param) : Nat :=
  attribOff hsize + attribCount 0 ps * A.size

/-- Offset of the constant table. -/
def constOff (A : AttribLayout) (hsize : Nat) (ps : List param) : Nat :=
  (pad4 (attribEnd A hsize ps)).2

/-- End of the constant table: `lastoff += n*sizeof(rsxProgramConst)`. -/
def constEnd (A : AttribLayout) (C : ConstLayout) (sel : param → Bool) (hsize : Nat)
    (ps : List param) : Nat :=
  constOff A hsize ps + constCount sel 0 ps * C.size

/-- Offset of the name string table. -/
def namesOff (A : AttribLayout) (C : ConstLayout) (sel : param → Bool) (hsize : Nat)
    (ps : List param) : Nat :=
  (pad4 (constEnd A C sel hsize ps)).2

/-- End of the name string table. -/
def namesEnd (A : AttribLayout) (C : ConstLayout) (sel : param → Bool) (hsize : Nat)
    (ps : List param) : Nat :=
  nameEnd (namesOff A C sel hsize ps) ps

/-- Offset of the instruction stream. -/
def ucodeOff (A : AttribLayout) (C : ConstLayout) (sel : param → Bool) (hsize : Nat)
    (ps : List param) : Nat :=
  (pad16 (namesEnd A C sel hsize ps)).2

/-- The `user` members when the name loop runs. -/
def usersOf (A : AttribLayout) (C : ConstLayout) (sel : param → Bool) (hsize : Nat)
    (ps : List param) : List Nat :=
  constUsers C sel (constOff A hsize ps) 0 ps (attribUsers A (attribOff hsize) 0 ps)

/-- What the emitter produces: the stores in program order, the final `lastoff` (the number of
bytes handed to `fwrite`), and the offsets and counters it went through. -/
structure Emitted where
  writes : List Write
  lastoff : Nat
  attrib_off : Nat
  num_attrib : Nat
  const_off : Nat
  num_const : Nat
  names_off : Nat
  names_end : Nat
  ucode_off : Nat
  users : List Nat

/-- The buffer after emission. -/
def Emitted.mem (o : Emitted) (x : Nat) : Nat :=
  load o.writes x

/-- The bytes written to the output file: `fwrite(buf,lastoff,1,fOut)`. -/
def Emitted.file (o : Emitted) : List Nat :=
  bytesAt o.mem 0 o.lastoff

/-- The part `compileVP` and `compileFP` share, from the first `while(lastoff&3)` to the end
of the instruction loop.  `pre` are the stores made before it (magic and the kind-specific
header members), `sel` the condition of the constant loop, `idx` the swapped index of a slot,
`enc` the encoding of an instruction word. -/
def emit (H : Header) (A : AttribLayout) (C : ConstLayout) (pre : List Write)
    (sel : param → Bool) (idx : param → Nat → Nat) (enc : Nat → Nat)
    (ps : List param) (insns : List program_exec) : Emitted :=
  { writes :=
      pre ++ (pad4 H.size).1 ++
      st H.attrib_off 4 (SWAP32 (attribOff H.size % 2 ^ 32)) ++
      attribWrites A (attribOff H.size) 0 ps ++
      st H.num_attrib 2 (SWAP16 (attribCount 0 ps)) ++
      (pad4 (attribEnd A H.size ps)).1 ++
      st H.const_off 4 (SWAP32 (constOff A H.size ps % 2 ^ 32)) ++
      constWrites C sel idx (constOff A H.size ps) 0 ps ++
      st H.num_const 2 (SWAP16 (constCount sel 0 ps)) ++
      (pad4 (constEnd A C sel H.size ps)).1 ++
      nameWrites (namesOff A C sel H.size ps) (ps.zip (usersOf A C sel H.size ps)) ++
      (pad16 (namesEnd A C sel H.size ps)).1 ++
      st H.ucode_off 4 (SWAP32 (ucodeOff A C sel H.size ps % 2 ^ 32)) ++
      st H.num_insn 2 (SWAP16 insns.length) ++
      insnWrites enc (ucodeOff A C sel H.size ps) 0 insns
    lastoff := ucodeOff A C sel H.size ps + 16 * insns.length
    attrib_off := attribOff H.size
    num_attrib := attribCount 0 ps
    const_off := constOff A H.size ps
    num_const := constCount sel 0 ps
    names_off := namesOff A C sel H.size ps
    names_end := namesEnd A C sel H.size ps
    ucode_off := ucodeOff A C sel H.size ps
    users := usersOf A C sel H.size ps }

/-- What the vertex parser and compiler hand to the emitter: `parser.GetParameters()`,
`compiler.GetInstructions()` (`GetInstructionCount()` entries), `GetConstRelocations()`,
`GetInputMask()`, `GetOutputMask()`. -/
structure VPProgram where
  params : List param
  insns : List program_exec
  const_reloc : List nvfx_relocation
  input_mask : Nat
  output_mask : Nat

/-- What the fragment parser and compiler hand to the emitter: `parser.GetParameters()`,
`compiler.GetInstructions()`, `GetConstRelocations()`, `GetNumRegs()`, `GetFPControl()`. -/
structure FPProgram where
  params : List param
  insns : List program_exec
  const_relocs : List fragment_program_data
  num_regs : Nat
  fp_control : Nat

/-- Layout parameters of a vertex container. -/
structure VPLayout where
  hdr : VPHeader
  attr : AttribLayout
  cst : ConstLayout
  src : ConstSrc

/-- Layout parameters of a fragment container. -/
structure FPLayout where
  hdr : FPHeader
  attr : AttribLayout
  cst : ConstLayout

/-- All struct layouts of a vertex container are struct layouts in the sense above. -/
def VPLayout.ok (L : VPLayout) : Prop :=
  L.hdr.ok ∧ L.attr.ok ∧ L.cst.ok

/-- All struct layouts of a fragment container are struct layouts in the sense above. -/
def FPLayout.ok (L : FPLayout) : Prop :=
  L.hdr.ok ∧ L.attr.ok ∧ L.cst.ok

/-- The condition of the vertex constant loop: `if(it->is_const)`. -/
def vpSel (p : param) : Bool :=
  p.is_const

/-- The condition of the fragment constant loop: `if(it->is_const && !it->is_internal)`. -/
def fpSel (p : param) : Bool :=
  p.is_const && !p.is_internal

/-- The stores of `compileVP` before the first padding loop: `magic = ('V'<<8)|'P'`,
`start_insn`, `const_start`, `input_mask`, `output_mask`. -/
def vpPre (H : VPHeader) (input_mask output_mask : Nat) : List Write :=
  st H.magic 2 (SWAP16 ((0x56 <<< 8) ||| 0x50)) ++ st H.start_insn 2 (SWAP16 0) ++
    st H.const_start 2 (SWAP16 0) ++ st H.input_mask 4 (SWAP32 (input_mask % 2 ^ 32)) ++
    st H.output_mask 4 (SWAP32 (output_mask % 2 ^ 32))

/-- The index stored for slot `i` of a vertex constant: `SWAP32(it->index + i)`. -/
def vpIndex (p : param) (i : Nat) : Nat :=
  SWAP32 ((p.index + i) % 2 ^ 32)

/-- The encoding of a vertex instruction word: `SWAP32(vpi[i].data[j])`. -/
def vpWord (w : Nat) : Nat :=
  SWAP32 (w % 2 ^ 32)

/-- The body of `compileVP` after parsing and compiling: relocation of the instructions and
emission of the container. -/
def compileVP (L : VPLayout) (prog : VPProgram) : Emitted :=
  emit L.hdr.common L.attr L.cst (vpPre L.hdr prog.input_mask prog.output_mask)
    vpSel vpIndex vpWord prog.params (relocate L.src prog.const_reloc prog.insns)

/-- The stores of `compileFP` before the first padding loop: `magic = ('F'<<8)|'P'`,
`num_regs`, `fp_control`. -/
def fpPre (H : FPHeader) (num_regs fp_control : Nat) : List Write :=
  st H.magic 2 (SWAP16 ((0x46 <<< 8) ||| 0x50)) ++ st H.num_regs 4 (SWAP32 (num_regs % 2 ^ 32)) ++
    st H.fp_control 4 (SWAP32 (fp_control % 2 ^ 32))

/-- The search of the relocation list: the bit pattern of `s32 inst_idx`, `-1` when no record
has the index. -/
def inst_idx : List fragment_program_data → Nat → Nat
  | [], _ => 2 ^ 32 - 1
  | d :: ds, index => if d.index = index then d.offset % 2 ^ 32 else inst_idx ds index

/-- The index stored for slot `i` of a fragment constant: `SWAP32(((inst_idx + i)*16))`, an
`int` expression. -/
def fpIndex (const_relocs : List fragment_program_data) (p : param) (i : Nat) : Nat :=
  SWAP32_int (((inst_idx const_relocs p.index + i) * 16) % 2 ^ 32)

/-- The encoding of a fragment instruction word: `endian_fp((SWAP32(fpi[i].data[j])))`. -/
def fpWord (w : Nat) : Nat :=
  endian_fp (SWAP32 (w % 2 ^ 32))

/-- The body of `compileFP` after parsing and compiling. -/
def compileFP (L : FPLayout) (prog : FPProgram) : Emitted :=
  emit L.hdr.common L.attr L.cst (fpPre L.hdr prog.num_regs prog.fp_control)
    fpSel (fpIndex prog.const_relocs) fpWord prog.params prog.insns

/-- The field of `w` bytes at `a` holds the little-endian image of `v`. -/
def holds (m : Nat → Nat) (a w v : Nat) : Prop :=
  ∀ k, k < w → m (a + k) = v / 256 ^ k % 256

/-! ## The attribute loop -/

/-- The non-constant parameters, in declaration order. -/
def attribs (ps : List param) : List param :=
  ps.filter fun p => !p.is_const

/-- The parameters the constant loop selects, in declaration order. -/
def consts (sel : param → Bool) (ps : List param) : List param :=
  ps.filter sel

/-- Number of constant records the parameters of `ps` get: the sum of their slot counts. -/
def slotSum (sel : param → Bool) (ps : List param) : Nat :=
  ((consts sel ps).map fun p => iterations p.count).sum

/-! ## The name loop -/

/-- The content of the name string table: the NUL-terminated names of the parameters the name
loop selects, in declaration order. -/
def nameBytes (ps : List param) : List Nat :=
  ps.flatMap fun p => if named p = true then c_str p.name ++ [0] else []

/-- The `user` member of the parameter at position `j` when the name loop runs. -/
def userAt (A : AttribLayout) (C : ConstLayout) (sel : param → Bool) (hsize : Nat)
    (ps : List param) (j : Nat) (p : param) : Nat :=
  if sel p = true then constOff A hsize ps + slotSum sel (ps.take j) * C.size
  else if p.is_const = false then attribOff hsize + (attribs (ps.take j)).length * A.size
  else p.user

/-! ## Classification of the stores of the emitter -/

/-- A store of the attribute loop: into record `k`, holding the `k`-th non-constant
parameter. -/
def isAttrW (A : AttribLayout) (hsize : Nat) (ps : List param) (w : Write) : Prop :=
  ∃ k p, (attribs ps)[k]? = some p ∧ w ∈ attribRecord A (attribOff hsize + k * A.size) p

/-- A once-per-constant store of the constant loop, for the parameter at position `j`. -/
def isHeadW (A : AttribLayout) (C : ConstLayout) (sel : param → Bool) (hsize : Nat)
    (ps : List param) (w : Write) : Prop :=
  ∃ j p, ps[j]? = some p ∧ sel p = true ∧
    w ∈ constHead C (constOff A hsize ps + slotSum sel (ps.take j) * C.size) p

/-- A per-slot store of the constant loop, for slot `i` of the parameter at position `j`. -/
def isSlotW (A : AttribLayout) (C : ConstLayout) (sel : param → Bool)
    (idx : param → Nat → Nat) (hsize : Nat) (ps : List param) (w : Write) : Prop :=
  ∃ j p i, ps[j]? = some p ∧ sel p = true ∧ i < iterations p.count ∧
    w ∈ constSlot C (idx p i) (constOff A hsize ps + (slotSum sel (ps.take j) + i) * C.size)
      (p.values i)

/-- A store of a name character or terminator. -/
def isStrW (A : AttribLayout) (C : ConstLayout) (sel : param → Bool) (hsize : Nat)
    (ps : List param) (w : Write) : Prop :=
  ∃ k b, (nameBytes ps)[k]? = some b ∧ w = (namesOff A C sel hsize ps + k, b % 256)

/-- A store of the back-patch for the parameter at position `j`. -/
def isPatchW (A : AttribLayout) (C : ConstLayout) (sel : param → Bool) (hsize : Nat)
    (ps : List param) (w : Write) : Prop :=
  ∃ j p, ps[j]? = some p ∧ named p = true ∧
    w ∈ st (userAt A C sel hsize ps j p) 4
      (SWAP32_int ((namesOff A C sel hsize ps + (nameBytes (ps.take j)).length) % 2 ^ 32))

/-- A store of a padding loop. -/
def isPadW (A : AttribLayout) (C : ConstLayout) (sel : param → Bool) (hsize : Nat)
    (ps : List param) (w : Write) : Prop :=
  w ∈ (pad4 hsize).1 ∨ w ∈ (pad4 (attribEnd A hsize ps)).1 ∨
    w ∈ (pad4 (constEnd A C sel hsize ps)).1 ∨ w ∈ (pad16 (namesEnd A C sel hsize ps)).1

/-- A store of the instruction loop: word `j` of instruction `i`. -/
def isInsnW (A : AttribLayout) (C : ConstLayout) (sel : param → Bool) (enc : Nat → Nat)
    (hsize : Nat) (ps : List param) (insns : List program_exec) (w : Write) : Prop :=
  ∃ i e j, insns[i]? = some e ∧ j < 4 ∧
    w ∈ st (ucodeOff A C sel hsize ps + 16 * i + 4 * j) 4 (enc (e.data j))

/-- A store into one of the common header members. -/
def isHdrW (H : Header) (A : AttribLayout) (C : ConstLayout) (sel : param → Bool)
    (ps : List param) (insns : List program_exec) (w : Write) : Prop :=
  w ∈ st H.attrib_off 4 (SWAP32 (attribOff H.size % 2 ^ 32)) ∨
    w ∈ st H.num_attrib 2 (SWAP16 (attribs ps).length) ∨
    w ∈ st H.const_off 4 (SWAP32 (constOff A H.size ps % 2 ^ 32)) ∨
    w ∈ st H.num_const 2 (SWAP16 (slotSum sel ps)) ∨
    w ∈ st H.ucode_off 4 (SWAP32 (ucodeOff A C sel H.size ps % 2 ^ 32)) ∨
    w ∈ st H.num_insn 2 (SWAP16 insns.length)

/-! ## Where the stores go -/

/-- The condition of the constant loop covers every constant the name loop selects. -/
def selCovers (sel : param → Bool) : Prop :=
  ∀ p : param, named p = true → p.is_const = true → sel p = true

/-! ## The header members -/

/-- The stores before the first padding loop stay clear of the common header members and of
everything behind the header. -/
def preOk (H : Header) (pre : List Write) : Prop :=
  ∀ w ∈ pre, w.1 < H.size ∧ ∀ f ∈ H.fields, w.1 < f.1 ∨ f.1 + f.2 ≤ w.1

/-- The values stored in the common header members, in the order of `Header.fields`. -/
def hdrVals (H : Header) (A : AttribLayout) (C : ConstLayout) (sel : param → Bool)
    (ps : List param) (insns : List program_exec) : List Nat :=
  [SWAP32 (attribOff H.size % 2 ^ 32), SWAP16 (attribs ps).length,
    SWAP32 (constOff A H.size ps % 2 ^ 32), SWAP16 (slotSum sel ps),
    SWAP32 (ucodeOff A C sel H.size ps % 2 ^ 32), SWAP16 insns.length]

/-! ## Sample layouts and programs -/

/-- Modelled from the spec: the vertex header table of the container format, its members in
table order at their natural alignment (the header declaring `rsxVertexProgram` is not part
of the translated file). -/
def specVPHeader : VPHeader :=
  { size := 40, magic := 0, start_insn := 2, const_start := 4, input_mask := 8,
    output_mask := 12, attrib_off := 16, num_attrib := 20, const_off := 24, num_const := 28,
    ucode_off := 32, num_insn := 36 }

/-- Modelled from the spec: the fragment header, which mirrors the vertex header with
`num_regs` and `fp_control` in the place of the two masks. -/
def specFPHeader : FPHeader :=
  { size := 40, magic := 0, num_regs := 8, fp_control := 12, attrib_off := 16,
    num_attrib := 20, const_off := 24, num_const := 28, ucode_off := 32, num_insn := 36 }

/-- An attribute record of 8 bytes: `name_off`, then `index`. -/
def sampleAttrib : AttribLayout :=
  { size := 8, name_off := 0, index := 4 }

/-- A constant record of 28 bytes: `name_off`, `index`, one byte each for `type`, `is_internal`
and `count`, then the four values. -/
def sampleConst : ConstLayout :=
  { size := 28, name_off := 0, index := 4, values := 12, count := 10, count_w := 1,
    type := 8, type_w := 1, is_internal := 9, is_internal_w := 1 }

/-- A constant-source field of 9 bits at bit 12. -/
def sampleSrc : ConstSrc :=
  { mask := 0x1FF <<< 12, shift := 12 }

/-- The sample vertex layout. -/
def sampleVP : VPLayout :=
  { hdr := specVPHeader, attr := sampleAttrib, cst := sampleConst, src := sampleSrc }

/-- The sample fragment layout. -/
def sampleFP : FPLayout :=
  { hdr := specFPHeader, attr := sampleAttrib, cst := sampleConst }

/-- The vertex scenario of the specification: one attribute (index 0), one constant of one
slot (index 4, values 1.0, 0.0, 0.0, 1.0 as `f32` bit patterns) and one instruction whose
constant source is relocated to the constant. -/
def scenarioVP : VPProgram :=
  { params :=
      [{ name := [112, 111, 115], is_const := false, is_internal := false, type := 0,
         index := 0, count := 1, values := fun _ _ => 0, user := 0 },
       { name := [99, 111, 108], is_const := true, is_internal := false, type := 1,
         index := 4, count := 1,
         values := fun _ j => if j = 0 ∨ j = 3 then 0x3F800000 else 0, user := 0 }]
    insns := [{ data := fun j => if j = 0 then 0x401F9C6C else if j = 1 then 0x0040000D
                  else if j = 2 then 0x8106C083 else 0x60401F81 }]
    const_reloc := [{ location := 0, target := 4 }]
    input_mask := 1
    output_mask := 1 }

/-- A fragment program with one internal constant and one named constant, each of one slot. -/
def scenarioFP : FPProgram :=
  { params :=
      [{ name := [], is_const := true, is_internal := true, type := 1, index := 0, count := 1,
         values := fun _ _ => 0x3F000000, user := 0 },
       { name := [99, 111, 108], is_const := true, is_internal := false, type := 1,
         index := 1, count := 1, values := fun _ _ => 0x3F800000, user := 0 }]
    insns := [{ data := fun j => if j = 0 then 0x11223344 else j }]
    const_relocs := [{ index := 1, offset := 1 }]
    num_regs := 2
    fp_control := 0 }

/-! ## The constant table -/

/-- The facts a constant record layout provides. -/
structure ConstFacts (C : ConstLayout) : Prop where
  name0 : C.name_off = 0
  index_in : C.index + 4 ≤ C.size
  values_in : C.values + 16 ≤ C.size
  count_in : C.count + C.count_w ≤ C.size
  type_in : C.type + C.type_w ≤ C.size
  internal_in : C.is_internal + C.is_internal_w ≤ C.size
  name_index : 4 ≤ C.index
  name_values : 4 ≤ C.values
  name_count : 4 ≤ C.count ∨ C.count_w = 0
  name_type : 4 ≤ C.type ∨ C.type_w = 0
  name_internal : 4 ≤ C.is_internal ∨ C.is_internal_w = 0
  index_values : C.index + 4 ≤ C.values ∨ C.values + 16 ≤ C.index
  index_count : C.index + 4 ≤ C.count ∨ C.count + C.count_w ≤ C.index
  index_type : C.index + 4 ≤ C.type ∨ C.type + C.type_w ≤ C.index
  index_internal : C.index + 4 ≤ C.is_internal ∨ C.is_internal + C.is_internal_w ≤ C.index
  values_count : C.values + 16 ≤ C.count ∨ C.count + C.count_w ≤ C.values
  values_type : C.values + 16 ≤ C.type ∨ C.type + C.type_w ≤ C.values
  values_internal :
    C.values + 16 ≤ C.is_internal ∨ C.is_internal + C.is_internal_w ≤ C.values

/-- The members a slot iteration stores, with the stored values. -/
def slotFields (C : ConstLayout) (idx : Nat) (pVal : Nat → Nat) : List (Nat × Nat) :=
  [(C.index, idx), (C.values + 0, SWAP32 (pVal 0 % 2 ^ 32)),
    (C.values + 4, SWAP32 (pVal 1 % 2 ^ 32)), (C.values + 8, SWAP32 (pVal 2 % 2 ^ 32)),
    (C.values + 12, SWAP32 (pVal 3 % 2 ^ 32))]

/-- The four members the once-per-constant stores go to. -/
def isHeadField (C : ConstLayout) (g wd : Nat) : Prop :=
  (g = C.count ∧ wd = C.count_w) ∨ (g = C.type ∧ wd = C.type_w) ∨
    (g = C.is_internal ∧ wd = C.is_internal_w) ∨ (g = C.name_off ∧ wd = 4)

/-- The members the slot loop stores to: `index` and the four values. -/
def isSlotField (C : ConstLayout) (g : Nat) : Prop :=
  g = C.index ∨ ∃ m, m < 4 ∧ g = C.values + 4 * m

/-! ## Relocation -/

/-- The target fits the constant-source field: shifted into place it has no bit outside the
mask. -/
def fitsField (F : ConstSrc) (target : Nat) : Prop :=
  (target <<< F.shift) &&& (F.mask % 2 ^ 32) = target <<< F.shift

/-! ## The name string table -/

/-- Every selected constant passes at least once through the slot loop. -/
def slotsOk (sel : param → Bool) (ps : List param) : Prop :=
  ∀ p ∈ ps, sel p = true → 1 ≤ iterations p.count

/-- The selected constants are constants. -/
def selConst (sel : param → Bool) : Prop :=
  ∀ p : param, sel p = true → p.is_const = true

/-! ## Reading the tables of a finished container -/

/-- The `index` member of attribute record `k`, read big-endian. -/
def attribIndexAt (o : Emitted) (A : AttribLayout) (k : Nat) : Nat :=
  be32 o.mem (o.attrib_off + k * A.size + A.index)

/-- The `name_off` member of attribute record `k`, read big-endian. -/
def attribNameOffAt (o : Emitted) (A : AttribLayout) (k : Nat) : Nat :=
  be32 o.mem (o.attrib_off + k * A.size + A.name_off)

/-- The `index` member of constant record `r`, read big-endian. -/
def constIndexAt (o : Emitted) (C : ConstLayout) (r : Nat) : Nat :=
  be32 o.mem (o.const_off + r * C.size + C.index)

/-- The `name_off` member of constant record `r`, read big-endian. -/
def constNameOffAt (o : Emitted) (C : ConstLayout) (r : Nat) : Nat :=
  be32 o.mem (o.const_off + r * C.size + C.name_off)

/-- The member `values[v]` of constant record `r`, read big-endian. -/
def constValueAt (o : Emitted) (C : ConstLayout) (r v : Nat) : Nat :=
  be32 o.mem (o.const_off + r * C.size + C.values + 4 * v)

/-- A vertex program with one constant of two slots. -/
def twoSlotVP : VPProgram :=
  { params :=
      [{ name := [109], is_const := true, is_internal := false, type := 1, index := 8,
         count := 2, values := fun i j => i + j, user := 0 }]
    insns := []
    const_reloc := []
    input_mask := 0
    output_mask := 0 }

/-- The fragment scenario with an attribute in front. -/
def attribFP : FPProgram :=
  { scenarioFP with
    params :=
      { name := [116, 99], is_const := false, is_internal := false, type := 0, index := 4,
        count := 1, values := fun _ _ => 0, user := 0 } :: scenarioFP.params }

/-! ## Names and their offsets -/

/-- The size of the output buffer: `calloc(2*1024*1024,1)`. -/
def bufferSize : Nat :=
  2 * 1024 * 1024

/-- The names are strings of non-NUL bytes. -/
def namesOk (ps : List param) : Prop :=
  ∀ p ∈ ps, ∀ c ∈ p.name, 0 < c ∧ c < 256

/-- Every constant has a count of at least 1 (and, the count being read as a signed 32-bit
number by the slot loop, below `2 ^ 31`). -/
def countsOk (ps : List param) : Prop :=
  ∀ p ∈ ps, p.is_const = true → 1 ≤ p.count ∧ p.count < 2 ^ 31

/-- Offset of the `name_off` member of the first table record of the parameter `p` at
position `j`: in the constant table for a constant, in the attribute table otherwise. -/
def nameOffField (o : Emitted) (A : AttribLayout) (C : ConstLayout) (sel : param → Bool)
    (ps : List param) (j : Nat) (p : param) : Nat :=
  if p.is_const = true then o.const_off + slotSum sel (ps.take j) * C.size + C.name_off
  else o.attrib_off + (attribs (ps.take j)).length * A.size + A.name_off

/-- The strings of the name table, one per parameter the name loop selects. -/
def nameStrings (ps : List param) : List (List Nat) :=
  (ps.filter fun p => named p).map fun p => p.name ++ [0]

instance (ps : List param) : Decidable (countsOk ps) := by
  unfold countsOk; infer_instance

instance (ps : List param) : Decidable (namesOk ps) := by
  unfold namesOk; infer_instance

/-- What is claimed of the name string table of a finished container `o`: every parameter
with a non-empty name that is not internal has, in the `name_off` member of its first table
record, the offset of its NUL-terminated name; the names lie back to back in declaration
order, one per such parameter, from the 4-aligned end of the constant table on. -/
def nameTableSpec (o : Emitted) (A : AttribLayout) (C : ConstLayout) (sel : param → Bool)
    (ps : List param) : Prop :=
  (∀ j p, ps[j]? = some p → named p = true →
    be32 o.mem (nameOffField o A C sel ps j p) =
        o.names_off + (nameBytes (ps.take j)).length ∧
      bytesAt o.mem (o.names_off + (nameBytes (ps.take j)).length) (p.name ++ [0]).length =
        p.name ++ [0] ∧
      o.names_off + (nameBytes (ps.take j)).length + (p.name ++ [0]).length ≤ o.names_end) ∧
    bytesAt o.mem o.names_off (nameBytes ps).length = nameBytes ps ∧
    nameBytes ps = (nameStrings ps).flatten ∧
    o.names_end = o.names_off + (nameBytes ps).length ∧
    o.names_off % 4 = 0 ∧
    o.const_off + o.num_const * C.size ≤ o.names_off ∧
    o.names_off < o.const_off + o.num_const * C.size + 4

/-- A vertex program whose first constant is named and has count 0, followed by an internal
constant of one slot. -/
def zeroCountVP : VPProgram :=
  { params :=
      [{ name := [97], is_const := true, is_internal := false, type := 1, index := 0,
         count := 0, values := fun _ _ => 0, user := 0 },
       { name := [], is_const := true, is_internal := true, type := 1, index := 1,
         count := 1, values := fun _ _ => 0, user := 0 }]
    insns := []
    const_reloc := []
    input_mask := 0
    output_mask := 0 }

/-- What is claimed of the internal parameters of a finished container `o`: an internal
parameter adds nothing to the name string table, and the `name_off` member of each of its
records is zero. -/
def internalSpec (o : Emitted) (A : AttribLayout) (C : ConstLayout) (sel : param → Bool)
    (ps : List param) : Prop :=
  bytesAt o.mem o.names_off (nameBytes ps).length = ((nameBytes ps).map fun b => b % 256) ∧
    o.names_end = o.names_off + (nameBytes ps).length ∧
    ∀ j p, ps[j]? = some p → p.is_internal = true →
      nameBytes ps = nameBytes (ps.take j ++ ps.drop (j + 1)) ∧
        (p.is_const = false → attribNameOffAt o A (attribs (ps.take j)).length = 0) ∧
        (sel p = true → ∀ i, i < iterations p.count →
          constNameOffAt o C (slotSum sel (ps.take j) + i) = 0)

/-- A vertex program with an internal constant of two slots and an internal attribute. -/
def internalVP : VPProgram :=
  { params :=
      [{ name := [120], is_const := true, is_internal := true, type := 1, index := 0,
         count := 2, values := fun _ _ => 7, user := 0 },
       { name := [121], is_const := false, is_internal := true, type := 0, index := 3,
         count := 1, values := fun _ _ => 0, user := 0 },
       { name := [122], is_const := true, is_internal := false, type := 1, index := 2,
         count := 1, values := fun _ _ => 9, user := 0 }]
    insns := []
    const_reloc := []
    input_mask := 0
    output_mask := 0 }

/-- What C7 claims of a relocation list: after the relocation loop every relocation finds its
target in the constant-source field of the instruction it names. -/
def relocSpec (F : ConstSrc) (relocs : List nvfx_relocation) (vpi : List program_exec) :
    Prop :=
  ∀ r ∈ relocs,
    ((relocate F relocs vpi)[r.location]?).map (constSrcField F) = some r.target

instance (F : ConstSrc) (relocs : List nvfx_relocation) (vpi : List program_exec) :
    Decidable (relocSpec F relocs vpi) := by
  unfold relocSpec; infer_instance

instance (F : ConstSrc) (target : Nat) : Decidable (fitsField F target) := by
  unfold fitsField; infer_instance

/-- An instruction of four zero words. -/
def zeroInsn : program_exec :=
  { data := fun _ => 0 }

/-- Two relocations of the same instruction. -/
def dupRelocs : List nvfx_relocation :=
  [{ location := 0, target := 1 }, { location := 0, target := 2 }]

/-- A relocation whose target needs ten bits. -/
def wideReloc : List nvfx_relocation :=
  [{ location := 0, target := 512 }]

/-- The exact 4-byte reversal of a 32-bit value, written byte by byte. -/
def bswap32 (v : Nat) : Nat :=
  (v % 256) * 2 ^ 24 + (v / 2 ^ 8 % 256) * 2 ^ 16 + (v / 2 ^ 16 % 256) * 2 ^ 8 + v / 2 ^ 24 % 256

/-- The exact 2-byte reversal of a 16-bit value, written byte by byte. -/
def bswap16 (v : Nat) : Nat :=
  (v % 256) * 2 ^ 8 + v / 2 ^ 8 % 256

/-- A fragment program whose named constant of two slots is matched by no relocation
record. -/
def unmatchedFP : FPProgram :=
  { params :=
      [{ name := [117], is_const := true, is_internal := false, type := 1, index := 5,
         count := 2, values := fun _ _ => 0x3F800000, user := 0 }]
    insns := [{ data := fun j => j }]
    const_relocs := [{ index := 1, offset := 0 }]
    num_regs := 2
    fp_control := 0 }

/-- The bits of a 32-bit word outside the constant-source field: `~MASK` in `u32`
arithmetic. -/
def outsideMask (F : ConstSrc) : Nat :=
  0xFFFFFFFF ^^^ (F.mask % 2 ^ 32)

/-- What holds of the records of the constant `p` at position `j` of the parameter list in a
finished container `o`: the first record carries `count`, `type` and `is_internal` as the
host stored them, the further records hold zero in these three members. -/
def headSpec (o : Emitted) (C : ConstLayout) (sel : param → Bool) (ps : List param) (j : Nat)
    (p : param) : Prop :=
  holds o.mem (o.const_off + slotSum sel (ps.take j) * C.size + C.count) C.count_w p.count ∧
    holds o.mem (o.const_off + slotSum sel (ps.take j) * C.size + C.type) C.type_w p.type ∧
    holds o.mem (o.const_off + slotSum sel (ps.take j) * C.size + C.is_internal)
      C.is_internal_w (if p.is_internal then 1 else 0) ∧
    ∀ i, 1 ≤ i → i < iterations p.count →
      holds o.mem (o.const_off + (slotSum sel (ps.take j) + i) * C.size + C.count)
          C.count_w 0 ∧
        holds o.mem (o.const_off + (slotSum sel (ps.take j) + i) * C.size + C.type)
          C.type_w 0 ∧
        holds o.mem (o.const_off + (slotSum sel (ps.take j) + i) * C.size + C.is_internal)
          C.is_internal_w 0

/-- What is claimed of the back-patch of the parameter `p` at position `j` in a finished
container `o`: the `user` offset the name loop reads was assigned by the attribute loop or by
the constant loop, it is the start of a record of `p` (the attribute record that holds `p`,
or the record of slot 0 of `p`), and the four bytes the back-patch stores lie inside that
record, which lies inside its table. -/
def patchSpec (o : Emitted) (A : AttribLayout) (C : ConstLayout) (sel : param → Bool)
    (ps : List param) (j : Nat) (p : param) : Prop :=
  ∃ u, o.users[j]? = some u ∧
    ((p.is_const = false ∧ u = o.attrib_off + (attribs (ps.take j)).length * A.size ∧
        (attribs ps)[(attribs (ps.take j)).length]? = some p ∧
        (attribs (ps.take j)).length < o.num_attrib ∧ 4 ≤ A.size ∧
        u + A.size ≤ o.attrib_off + o.num_attrib * A.size) ∨
      (p.is_const = true ∧ u = o.const_off + slotSum sel (ps.take j) * C.size ∧
        1 ≤ iterations p.count ∧
        slotSum sel (ps.take j) + iterations p.count ≤ o.num_const ∧ 4 ≤ C.size ∧
        u + C.size ≤ o.const_off + o.num_const * C.size ∧
        ∀ j1 p1 i1, ps[j1]? = some p1 → sel p1 = true → i1 < iterations p1.count →
          slotSum sel (ps.take j1) + i1 = slotSum sel (ps.take j) → j1 = j ∧ i1 = 0))

/-- Every store of the name loop goes into the name string table, into the attribute table
or into the constant table. -/
def nameLoopInside (o : Emitted) (A : AttribLayout) (C : ConstLayout) (ps : List param) :
    Prop :=
  ∀ w ∈ nameWrites o.names_off (ps.zip o.users),
    (o.names_off ≤ w.1 ∧ w.1 < o.names_end) ∨
      (o.attrib_off ≤ w.1 ∧ w.1 < o.attrib_off + o.num_attrib * A.size) ∨
      (o.const_off ≤ w.1 ∧ w.1 < o.const_off + o.num_const * C.size)

/-- What is claimed of the layout of a finished container `o` of `n` instructions with a
header of `hsize` bytes: the output file has `ucode_off + 16 * n` bytes, a multiple of 16; the
header, the attribute table, the constant table, the name string table and the instruction
stream follow each other in this order without overlap; every byte of the file between two
of them is zero. -/
def layoutSpec (o : Emitted) (hsize : Nat) (A : AttribLayout) (C : ConstLayout) (n : Nat) :
    Prop :=
  o.file.length = o.ucode_off + 16 * n ∧ o.file.length % 16 = 0 ∧
    hsize ≤ o.attrib_off ∧ o.attrib_off + o.num_attrib * A.size ≤ o.const_off ∧
    o.const_off + o.num_const * C.size ≤ o.names_off ∧ o.names_off ≤ o.names_end ∧
    o.names_end ≤ o.ucode_off ∧ o.ucode_off ≤ o.file.length ∧
    ∀ x, (hsize ≤ x ∧ x < o.attrib_off) ∨
        (o.attrib_off + o.num_attrib * A.size ≤ x ∧ x < o.const_off) ∨
        (o.const_off + o.num_const * C.size ≤ x ∧ x < o.names_off) ∨
        (o.names_end ≤ x ∧ x < o.ucode_off) →
      o.file[x]? = some 0

/-- The values `compileVP()` and `compileFP()` return. -/
inductive Status where
  | EXIT_SUCCESS
  | EXIT_FAILURE

/-- What a run of `compileVP()` or `compileFP()` leaves: the returned status and the bytes
written to the output file, `none` when no file is written. -/
structure Outcome where
  status : Status
  written : Option (List Nat)

/-- What the collaborators that produce the assembly text answer: `readFile(Options.src_file)`
(`none` for `NULL`) and `cgCreateProgramFromFile(...)` (`none` for `NULL`) together with the
answer of `cgGetProgramString` for the program (`none` for `NULL`). -/
structure Upstream where
  readFile : Option (List Nat)
  cgCreateProgramFromFile : Option (Option (List Nat))

/-- What the statements `parser.Parse(prg); compiler.Compile(&parser);` leave behind: the data
the getters hand to the emitter, and whether parsing or compiling failed.  Both classes are
declared outside the translated file; the driver discards the values of both calls and reads
no state of the two objects before it emits. -/
structure Front (P : Type) where
  prog : P
  parse_failed : Bool
  compile_failed : Bool

/-- The pointer `prg` at `if(prg)`: the outer `none` is the early `return EXIT_FAILURE` for
`program==NULL`, the inner `none` the pointer `NULL`. -/
def acquire (gen_asm : Bool) (e : Upstream) : Option (Option (List Nat)) :=
  if gen_asm = true then some e.readFile
  else
    match e.cgCreateProgramFromFile with
    | none => none
    | some prg => some prg

/-- The function `int compileVP()`, the output file being writable: the text is obtained, the
parser and the compiler run, the container is emitted and written. -/
def compileVP_run (L : VPLayout) (gen_asm : Bool) (e : Upstream)
    (front : List Nat → Front VPProgram) : Outcome :=
  match acquire gen_asm e with
  | none => { status := Status.EXIT_FAILURE, written := none }
  | some none => { status := Status.EXIT_FAILURE, written := none }
  | some (some prg) =>
    { status := Status.EXIT_SUCCESS, written := some (compileVP L (front prg).prog).file }

/-- The function `int compileFP()`, the output file being writable. -/
def compileFP_run (L : FPLayout) (gen_asm : Bool) (e : Upstream)
    (front : List Nat → Front FPProgram) : Outcome :=
  match acquire gen_asm e with
  | none => { status := Status.EXIT_FAILURE, written := none }
  | some none => { status := Status.EXIT_FAILURE, written := none }
  | some (some prg) =>
    { status := Status.EXIT_SUCCESS, written := some (compileFP L (front prg).prog).file }

/-- An assembly text that is read from the input file. -/
def readableText : Upstream :=
  { readFile := some [33, 33, 86, 80], cgCreateProgramFromFile := none }

/-- A front end whose compiler stage fails and leaves the data of the vertex scenario. -/
def failingVP (_ : List Nat) : Front VPProgram :=
  { prog := scenarioVP, parse_failed := false, compile_failed := true }

/-- A front end whose parser stage fails and leaves the data of the fragment scenario. -/
def failingFP (_ : List Nat) : Front FPProgram :=
  { prog := scenarioFP, parse_failed := true, compile_failed := false }

/-! # Theorems -/

/-! ## Bit-level facts about the macros -/

theorem testBit_above (v n i : Nat) (h : v < 2 ^ n) (hi : n ≤ i) : v.testBit i = false :=
  Nat.testBit_lt_two_pow (lt_of_lt_of_le h (Nat.pow_le_pow_right (by decide) hi))

theorem testBit_FF00 (i : Nat) : Nat.testBit 0xFF00 i = decide (8 ≤ i ∧ i < 16) := by
  by_cases h : i < 16
  · interval_cases i <;> decide
  · rw [testBit_above 0xFF00 16 i (by decide) (by omega)]; simp; omega

theorem testBit_FF0000 (i : Nat) : Nat.testBit 0xFF0000 i = decide (16 ≤ i ∧ i < 24) := by
  by_cases h : i < 24
  · interval_cases i <;> decide
  · rw [testBit_above 0xFF0000 24 i (by decide) (by omega)]; simp; omega

theorem testBit_FFFF (i : Nat) : Nat.testBit 0xffff i = decide (i < 16) := by
  have : (0xffff : Nat) = 2 ^ 16 - 1 := by norm_num
  rw [this, Nat.testBit_two_pow_sub_one]

theorem pow256 (j : Nat) : (256 : Nat) ^ j = 2 ^ (8 * j) := by
  rw [pow_mul]; norm_num

theorem byte_ext (x y : Nat) (h : ∀ i, i < 8 → x.testBit i = y.testBit i) :
    x % 256 = y % 256 := by
  apply Nat.eq_of_testBit_eq
  intro i
  have e : (256 : Nat) = 2 ^ 8 := by norm_num
  rw [e, Nat.testBit_mod_two_pow, Nat.testBit_mod_two_pow]
  by_cases hi : i < 8
  · simp [hi, h i hi]
  · simp [hi]

/-- Byte `k` of `SWAP32 v` is byte `3 - k` of `v`. -/
theorem SWAP32_byte (v k : Nat) (hv : v < 2 ^ 32) (hk : k < 4) :
    SWAP32 v / 256 ^ k % 256 = v / 256 ^ (3 - k) % 256 := by
  rw [pow256, pow256, ← Nat.shiftRight_eq_div_pow, ← Nat.shiftRight_eq_div_pow]
  apply byte_ext
  intro i hi
  unfold SWAP32
  simp only [Nat.testBit_lor, Nat.testBit_land, Nat.testBit_shiftLeft, Nat.testBit_shiftRight,
    Nat.testBit_mod_two_pow, testBit_FF00, testBit_FF0000]
  interval_cases k <;> interval_cases i <;> simp [testBit_above v 32 _ hv]

theorem SWAP32_lt (v : Nat) (hv : v < 2 ^ 32) : SWAP32 v < 2 ^ 32 := by
  unfold SWAP32
  have h1 : v >>> 24 < 2 ^ 32 := by
    rw [Nat.shiftRight_eq_div_pow]; exact lt_of_le_of_lt (Nat.div_le_self _ _) hv
  have h2 : (v &&& 0xFF0000) >>> 8 < 2 ^ 32 := by
    rw [Nat.shiftRight_eq_div_pow]
    exact lt_of_le_of_lt (Nat.div_le_self _ _) (lt_of_le_of_lt Nat.and_le_left hv)
  exact Nat.or_lt_two_pow (Nat.or_lt_two_pow (Nat.or_lt_two_pow h1 (Nat.mod_lt _ (by norm_num)))
    (Nat.mod_lt _ (by norm_num))) h2

theorem SWAP32_int_eq (v : Nat) (hv : v < 2 ^ 31) : SWAP32_int v = SWAP32 v := by
  unfold SWAP32_int SWAP32 sar24
  rw [if_pos hv]

/-- Byte `k` of the 16-bit truncation of `SWAP16 v` is byte `1 - k` of `v`, for `v` below
`2 ^ 16`. -/
theorem SWAP16_byte (v k : Nat) (hv : v < 2 ^ 16) (hk : k < 2) :
    SWAP16 v / 256 ^ k % 256 = v / 256 ^ (1 - k) % 256 := by
  rw [pow256, pow256, ← Nat.shiftRight_eq_div_pow, ← Nat.shiftRight_eq_div_pow]
  apply byte_ext
  intro i hi
  unfold SWAP16
  simp only [Nat.testBit_lor, Nat.testBit_land, Nat.testBit_shiftLeft, Nat.testBit_shiftRight,
    Nat.testBit_mod_two_pow]
  interval_cases k <;> interval_cases i <;> simp [testBit_above v 16 _ hv]

theorem endian_fp_byte (v k : Nat) (hv : v < 2 ^ 32) (hk : k < 4) :
    endian_fp v / 256 ^ k % 256 = v / 256 ^ ((k + 2) % 4) % 256 := by
  rw [pow256, pow256, ← Nat.shiftRight_eq_div_pow, ← Nat.shiftRight_eq_div_pow]
  apply byte_ext
  intro i hi
  unfold endian_fp
  simp only [Nat.testBit_lor, Nat.testBit_land, Nat.testBit_shiftLeft, Nat.testBit_shiftRight,
    Nat.testBit_mod_two_pow, testBit_FFFF]
  interval_cases k <;> interval_cases i <;> simp [testBit_above v 32 _ hv]

/-! ## Facts about stores and loads -/

theorem mem_st (w : Write) (a n v : Nat) :
    w ∈ st a n v ↔ ∃ k, k < n ∧ w = (a + k, v / 256 ^ k % 256) := by
  unfold st
  simp only [List.mem_map, List.mem_range]
  constructor
  · rintro ⟨k, hk, rfl⟩; exact ⟨k, hk, rfl⟩
  · rintro ⟨k, hk, rfl⟩; exact ⟨k, hk, rfl⟩

theorem st_addr (w : Write) (a n v : Nat) (h : w ∈ st a n v) : a ≤ w.1 ∧ w.1 < a + n := by
  obtain ⟨k, hk, rfl⟩ := (mem_st w a n v).1 h
  simp only; omega

theorem overlay_append (a b : List Write) (x c : Nat) :
    overlay (a ++ b) x c = overlay b x (overlay a x c) := by
  induction a generalizing c with
  | nil => rfl
  | cons w ws ih => exact ih _

theorem overlay_skip (ws : List Write) (x c : Nat) (h : ∀ w ∈ ws, w.1 ≠ x) :
    overlay ws x c = c := by
  induction ws generalizing c with
  | nil => rfl
  | cons w ws ih =>
    simp only [overlay]
    rw [if_neg (h w (List.mem_cons_self _ _))]
    exact ih c fun w1 h1 => h w1 (List.mem_cons_of_mem _ h1)

theorem overlay_same (ws : List Write) (x c b : Nat) (h : ∀ w ∈ ws, w.1 = x → w.2 = b) :
    overlay ws x c = b ∨ (overlay ws x c = c ∧ ∀ w ∈ ws, w.1 ≠ x) := by
  induction ws generalizing c with
  | nil => exact Or.inr ⟨rfl, fun _ hw => absurd hw (List.not_mem_nil _)⟩
  | cons w ws ih =>
    have hrest : ∀ w1 ∈ ws, w1.1 = x → w1.2 = b := fun w1 h1 => h w1 (List.mem_cons_of_mem _ h1)
    simp only [overlay]
    by_cases hw : w.1 = x
    · rw [if_pos hw]
      rcases ih w.2 hrest with h1 | ⟨h1, _⟩
      · exact Or.inl h1
      · exact Or.inl (by rw [h1]; exact h w (List.mem_cons_self _ _) hw)
    · rw [if_neg hw]
      rcases ih c hrest with h1 | ⟨h1, h2⟩
      · exact Or.inl h1
      · refine Or.inr ⟨h1, ?_⟩
        intro w1 hw1
        rcases List.mem_cons.1 hw1 with rfl | h3
        · exact hw
        · exact h2 w1 h3

/-- If every store to `x` stores `b` and there is one, `x` holds `b`. -/
theorem load_unique (ws : List Write) (x b : Nat) (h : ∀ w ∈ ws, w.1 = x → w.2 = b)
    (hex : ∃ w ∈ ws, w.1 = x) : load ws x = b := by
  rcases overlay_same ws x 0 b h with h1 | ⟨_, h2⟩
  · exact h1
  · obtain ⟨w, hw, hx⟩ := hex
    exact absurd hx (h2 w hw)

/-- If every store to `x` stores `0`, `x` holds `0`: the buffer starts zero-filled. -/
theorem load_zero (ws : List Write) (x : Nat) (h : ∀ w ∈ ws, w.1 = x → w.2 = 0) :
    load ws x = 0 := by
  rcases overlay_same ws x 0 0 h with h1 | ⟨h1, _⟩
  · exact h1
  · exact h1

/-- A field holds `v` when `v` was stored there and every store into the field stores the
corresponding byte of `v`. -/
theorem holds_of_writes (ws : List Write) (a n v : Nat)
    (hin : ∀ w ∈ st a n v, w ∈ ws)
    (huniq : ∀ w ∈ ws, a ≤ w.1 → w.1 < a + n → w.2 = v / 256 ^ (w.1 - a) % 256) :
    holds (load ws) a n v := by
  intro k hk
  apply load_unique
  · intro w hw hx
    have := huniq w hw (by omega) (by omega)
    rw [this, hx]; congr 3; omega
  · exact ⟨(a + k, v / 256 ^ k % 256), hin _ ((mem_st _ a n v).2 ⟨k, hk, rfl⟩), rfl⟩

theorem be32_of_holds (m : Nat → Nat) (a v : Nat) (hv : v < 2 ^ 32)
    (h : holds m a 4 (SWAP32 v)) : be32 m a = v := by
  have h0 := h 0 (by norm_num)
  have h1 := h 1 (by norm_num)
  have h2 := h 2 (by norm_num)
  have h3 := h 3 (by norm_num)
  rw [SWAP32_byte v _ hv (by norm_num)] at h0 h1 h2 h3
  simp only [Nat.add_zero] at h0
  unfold be32
  rw [h0, h1, h2, h3]
  norm_num
  omega

theorem be16_of_holds (m : Nat → Nat) (a v : Nat) (hv : v < 2 ^ 16)
    (h : holds m a 2 (SWAP16 v)) : be16 m a = v := by
  have h0 := h 0 (by norm_num)
  have h1 := h 1 (by norm_num)
  rw [SWAP16_byte v _ hv (by norm_num)] at h0 h1
  simp only [Nat.add_zero] at h0
  unfold be16
  rw [h0, h1]
  norm_num
  omega

/-! ## The padding loops -/

theorem pad4_spec (fuel off : Nat) (h : (4 - off % 4) % 4 ≤ fuel) :
    (padLoop 3 fuel off).2 = off + (4 - off % 4) % 4 ∧
      ∀ w ∈ (padLoop 3 fuel off).1, off ≤ w.1 ∧ w.1 < off + (4 - off % 4) % 4 ∧ w.2 = 0 := by
  induction fuel generalizing off with
  | zero =>
    simp only [padLoop, List.not_mem_nil, false_implies, implies_true, and_true]
    omega
  | succ fuel ih =>
    have e : off &&& 3 = off % 4 := Nat.and_pow_two_sub_one_eq_mod off 2
    by_cases hz : off % 4 = 0
    · have hc : ¬ (off &&& 3 ≠ 0) := by rw [e]; exact not_not.2 hz
      simp only [padLoop, if_neg hc]
      exact ⟨by omega, fun w hw => absurd hw (List.not_mem_nil _)⟩
    · have hc : off &&& 3 ≠ 0 := by rw [e]; exact hz
      have hf : (4 - (off + 1) % 4) % 4 ≤ fuel := by omega
      have hstep : off + 1 + (4 - (off + 1) % 4) % 4 = off + (4 - off % 4) % 4 := by
        clear h hf ih e hc; omega
      have hpos : off < off + (4 - off % 4) % 4 := by
        clear h hf ih e hc hstep; omega
      obtain ⟨i1, i2⟩ := ih (off + 1) hf
      simp only [padLoop, if_pos hc]
      refine ⟨by rw [i1, hstep], ?_⟩
      intro w hw
      rcases List.mem_cons.1 hw with rfl | hw
      · exact ⟨le_refl _, hpos, rfl⟩
      · obtain ⟨j1, j2, j3⟩ := i2 w hw
        rw [hstep] at j2
        exact ⟨by omega, j2, j3⟩

theorem pad16_spec (fuel off : Nat) (h : (16 - off % 16) % 16 ≤ fuel) :
    (padLoop 15 fuel off).2 = off + (16 - off % 16) % 16 ∧
      ∀ w ∈ (padLoop 15 fuel off).1, off ≤ w.1 ∧ w.1 < off + (16 - off % 16) % 16 ∧ w.2 = 0 := by
  induction fuel generalizing off with
  | zero =>
    simp only [padLoop, List.not_mem_nil, false_implies, implies_true, and_true]
    omega
  | succ fuel ih =>
    have e : off &&& 15 = off % 16 := Nat.and_pow_two_sub_one_eq_mod off 4
    by_cases hz : off % 16 = 0
    · have hc : ¬ (off &&& 15 ≠ 0) := by rw [e]; exact not_not.2 hz
      simp only [padLoop, if_neg hc]
      exact ⟨by omega, fun w hw => absurd hw (List.not_mem_nil _)⟩
    · have hc : off &&& 15 ≠ 0 := by rw [e]; exact hz
      have hf : (16 - (off + 1) % 16) % 16 ≤ fuel := by omega
      have hstep : off + 1 + (16 - (off + 1) % 16) % 16 = off + (16 - off % 16) % 16 := by
        clear h hf ih e hc; omega
      have hpos : off < off + (16 - off % 16) % 16 := by
        clear h hf ih e hc hstep; omega
      obtain ⟨i1, i2⟩ := ih (off + 1) hf
      simp only [padLoop, if_pos hc]
      refine ⟨by rw [i1, hstep], ?_⟩
      intro w hw
      rcases List.mem_cons.1 hw with rfl | hw
      · exact ⟨le_refl _, hpos, rfl⟩
      · obtain ⟨j1, j2, j3⟩ := i2 w hw
        rw [hstep] at j2
        exact ⟨by omega, j2, j3⟩

theorem pad4_snd (off : Nat) : (pad4 off).2 = off + (4 - off % 4) % 4 :=
  (pad4_spec 4 off (by omega)).1

theorem pad4_mem (off : Nat) (w : Write) (h : w ∈ (pad4 off).1) :
    off ≤ w.1 ∧ w.1 < (pad4 off).2 ∧ w.2 = 0 := by
  rw [pad4_snd]
  exact (pad4_spec 4 off (by omega)).2 w h

theorem pad16_snd (off : Nat) : (pad16 off).2 = off + (16 - off % 16) % 16 :=
  (pad16_spec 16 off (by omega)).1

theorem pad16_mem (off : Nat) (w : Write) (h : w ∈ (pad16 off).1) :
    off ≤ w.1 ∧ w.1 < (pad16 off).2 ∧ w.2 = 0 := by
  rw [pad16_snd]
  exact (pad16_spec 16 off (by omega)).2 w h

theorem attribs_cons (p : param) (ps : List param) :
    attribs (p :: ps) = if p.is_const = false then p :: attribs ps else attribs ps := by
  unfold attribs
  cases h : p.is_const <;> simp [List.filter_cons, h]

theorem attribCount_eq (n : Nat) (ps : List param) :
    attribCount n ps = n + (attribs ps).length := by
  induction ps generalizing n with
  | nil => rfl
  | cons p ps ih =>
    rw [attribs_cons]
    by_cases h : p.is_const = false
    · simp only [attribCount, if_pos h, ih, List.length_cons]; omega
    · simp only [attribCount, if_neg h, ih]

theorem mem_attribWrites (A : AttribLayout) (base n : Nat) (ps : List param) (w : Write) :
    w ∈ attribWrites A base n ps ↔
      ∃ k p, (attribs ps)[k]? = some p ∧ w ∈ attribRecord A (base + (n + k) * A.size) p := by
  induction ps generalizing n with
  | nil => simp [attribWrites, attribs]
  | cons q ps ih =>
    rw [attribs_cons]
    by_cases h : q.is_const = false
    · simp only [attribWrites, if_pos h, List.mem_append, ih]
      constructor
      · rintro (h1 | ⟨k, p, h1, h2⟩)
        · exact ⟨0, q, by simp, by simpa using h1⟩
        · exact ⟨k + 1, p, by simpa using h1, by rw [← Nat.add_assoc, Nat.add_right_comm]; exact h2⟩
      · rintro ⟨k, p, h1, h2⟩
        cases k with
        | zero =>
          simp only [List.getElem?_cons_zero, Option.some.injEq] at h1
          subst h1
          exact Or.inl (by simpa using h2)
        | succ k =>
          refine Or.inr ⟨k, p, by simpa using h1, ?_⟩
          rw [Nat.add_right_comm, Nat.add_assoc]; exact h2
    · simp only [attribWrites, if_neg h, ih]

theorem attribUsers_length (A : AttribLayout) (base n : Nat) (ps : List param) :
    (attribUsers A base n ps).length = ps.length := by
  induction ps generalizing n with
  | nil => rfl
  | cons p ps ih =>
    by_cases h : p.is_const = false
    · simp only [attribUsers, if_pos h, List.length_cons, ih]
    · simp only [attribUsers, if_neg h, List.length_cons, ih]

theorem attribUsers_get (A : AttribLayout) (base n : Nat) (ps : List param) (j : Nat) (p : param)
    (h : ps[j]? = some p) :
    (attribUsers A base n ps)[j]? =
      some (if p.is_const = false then base + (n + (attribs (ps.take j)).length) * A.size
        else p.user) := by
  induction ps generalizing n j with
  | nil => simp at h
  | cons q ps ih =>
    cases j with
    | zero =>
      simp only [List.getElem?_cons_zero, Option.some.injEq] at h
      subst h
      by_cases hq : q.is_const = false
      · simp [attribUsers, hq, attribs]
      · simp [attribUsers, hq]
    | succ j =>
      simp only [List.getElem?_cons_succ] at h
      by_cases hq : q.is_const = false
      · simp only [attribUsers, if_pos hq, List.getElem?_cons_succ, ih (n + 1) j h,
          List.take_succ_cons, attribs_cons, List.length_cons]
        rw [show n + 1 + (attribs (List.take j ps)).length =
          n + ((attribs (List.take j ps)).length + 1) by omega]
      · simp only [attribUsers, if_neg hq, List.getElem?_cons_succ, ih n j h,
          List.take_succ_cons, attribs_cons]

/-! ## The constant loop -/

theorem slotSum_nil (sel : param → Bool) : slotSum sel [] = 0 := rfl

theorem slotSum_cons (sel : param → Bool) (p : param) (ps : List param) :
    slotSum sel (p :: ps) =
      if sel p = true then iterations p.count + slotSum sel ps else slotSum sel ps := by
  unfold slotSum consts
  cases h : sel p <;> simp [List.filter_cons, h]

theorem constCount_eq (sel : param → Bool) (n : Nat) (ps : List param) :
    constCount sel n ps = n + slotSum sel ps := by
  induction ps generalizing n with
  | nil => rfl
  | cons p ps ih =>
    rw [slotSum_cons]
    by_cases h : sel p = true
    · simp only [constCount, if_pos h, ih]; omega
    · simp only [constCount, if_neg h, ih]

theorem mem_constSlots (C : ConstLayout) (idx : Nat → Nat) (base n : Nat) (p : param)
    (w : Write) :
    w ∈ constSlots C idx base n p ↔
      ∃ i, i < iterations p.count ∧
        w ∈ constSlot C (idx i) (base + (n + i) * C.size) (p.values i) := by
  unfold constSlots
  simp only [List.mem_flatMap, List.mem_range]

theorem mem_constWrites (C : ConstLayout) (sel : param → Bool) (idx : param → Nat → Nat)
    (base n : Nat) (ps : List param) (w : Write) :
    w ∈ constWrites C sel idx base n ps ↔
      ∃ j p, ps[j]? = some p ∧ sel p = true ∧
        (w ∈ constHead C (base + (n + slotSum sel (ps.take j)) * C.size) p ∨
          w ∈ constSlots C (idx p) base (n + slotSum sel (ps.take j)) p) := by
  induction ps generalizing n with
  | nil => simp [constWrites]
  | cons q ps ih =>
    by_cases h : sel q = true
    · simp only [constWrites, if_pos h, List.mem_append, ih]
      constructor
      · rintro ((h1 | h1) | ⟨j, p, h1, h2, h3⟩)
        · exact ⟨0, q, by simp, h, Or.inl (by simpa [slotSum_nil] using h1)⟩
        · exact ⟨0, q, by simp, h, Or.inr (by simpa [slotSum_nil] using h1)⟩
        · refine ⟨j + 1, p, by simpa using h1, h2, ?_⟩
          simp only [List.take_succ_cons, slotSum_cons, if_pos h]
          rw [← Nat.add_assoc]
          exact h3
      · rintro ⟨j, p, h1, h2, h3⟩
        cases j with
        | zero =>
          simp only [List.getElem?_cons_zero, Option.some.injEq] at h1
          subst h1
          simp only [List.take_zero, slotSum_nil, Nat.add_zero] at h3
          exact Or.inl h3
        | succ j =>
          refine Or.inr ⟨j, p, by simpa using h1, h2, ?_⟩
          simp only [List.take_succ_cons, slotSum_cons, if_pos h] at h3
          rw [← Nat.add_assoc] at h3
          exact h3
    · simp only [constWrites, if_neg h, ih]
      constructor
      · rintro ⟨j, p, h1, h2, h3⟩
        refine ⟨j + 1, p, by simpa using h1, h2, ?_⟩
        simp only [List.take_succ_cons, slotSum_cons, if_neg h]
        exact h3
      · rintro ⟨j, p, h1, h2, h3⟩
        cases j with
        | zero =>
          simp only [List.getElem?_cons_zero, Option.some.injEq] at h1
          subst h1
          exact absurd h2 h
        | succ j =>
          refine ⟨j, p, by simpa using h1, h2, ?_⟩
          simp only [List.take_succ_cons, slotSum_cons, if_neg h] at h3
          exact h3

theorem constUsers_length (C : ConstLayout) (sel : param → Bool) (base n : Nat)
    (ps : List param) (us : List Nat) (h : us.length = ps.length) :
    (constUsers C sel base n ps us).length = ps.length := by
  induction ps generalizing n us with
  | nil => cases us <;> rfl
  | cons p ps ih =>
    cases us with
    | nil => simp at h
    | cons u us =>
      have h1 : us.length = ps.length := by simpa using h
      by_cases hp : sel p = true
      · simp only [constUsers, if_pos hp, List.length_cons, ih _ us h1]
      · simp only [constUsers, if_neg hp, List.length_cons, ih _ us h1]

theorem constUsers_get (C : ConstLayout) (sel : param → Bool) (base n : Nat)
    (ps : List param) (us : List Nat) (j : Nat) (p : param) (u : Nat)
    (h : ps[j]? = some p) (hu : us[j]? = some u) :
    (constUsers C sel base n ps us)[j]? =
      some (if sel p = true then base + (n + slotSum sel (ps.take j)) * C.size else u) := by
  induction ps generalizing n us j with
  | nil => simp at h
  | cons q ps ih =>
    cases us with
    | nil => simp at hu
    | cons v us =>
      cases j with
      | zero =>
        simp only [List.getElem?_cons_zero, Option.some.injEq] at h hu
        subst h hu
        by_cases hq : sel q = true
        · simp [constUsers, hq, slotSum_nil]
        · simp [constUsers, hq]
      | succ j =>
        simp only [List.getElem?_cons_succ] at h hu
        by_cases hq : sel q = true
        · simp only [constUsers, if_pos hq, List.getElem?_cons_succ, ih _ us j h hu,
            List.take_succ_cons, slotSum_cons, Nat.add_assoc]
        · simp only [constUsers, if_neg hq, List.getElem?_cons_succ, ih _ us j h hu,
            List.take_succ_cons, slotSum_cons, if_false]

theorem nameBytes_nil : nameBytes [] = [] := rfl

theorem nameBytes_cons (p : param) (ps : List param) :
    nameBytes (p :: ps) =
      if named p = true then c_str p.name ++ [0] ++ nameBytes ps else nameBytes ps := by
  unfold nameBytes
  by_cases h : named p = true <;> simp [List.flatMap_cons, h]

theorem nameEnd_eq (off : Nat) (ps : List param) :
    nameEnd off ps = off + (nameBytes ps).length := by
  induction ps generalizing off with
  | nil => rfl
  | cons p ps ih =>
    rw [nameBytes_cons]
    by_cases h : named p = true
    · simp only [nameEnd, if_pos h, ih, List.length_append, List.length_singleton]; omega
    · simp only [nameEnd, if_neg h, ih]

theorem c_str_cons (c : Nat) (name : List Nat) :
    c_str (c :: name) = if c ≠ 0 then c :: c_str name else [] := by
  unfold c_str
  by_cases h : c = 0 <;> simp [List.takeWhile_cons, h]

theorem mem_nameString (off : Nat) (name : List Nat) (w : Write) :
    w ∈ nameString off name ↔
      ∃ k b, (c_str name ++ [0])[k]? = some b ∧ w = (off + k, b % 256) := by
  induction name generalizing off with
  | nil =>
    simp only [nameString, List.mem_singleton, c_str, List.takeWhile_nil, List.nil_append]
    constructor
    · rintro rfl; exact ⟨0, 0, by simp, by simp⟩
    · rintro ⟨k, b, h1, rfl⟩
      cases k with
      | zero => simp at h1; subst h1; simp
      | succ k => simp at h1
  | cons c name ih =>
    rw [c_str_cons]
    by_cases h : c ≠ 0
    · simp only [nameString, if_pos h, List.mem_cons, ih, List.cons_append]
      constructor
      · rintro (rfl | ⟨k, b, h1, rfl⟩)
        · exact ⟨0, c, by simp, by simp⟩
        · exact ⟨k + 1, b, by simpa using h1, by simp only [Prod.mk.injEq, and_true]; omega⟩
      · rintro ⟨k, b, h1, rfl⟩
        cases k with
        | zero => simp at h1; subst h1; exact Or.inl (by simp)
        | succ k =>
          exact Or.inr ⟨k, b, by simpa using h1, by simp only [Prod.mk.injEq, and_true]; omega⟩
    · simp only [nameString, if_neg h, List.mem_singleton, List.nil_append]
      constructor
      · rintro rfl; exact ⟨0, 0, by simp, by simp⟩
      · rintro ⟨k, b, h1, rfl⟩
        cases k with
        | zero => simp at h1; subst h1; simp
        | succ k => simp at h1

theorem mem_nameWrites (off : Nat) (ps : List param) (us : List Nat)
    (hl : us.length = ps.length) (w : Write) :
    w ∈ nameWrites off (ps.zip us) ↔
      (∃ k b, (nameBytes ps)[k]? = some b ∧ w = (off + k, b % 256)) ∨
      ∃ j p u, ps[j]? = some p ∧ us[j]? = some u ∧ named p = true ∧
        w ∈ st u 4 (SWAP32_int ((off + (nameBytes (ps.take j)).length) % 2 ^ 32)) := by
  induction ps generalizing off us with
  | nil => simp [nameWrites, nameBytes]
  | cons q ps ih =>
    cases us with
    | nil => simp at hl
    | cons v us =>
      have hl1 : us.length = ps.length := by simpa using hl
      rw [nameBytes_cons, show (q :: ps).zip (v :: us) = (q, v) :: ps.zip us from rfl]
      by_cases h : named q = true
      · simp only [nameWrites, if_pos h, List.mem_append, ih _ us hl1,
          mem_nameString]
        constructor
        · rintro ((⟨k, b, h1, rfl⟩ | h1) | ⟨k, b, h1, rfl⟩ | ⟨j, p, u, h1, h2, h3, h4⟩)
          · refine Or.inl ⟨k, b, ?_, rfl⟩
            have hk : k < (c_str q.name ++ [0]).length := by
              rcases Nat.lt_or_ge k (c_str q.name ++ [0]).length with h5 | h5
              · exact h5
              · rw [List.getElem?_eq_none h5] at h1; simp at h1
            rw [List.getElem?_append_left hk]; exact h1
          · exact Or.inr ⟨0, q, v, by simp, by simp, h, by simpa [nameBytes_nil] using h1⟩
          · refine Or.inl ⟨(c_str q.name ++ [0]).length + k, b, ?_, ?_⟩
            · rw [List.getElem?_append_right (by omega)]
              simpa using h1
            · simp only [List.length_append, List.length_singleton, Prod.mk.injEq, and_true]
              omega
          · refine Or.inr ⟨j + 1, p, u, by simpa using h1, by simpa using h2, h3, ?_⟩
            simp only [List.take_succ_cons, nameBytes_cons, if_pos h, List.length_append,
              List.length_singleton]
            simp only [Nat.add_assoc] at h4 ⊢
            exact h4
        · rintro (⟨k, b, h1, rfl⟩ | ⟨j, p, u, h1, h2, h3, h4⟩)
          · rcases Nat.lt_or_ge k (c_str q.name ++ [0]).length with h5 | h5
            · rw [List.getElem?_append_left h5] at h1
              exact Or.inl (Or.inl ⟨k, b, h1, rfl⟩)
            · rw [List.getElem?_append_right h5] at h1
              refine Or.inr (Or.inl ⟨k - (c_str q.name ++ [0]).length, b, h1, ?_⟩)
              simp only [List.length_append, List.length_singleton, Prod.mk.injEq, and_true]
                at h5 ⊢
              omega
          · cases j with
            | zero =>
              simp only [List.getElem?_cons_zero, Option.some.injEq] at h1 h2
              subst h1 h2
              exact Or.inl (Or.inr (by simpa [nameBytes_nil] using h4))
            | succ j =>
              refine Or.inr (Or.inr ⟨j, p, u, by simpa using h1, by simpa using h2, h3, ?_⟩)
              simp only [List.take_succ_cons, nameBytes_cons, if_pos h, List.length_append,
                List.length_singleton] at h4
              simp only [Nat.add_assoc] at h4 ⊢
              exact h4
      · simp only [nameWrites, if_neg h, ih _ us hl1]
        constructor
        · rintro (h1 | ⟨j, p, u, h1, h2, h3, h4⟩)
          · exact Or.inl h1
          · refine Or.inr ⟨j + 1, p, u, by simpa using h1, by simpa using h2, h3, ?_⟩
            simp only [List.take_succ_cons, nameBytes_cons, if_neg h]
            exact h4
        · rintro (h1 | ⟨j, p, u, h1, h2, h3, h4⟩)
          · exact Or.inl h1
          · cases j with
            | zero =>
              simp only [List.getElem?_cons_zero, Option.some.injEq] at h1
              subst h1
              exact absurd h3 h
            | succ j =>
              refine Or.inr ⟨j, p, u, by simpa using h1, by simpa using h2, h3, ?_⟩
              simp only [List.take_succ_cons, nameBytes_cons, if_neg h] at h4
              exact h4

/-! ## The instruction loop -/

theorem mem_insnWrites (enc : Nat → Nat) (ucode n : Nat) (es : List program_exec) (w : Write) :
    w ∈ insnWrites enc ucode n es ↔
      ∃ i e j, es[i]? = some e ∧ j < 4 ∧
        w ∈ st (ucode + 4 * (n + 4 * i + j)) 4 (enc (e.data j)) := by
  induction es generalizing n with
  | nil => simp [insnWrites]
  | cons e0 es ih =>
    simp only [insnWrites, List.mem_append, ih]
    constructor
    · rintro ((((h | h) | h) | h) | ⟨i, e, j, h1, h2, h3⟩)
      · exact ⟨0, e0, 0, by simp, by norm_num, h⟩
      · exact ⟨0, e0, 1, by simp, by norm_num, h⟩
      · exact ⟨0, e0, 2, by simp, by norm_num, h⟩
      · exact ⟨0, e0, 3, by simp, by norm_num, h⟩
      · refine ⟨i + 1, e, j, by simpa using h1, h2, ?_⟩
        rw [show n + 4 * (i + 1) + j = n + 4 + 4 * i + j by omega]
        exact h3
    · rintro ⟨i, e, j, h1, h2, h3⟩
      cases i with
      | zero =>
        simp only [List.getElem?_cons_zero, Option.some.injEq] at h1
        subst h1
        simp only [Nat.mul_zero, Nat.add_zero] at h3
        interval_cases j
        · exact Or.inl (Or.inl (Or.inl (Or.inl h3)))
        · exact Or.inl (Or.inl (Or.inl (Or.inr h3)))
        · exact Or.inl (Or.inl (Or.inr h3))
        · exact Or.inl (Or.inr h3)
      | succ i =>
        refine Or.inr ⟨i, e, j, by simpa using h1, h2, ?_⟩
        rw [show n + 4 + 4 * i + j = n + 4 * (i + 1) + j by omega]
        exact h3

/-! ## Offsets -/

theorem attribOff_ge (hsize : Nat) : hsize ≤ attribOff hsize := by
  unfold attribOff; rw [pad4_snd]; omega

theorem attribOff_mod (hsize : Nat) : attribOff hsize % 4 = 0 := by
  unfold attribOff; rw [pad4_snd]; omega

theorem attribEnd_eq (A : AttribLayout) (hsize : Nat) (ps : List param) :
    attribEnd A hsize ps = attribOff hsize + (attribs ps).length * A.size := by
  unfold attribEnd; rw [attribCount_eq, Nat.zero_add]

theorem constOff_ge (A : AttribLayout) (hsize : Nat) (ps : List param) :
    attribEnd A hsize ps ≤ constOff A hsize ps := by
  unfold constOff; rw [pad4_snd]; omega

theorem constOff_mod (A : AttribLayout) (hsize : Nat) (ps : List param) :
    constOff A hsize ps % 4 = 0 := by
  unfold constOff; rw [pad4_snd]; omega

theorem constEnd_eq (A : AttribLayout) (C : ConstLayout) (sel : param → Bool) (hsize : Nat)
    (ps : List param) :
    constEnd A C sel hsize ps = constOff A hsize ps + slotSum sel ps * C.size := by
  unfold constEnd; rw [constCount_eq, Nat.zero_add]

theorem namesOff_ge (A : AttribLayout) (C : ConstLayout) (sel : param → Bool) (hsize : Nat)
    (ps : List param) : constEnd A C sel hsize ps ≤ namesOff A C sel hsize ps := by
  unfold namesOff; rw [pad4_snd]; omega

theorem namesOff_mod (A : AttribLayout) (C : ConstLayout) (sel : param → Bool) (hsize : Nat)
    (ps : List param) : namesOff A C sel hsize ps % 4 = 0 := by
  unfold namesOff; rw [pad4_snd]; omega

theorem namesEnd_eq (A : AttribLayout) (C : ConstLayout) (sel : param → Bool) (hsize : Nat)
    (ps : List param) :
    namesEnd A C sel hsize ps = namesOff A C sel hsize ps + (nameBytes ps).length := by
  unfold namesEnd; rw [nameEnd_eq]

theorem ucodeOff_ge (A : AttribLayout) (C : ConstLayout) (sel : param → Bool) (hsize : Nat)
    (ps : List param) : namesEnd A C sel hsize ps ≤ ucodeOff A C sel hsize ps := by
  unfold ucodeOff; rw [pad16_snd]; omega

theorem ucodeOff_mod (A : AttribLayout) (C : ConstLayout) (sel : param → Bool) (hsize : Nat)
    (ps : List param) : ucodeOff A C sel hsize ps % 16 = 0 := by
  unfold ucodeOff; rw [pad16_snd]; omega

/-! ## Positions of parameters and record numbers -/

theorem take_succ_of_get (ps : List param) (j : Nat) (p : param) (h : ps[j]? = some p) :
    ps.take (j + 1) = ps.take j ++ [p] := by
  rw [List.take_succ, h]; rfl

theorem attribs_append (a b : List param) : attribs (a ++ b) = attribs a ++ attribs b := by
  unfold attribs; exact List.filter_append _ _

theorem slotSum_append (sel : param → Bool) (a b : List param) :
    slotSum sel (a ++ b) = slotSum sel a + slotSum sel b := by
  unfold slotSum consts; simp [List.filter_append]

theorem nameBytes_append (a b : List param) : nameBytes (a ++ b) = nameBytes a ++ nameBytes b := by
  unfold nameBytes; exact List.flatMap_append _ _ _

/-- Splitting of the parameter list at position `j`. -/
theorem split_at (ps : List param) (j : Nat) (p : param) (h : ps[j]? = some p) :
    ps = ps.take j ++ p :: ps.drop (j + 1) := by
  have hj : j < ps.length := by
    rcases Nat.lt_or_ge j ps.length with h1 | h1
    · exact h1
    · rw [List.getElem?_eq_none h1] at h; simp at h
  have e : ps[j] = p := by
    rw [List.getElem?_eq_getElem hj] at h; exact Option.some.inj h
  rw [← e, ← List.drop_eq_getElem_cons hj, List.take_append_drop]

/-- Splitting of a prefix of the parameter list at an earlier position. -/
theorem split_take (ps : List param) (j j1 : Nat) (p : param) (h : ps[j]? = some p)
    (hj : j < j1) : ∃ r, ps.take j1 = ps.take j ++ p :: r := by
  have h1 : (ps.take j1)[j]? = some p := by
    rw [List.getElem?_take_of_lt hj]; exact h
  have := split_at (ps.take j1) j p h1
  rw [List.take_take, Nat.min_eq_left (Nat.le_of_lt hj)] at this
  exact ⟨_, this⟩

theorem attribs_get (ps : List param) (j : Nat) (p : param) (h : ps[j]? = some p)
    (hp : p.is_const = false) : (attribs ps)[(attribs (ps.take j)).length]? = some p := by
  have e := split_at ps j p h
  have e2 : attribs ps = attribs (ps.take j) ++ p :: attribs (ps.drop (j + 1)) := by
    conv_lhs => rw [e]
    rw [attribs_append, attribs_cons, if_pos hp]
  rw [e2, List.getElem?_append_right (le_refl _)]
  simp

theorem attribs_take_lt (ps : List param) (j j1 : Nat) (p : param) (h : ps[j]? = some p)
    (hp : p.is_const = false) (hj : j < j1) :
    (attribs (ps.take j)).length < (attribs (ps.take j1)).length := by
  obtain ⟨r, e⟩ := split_take ps j j1 p h hj
  rw [e, attribs_append, attribs_cons, if_pos hp]
  simp

theorem attribs_take_le (ps : List param) (j : Nat) :
    (attribs (ps.take j)).length ≤ (attribs ps).length := by
  conv_rhs => rw [← List.take_append_drop j ps]
  rw [attribs_append]; simp

theorem slotSum_take_lt (sel : param → Bool) (ps : List param) (j j1 : Nat) (p : param)
    (h : ps[j]? = some p) (hp : sel p = true) (hj : j < j1) :
    slotSum sel (ps.take j) + iterations p.count ≤ slotSum sel (ps.take j1) := by
  obtain ⟨r, e⟩ := split_take ps j j1 p h hj
  rw [e, slotSum_append, slotSum_cons, if_pos hp]
  omega

theorem slotSum_take_le (sel : param → Bool) (ps : List param) (j : Nat) (p : param)
    (h : ps[j]? = some p) (hp : sel p = true) :
    slotSum sel (ps.take j) + iterations p.count ≤ slotSum sel ps := by
  have e := split_at ps j p h
  conv_rhs => rw [e]
  rw [slotSum_append, slotSum_cons, if_pos hp]
  omega

theorem slotSum_take_le_all (sel : param → Bool) (ps : List param) (j : Nat) :
    slotSum sel (ps.take j) ≤ slotSum sel ps := by
  conv_rhs => rw [← List.take_append_drop j ps]
  rw [slotSum_append]; omega

theorem nameBytes_take_le (ps : List param) (j : Nat) (p : param) (h : ps[j]? = some p)
    (hp : named p = true) :
    nameBytes ps = nameBytes (ps.take j) ++ (c_str p.name ++ [0]) ++
      nameBytes (ps.drop (j + 1)) := by
  have e := split_at ps j p h
  conv_lhs => rw [e]
  rw [nameBytes_append, nameBytes_cons, if_pos hp]
  simp only [List.append_assoc]

theorem usersOf_length (A : AttribLayout) (C : ConstLayout) (sel : param → Bool) (hsize : Nat)
    (ps : List param) : (usersOf A C sel hsize ps).length = ps.length := by
  unfold usersOf
  exact constUsers_length _ _ _ _ _ _ (attribUsers_length _ _ _ _)

theorem usersOf_get (A : AttribLayout) (C : ConstLayout) (sel : param → Bool) (hsize : Nat)
    (ps : List param) (j : Nat) (p : param) (h : ps[j]? = some p) :
    (usersOf A C sel hsize ps)[j]? = some (userAt A C sel hsize ps j p) := by
  unfold usersOf userAt
  rw [constUsers_get C sel _ 0 ps _ j p _ h (attribUsers_get A _ 0 ps j p h)]
  simp only [Nat.zero_add]

theorem isPatchW_iff (A : AttribLayout) (C : ConstLayout) (sel : param → Bool) (hsize : Nat)
    (ps : List param) (w : Write) :
    (∃ j p u, ps[j]? = some p ∧ (usersOf A C sel hsize ps)[j]? = some u ∧ named p = true ∧
      w ∈ st u 4
        (SWAP32_int ((namesOff A C sel hsize ps + (nameBytes (ps.take j)).length) % 2 ^ 32))) ↔
      isPatchW A C sel hsize ps w := by
  unfold isPatchW
  constructor
  · rintro ⟨j, p, u, h1, h2, h3, h4⟩
    rw [usersOf_get A C sel hsize ps j p h1] at h2
    cases h2
    exact ⟨j, p, h1, h3, h4⟩
  · rintro ⟨j, p, h1, h3, h4⟩
    exact ⟨j, p, _, h1, usersOf_get A C sel hsize ps j p h1, h3, h4⟩

theorem isSlotW_iff (A : AttribLayout) (C : ConstLayout) (sel : param → Bool)
    (idx : param → Nat → Nat) (hsize : Nat) (ps : List param) (w : Write) :
    (∃ j p, ps[j]? = some p ∧ sel p = true ∧
      w ∈ constSlots C (idx p) (constOff A hsize ps) (slotSum sel (ps.take j)) p) ↔
      isSlotW A C sel idx hsize ps w := by
  unfold isSlotW
  simp only [mem_constSlots]
  constructor
  · rintro ⟨j, p, h1, h2, i, h3, h4⟩; exact ⟨j, p, i, h1, h2, h3, h4⟩
  · rintro ⟨j, p, i, h1, h2, h3, h4⟩; exact ⟨j, p, h1, h2, i, h3, h4⟩

theorem mem_emit (H : Header) (A : AttribLayout) (C : ConstLayout) (pre : List Write)
    (sel : param → Bool) (idx : param → Nat → Nat) (enc : Nat → Nat)
    (ps : List param) (insns : List program_exec) (w : Write) :
    w ∈ (emit H A C pre sel idx enc ps insns).writes ↔
      w ∈ pre ∨ isHdrW H A C sel ps insns w ∨ isPadW A C sel H.size ps w ∨
        isAttrW A H.size ps w ∨ isHeadW A C sel H.size ps w ∨ isSlotW A C sel idx H.size ps w ∨
        isStrW A C sel H.size ps w ∨ isPatchW A C sel H.size ps w ∨
        isInsnW A C sel enc H.size ps insns w := by
  rw [← isPatchW_iff, ← isSlotW_iff]
  unfold isHdrW isPadW isAttrW isHeadW isStrW isInsnW
  simp only [emit, List.mem_append, mem_attribWrites, mem_constWrites,
    mem_nameWrites _ _ _ (usersOf_length A C sel H.size ps), mem_insnWrites, attribCount_eq,
    constCount_eq, Nat.zero_add]
  have e16 : ∀ i j : Nat, 4 * (4 * i + j) = 16 * i + 4 * j := fun i j => by omega
  simp only [e16, ← Nat.add_assoc]
  constructor
  · intro h
    rcases h with (((((((((((((h | h) | h) | h) | h) | h) | h) | h) | h) | h) | h) | h) | h) | h) | h
    · exact Or.inl h
    · exact Or.inr (Or.inr (Or.inl (Or.inl h)))
    · exact Or.inr (Or.inl (Or.inl h))
    · exact Or.inr (Or.inr (Or.inr (Or.inl h)))
    · exact Or.inr (Or.inl (Or.inr (Or.inl h)))
    · exact Or.inr (Or.inr (Or.inl (Or.inr (Or.inl h))))
    · exact Or.inr (Or.inl (Or.inr (Or.inr (Or.inl h))))
    · obtain ⟨j, p, h1, h2, h3 | h3⟩ := h
      · exact Or.inr (Or.inr (Or.inr (Or.inr (Or.inl ⟨j, p, h1, h2, h3⟩))))
      · exact Or.inr (Or.inr (Or.inr (Or.inr (Or.inr (Or.inl ⟨j, p, h1, h2, h3⟩)))))
    · exact Or.inr (Or.inl (Or.inr (Or.inr (Or.inr (Or.inl h)))))
    · exact Or.inr (Or.inr (Or.inl (Or.inr (Or.inr (Or.inl h)))))
    · rcases h with h | h
      · exact Or.inr (Or.inr (Or.inr (Or.inr (Or.inr (Or.inr (Or.inl h))))))
      · exact Or.inr (Or.inr (Or.inr (Or.inr (Or.inr (Or.inr (Or.inr (Or.inl h)))))))
    · exact Or.inr (Or.inr (Or.inl (Or.inr (Or.inr (Or.inr h)))))
    · exact Or.inr (Or.inl (Or.inr (Or.inr (Or.inr (Or.inr (Or.inl h))))))
    · exact Or.inr (Or.inl (Or.inr (Or.inr (Or.inr (Or.inr (Or.inr h))))))
    · exact Or.inr (Or.inr (Or.inr (Or.inr (Or.inr (Or.inr (Or.inr (Or.inr h)))))))
  · intro h
    rcases h with h | (h | h | h | h | h | h) | (h | h | h | h) | h | h | h | h | h | h
    · exact Or.inl (Or.inl (Or.inl (Or.inl (Or.inl (Or.inl (Or.inl (Or.inl (Or.inl (Or.inl (Or.inl (Or.inl (Or.inl (Or.inl h)))))))))))))
    · exact Or.inl (Or.inl (Or.inl (Or.inl (Or.inl (Or.inl (Or.inl (Or.inl (Or.inl (Or.inl (Or.inl (Or.inl (Or.inr h))))))))))))
    · exact Or.inl (Or.inl (Or.inl (Or.inl (Or.inl (Or.inl (Or.inl (Or.inl (Or.inl (Or.inl (Or.inr h))))))))))
    · exact Or.inl (Or.inl (Or.inl (Or.inl (Or.inl (Or.inl (Or.inl (Or.inl (Or.inr h))))))))
    · exact Or.inl (Or.inl (Or.inl (Or.inl (Or.inl (Or.inl (Or.inr h))))))
    · exact Or.inl (Or.inl (Or.inr h))
    · exact Or.inl (Or.inr h)
    · exact Or.inl (Or.inl (Or.inl (Or.inl (Or.inl (Or.inl (Or.inl (Or.inl (Or.inl (Or.inl (Or.inl (Or.inl (Or.inl (Or.inr h)))))))))))))
    · exact Or.inl (Or.inl (Or.inl (Or.inl (Or.inl (Or.inl (Or.inl (Or.inl (Or.inl (Or.inr h)))))))))
    · exact Or.inl (Or.inl (Or.inl (Or.inl (Or.inl (Or.inr h)))))
    · exact Or.inl (Or.inl (Or.inl (Or.inr h)))
    · exact Or.inl (Or.inl (Or.inl (Or.inl (Or.inl (Or.inl (Or.inl (Or.inl (Or.inl (Or.inl (Or.inl (Or.inr h)))))))))))
    · obtain ⟨j, p, h1, h2, h3⟩ := h
      exact Or.inl (Or.inl (Or.inl (Or.inl (Or.inl (Or.inl (Or.inl (Or.inr ⟨j, p, h1, h2, Or.inl h3⟩)))))))
    · obtain ⟨j, p, h1, h2, h3⟩ := h
      exact Or.inl (Or.inl (Or.inl (Or.inl (Or.inl (Or.inl (Or.inl (Or.inr ⟨j, p, h1, h2, Or.inr h3⟩)))))))
    · exact Or.inl (Or.inl (Or.inl (Or.inl (Or.inr (Or.inl h)))))
    · exact Or.inl (Or.inl (Or.inl (Or.inl (Or.inr (Or.inr h)))))
    · exact Or.inr h

theorem offsets_chain (A : AttribLayout) (C : ConstLayout) (sel : param → Bool) (hsize : Nat)
    (ps : List param) :
    hsize ≤ attribOff hsize ∧ attribOff hsize ≤ attribEnd A hsize ps ∧
      attribEnd A hsize ps ≤ constOff A hsize ps ∧
      constOff A hsize ps ≤ constEnd A C sel hsize ps ∧
      constEnd A C sel hsize ps ≤ namesOff A C sel hsize ps ∧
      namesOff A C sel hsize ps ≤ namesEnd A C sel hsize ps ∧
      namesEnd A C sel hsize ps ≤ ucodeOff A C sel hsize ps := by
  refine ⟨attribOff_ge _, ?_, constOff_ge _ _ _, ?_, namesOff_ge _ _ _ _ _, ?_,
    ucodeOff_ge _ _ _ _ _⟩
  · rw [attribEnd_eq]; omega
  · rw [constEnd_eq]; omega
  · rw [namesEnd_eq]; omega

theorem userAt_ge (A : AttribLayout) (C : ConstLayout) (sel : param → Bool) (hsize : Nat)
    (ps : List param) (j : Nat) (p : param) (hs : selCovers sel) (hn : named p = true) :
    attribOff hsize ≤ userAt A C sel hsize ps j p := by
  have hc := offsets_chain A C sel hsize ps
  unfold userAt
  by_cases h1 : sel p = true
  · rw [if_pos h1]; omega
  · rw [if_neg h1]
    by_cases h2 : p.is_const = false
    · rw [if_pos h2]; omega
    · exact absurd (hs p hn (by simpa using h2)) h1

theorem isPadW_addr (A : AttribLayout) (C : ConstLayout) (sel : param → Bool) (hsize : Nat)
    (ps : List param) (w : Write) (h : isPadW A C sel hsize ps w) :
    w.2 = 0 ∧ ((hsize ≤ w.1 ∧ w.1 < attribOff hsize) ∨
      (attribEnd A hsize ps ≤ w.1 ∧ w.1 < constOff A hsize ps) ∨
      (constEnd A C sel hsize ps ≤ w.1 ∧ w.1 < namesOff A C sel hsize ps) ∨
      (namesEnd A C sel hsize ps ≤ w.1 ∧ w.1 < ucodeOff A C sel hsize ps)) := by
  rcases h with h | h | h | h
  · obtain ⟨h1, h2, h3⟩ := pad4_mem _ _ h
    exact ⟨h3, Or.inl ⟨h1, h2⟩⟩
  · obtain ⟨h1, h2, h3⟩ := pad4_mem _ _ h
    exact ⟨h3, Or.inr (Or.inl ⟨h1, h2⟩)⟩
  · obtain ⟨h1, h2, h3⟩ := pad4_mem _ _ h
    exact ⟨h3, Or.inr (Or.inr (Or.inl ⟨h1, h2⟩))⟩
  · obtain ⟨h1, h2, h3⟩ := pad16_mem _ _ h
    exact ⟨h3, Or.inr (Or.inr (Or.inr ⟨h1, h2⟩))⟩

theorem isAttrW_ge (A : AttribLayout) (hsize : Nat) (ps : List param) (w : Write)
    (h : isAttrW A hsize ps w) : attribOff hsize ≤ w.1 := by
  obtain ⟨k, p, _, h2⟩ := h
  simp only [attribRecord, List.mem_append] at h2
  rcases h2 with h2 | h2 <;> have := (st_addr _ _ _ _ h2).1 <;> omega

theorem isHeadW_ge (A : AttribLayout) (C : ConstLayout) (sel : param → Bool) (hsize : Nat)
    (ps : List param) (w : Write) (h : isHeadW A C sel hsize ps w) :
    constOff A hsize ps ≤ w.1 := by
  obtain ⟨j, p, _, _, h2⟩ := h
  simp only [constHead, List.mem_append] at h2
  rcases h2 with ((h2 | h2) | h2) | h2 <;> have := (st_addr _ _ _ _ h2).1 <;> omega

theorem isSlotW_ge (A : AttribLayout) (C : ConstLayout) (sel : param → Bool)
    (idx : param → Nat → Nat) (hsize : Nat) (ps : List param) (w : Write)
    (h : isSlotW A C sel idx hsize ps w) : constOff A hsize ps ≤ w.1 := by
  obtain ⟨j, p, i, _, _, _, h2⟩ := h
  simp only [constSlot, List.mem_append] at h2
  rcases h2 with (((h2 | h2) | h2) | h2) | h2 <;> have := (st_addr _ _ _ _ h2).1 <;> omega

theorem isStrW_addr (A : AttribLayout) (C : ConstLayout) (sel : param → Bool) (hsize : Nat)
    (ps : List param) (w : Write) (h : isStrW A C sel hsize ps w) :
    namesOff A C sel hsize ps ≤ w.1 ∧ w.1 < namesEnd A C sel hsize ps := by
  obtain ⟨k, b, h1, rfl⟩ := h
  have hk : k < (nameBytes ps).length := by
    rcases Nat.lt_or_ge k (nameBytes ps).length with h5 | h5
    · exact h5
    · rw [List.getElem?_eq_none h5] at h1; simp at h1
  rw [namesEnd_eq]
  simp only; omega

theorem isInsnW_addr (A : AttribLayout) (C : ConstLayout) (sel : param → Bool)
    (enc : Nat → Nat) (hsize : Nat) (ps : List param) (insns : List program_exec) (w : Write)
    (h : isInsnW A C sel enc hsize ps insns w) :
    ucodeOff A C sel hsize ps ≤ w.1 ∧ w.1 < ucodeOff A C sel hsize ps + 16 * insns.length := by
  obtain ⟨i, e, j, h1, h2, h3⟩ := h
  have hi : i < insns.length := by
    rcases Nat.lt_or_ge i insns.length with h5 | h5
    · exact h5
    · rw [List.getElem?_eq_none h5] at h1; simp at h1
  have := st_addr _ _ _ _ h3
  omega

/-- Every store outside the header members is at or above `sizeof` of the header. -/
theorem body_ge (A : AttribLayout) (C : ConstLayout) (sel : param → Bool)
    (idx : param → Nat → Nat) (enc : Nat → Nat) (hsize : Nat) (ps : List param)
    (insns : List program_exec) (w : Write) (hs : selCovers sel)
    (h : isPadW A C sel hsize ps w ∨ isAttrW A hsize ps w ∨ isHeadW A C sel hsize ps w ∨
      isSlotW A C sel idx hsize ps w ∨ isStrW A C sel hsize ps w ∨
      isPatchW A C sel hsize ps w ∨ isInsnW A C sel enc hsize ps insns w) :
    hsize ≤ w.1 := by
  have hc := offsets_chain A C sel hsize ps
  rcases h with h | h | h | h | h | h | h
  · have := (isPadW_addr _ _ _ _ _ _ h).2; omega
  · have := isAttrW_ge _ _ _ _ h; omega
  · have := isHeadW_ge _ _ _ _ _ _ h; omega
  · have := isSlotW_ge _ _ _ _ _ _ _ h; omega
  · have := isStrW_addr _ _ _ _ _ _ h; omega
  · obtain ⟨j, p, h1, h2, h3⟩ := h
    have := userAt_ge A C sel hsize ps j p hs h2
    have := (st_addr _ _ _ _ h3).1
    omega
  · have := isInsnW_addr _ _ _ _ _ _ _ _ h; omega

theorem isHdrW_iff (H : Header) (A : AttribLayout) (C : ConstLayout) (sel : param → Bool)
    (ps : List param) (insns : List program_exec) (w : Write) :
    isHdrW H A C sel ps insns w ↔
      ∃ (i : Nat) (f : Nat × Nat) (v : Nat), H.fields[i]? = some f ∧ (hdrVals H A C sel ps insns)[i]? = some v ∧
        w ∈ st f.1 f.2 v := by
  unfold isHdrW
  constructor
  · rintro (h | h | h | h | h | h)
    · exact ⟨0, _, _, rfl, rfl, h⟩
    · exact ⟨1, _, _, rfl, rfl, h⟩
    · exact ⟨2, _, _, rfl, rfl, h⟩
    · exact ⟨3, _, _, rfl, rfl, h⟩
    · exact ⟨4, _, _, rfl, rfl, h⟩
    · exact ⟨5, _, _, rfl, rfl, h⟩
  · rintro ⟨i, f, v, h1, h2, h3⟩
    have hi : i < 6 := by
      rcases Nat.lt_or_ge i 6 with h5 | h5
      · exact h5
      · rw [List.getElem?_eq_none (by simpa [Header.fields] using h5)] at h1; simp at h1
    interval_cases i <;> simp only [Header.fields, hdrVals, List.getElem?_cons_zero,
      List.getElem?_cons_succ, Option.some.injEq] at h1 h2 <;> subst h1 h2
    · exact Or.inl h3
    · exact Or.inr (Or.inl h3)
    · exact Or.inr (Or.inr (Or.inl h3))
    · exact Or.inr (Or.inr (Or.inr (Or.inl h3)))
    · exact Or.inr (Or.inr (Or.inr (Or.inr (Or.inl h3))))
    · exact Or.inr (Or.inr (Or.inr (Or.inr (Or.inr h3))))

theorem fields_disjoint (size : Nat) (fs : List (Nat × Nat)) (h : fieldsOk size fs)
    (i j : Nat) (f g : Nat × Nat) (hi : fs[i]? = some f) (hj : fs[j]? = some g) (hne : i ≠ j) :
    f.1 + f.2 ≤ g.1 ∨ g.1 + g.2 ≤ f.1 := by
  have hp := h.2
  rw [List.pairwise_iff_getElem] at hp
  have hil : i < fs.length := by
    rcases Nat.lt_or_ge i fs.length with h5 | h5
    · exact h5
    · rw [List.getElem?_eq_none h5] at hi; simp at hi
  have hjl : j < fs.length := by
    rcases Nat.lt_or_ge j fs.length with h5 | h5
    · exact h5
    · rw [List.getElem?_eq_none h5] at hj; simp at hj
  rw [List.getElem?_eq_getElem hil] at hi
  rw [List.getElem?_eq_getElem hjl] at hj
  cases hi; cases hj
  rcases Nat.lt_or_gt_of_ne hne with h1 | h1
  · exact hp i j hil hjl h1
  · exact (hp j i hjl hil h1).symm

theorem fields_inside (size : Nat) (fs : List (Nat × Nat)) (h : fieldsOk size fs)
    (i : Nat) (f : Nat × Nat) (hi : fs[i]? = some f) : f.1 + f.2 ≤ size :=
  h.1 f (List.getElem?_mem hi)

/-- Each common header member holds, in the finished buffer, the value stored in it. -/
theorem header_holds (H : Header) (A : AttribLayout) (C : ConstLayout) (pre : List Write)
    (sel : param → Bool) (idx : param → Nat → Nat) (enc : Nat → Nat)
    (ps : List param) (insns : List program_exec)
    (hH : fieldsOk H.size H.fields) (hpre : preOk H pre) (hs : selCovers sel)
    (i : Nat) (f : Nat × Nat) (v : Nat) (hf : H.fields[i]? = some f)
    (hv : (hdrVals H A C sel ps insns)[i]? = some v) :
    holds (emit H A C pre sel idx enc ps insns).mem f.1 f.2 v := by
  unfold Emitted.mem
  apply holds_of_writes
  · intro w hw
    rw [mem_emit]
    exact Or.inr (Or.inl ((isHdrW_iff _ _ _ _ _ _ _).2 ⟨i, f, v, hf, hv, hw⟩))
  · intro w hw h1 h2
    rw [mem_emit] at hw
    rcases hw with hw | hw | hw
    · have := (hpre w hw).2 f (List.getElem?_mem hf)
      omega
    · obtain ⟨i1, f1, v1, g1, g2, g3⟩ := (isHdrW_iff _ _ _ _ _ _ _).1 hw
      by_cases hii : i1 = i
      · subst hii
        rw [hf] at g1; rw [hv] at g2
        cases g1; cases g2
        obtain ⟨k, _, rfl⟩ := (mem_st _ _ _ _).1 g3
        simp only [Nat.add_sub_cancel_left]
      · have := fields_disjoint _ _ hH i1 i f1 f g1 hf hii
        have := st_addr _ _ _ _ g3
        omega
    · have := body_ge A C sel idx enc H.size ps insns w hs hw
      have := fields_inside _ _ hH i f hf
      omega

/-! ## The two program kinds -/

theorem fieldsOk_append (size : Nat) (a b : List (Nat × Nat)) (h : fieldsOk size (a ++ b)) :
    fieldsOk size b ∧
      ∀ f ∈ a, f.1 + f.2 ≤ size ∧ ∀ g ∈ b, f.1 + f.2 ≤ g.1 ∨ g.1 + g.2 ≤ f.1 := by
  obtain ⟨h1, h2⟩ := h
  rw [List.pairwise_append] at h2
  refine ⟨⟨fun f hf => h1 f (List.mem_append_right _ hf), h2.2.1⟩, ?_⟩
  intro f hf
  exact ⟨h1 f (List.mem_append_left _ hf), fun g hg => h2.2.2 f hf g hg⟩

theorem pre_of_fields (H : Header) (a : List (Nat × Nat)) (pre : List Write)
    (h : fieldsOk H.size (a ++ H.fields))
    (hp : ∀ w ∈ pre, ∃ f ∈ a, f.1 ≤ w.1 ∧ w.1 < f.1 + f.2) : preOk H pre := by
  intro w hw
  obtain ⟨f, hf, h1, h2⟩ := hp w hw
  obtain ⟨h3, h4⟩ := (fieldsOk_append _ _ _ h).2 f hf
  refine ⟨by omega, ?_⟩
  intro g hg
  have := h4 g hg
  omega

theorem vp_common_ok (H : VPHeader) (h : H.ok) : fieldsOk H.common.size H.common.fields :=
  (fieldsOk_append _ _ _ h).1

theorem fp_common_ok (H : FPHeader) (h : H.ok) : fieldsOk H.common.size H.common.fields :=
  (fieldsOk_append _ _ _ h).1

theorem vp_preOk (H : VPHeader) (h : H.ok) (im om : Nat) : preOk H.common (vpPre H im om) := by
  apply pre_of_fields H.common _ _ h
  intro w hw
  simp only [vpPre, List.mem_append] at hw
  rcases hw with (((hw | hw) | hw) | hw) | hw
  · exact ⟨(H.magic, 2), by simp, st_addr _ _ _ _ hw⟩
  · exact ⟨(H.start_insn, 2), by simp, st_addr _ _ _ _ hw⟩
  · exact ⟨(H.const_start, 2), by simp, st_addr _ _ _ _ hw⟩
  · exact ⟨(H.input_mask, 4), by simp, st_addr _ _ _ _ hw⟩
  · exact ⟨(H.output_mask, 4), by simp, st_addr _ _ _ _ hw⟩

theorem fp_preOk (H : FPHeader) (h : H.ok) (nr fc : Nat) : preOk H.common (fpPre H nr fc) := by
  apply pre_of_fields H.common _ _ h
  intro w hw
  simp only [fpPre, List.mem_append] at hw
  rcases hw with (hw | hw) | hw
  · exact ⟨(H.magic, 2), by simp, st_addr _ _ _ _ hw⟩
  · exact ⟨(H.num_regs, 4), by simp, st_addr _ _ _ _ hw⟩
  · exact ⟨(H.fp_control, 4), by simp, st_addr _ _ _ _ hw⟩

theorem vp_selCovers : selCovers vpSel := by
  intro p _ h; exact h

theorem fp_selCovers : selCovers fpSel := by
  intro p hn hc
  unfold named at hn
  unfold fpSel
  simp only [Bool.and_eq_true, Bool.not_eq_true', hc, true_and] at hn ⊢
  exact hn.2

theorem compileVP_eq (L : VPLayout) (prog : VPProgram) :
    compileVP L prog =
      emit L.hdr.common L.attr L.cst (vpPre L.hdr prog.input_mask prog.output_mask) vpSel
        vpIndex vpWord prog.params (relocate L.src prog.const_reloc prog.insns) := rfl

theorem compileFP_eq (L : FPLayout) (prog : FPProgram) :
    compileFP L prog =
      emit L.hdr.common L.attr L.cst (fpPre L.hdr prog.num_regs prog.fp_control) fpSel
        (fpIndex prog.const_relocs) fpWord prog.params prog.insns := rfl

/-- The offset members of the header decode to the offsets the emitter went through, and
those are aligned. -/
theorem emit_offsets (H : Header) (A : AttribLayout) (C : ConstLayout) (pre : List Write)
    (sel : param → Bool) (idx : param → Nat → Nat) (enc : Nat → Nat)
    (ps : List param) (insns : List program_exec)
    (hH : fieldsOk H.size H.fields) (hpre : preOk H pre) (hs : selCovers sel) :
    let o := emit H A C pre sel idx enc ps insns
    (be32 o.mem H.attrib_off = o.attrib_off % 2 ^ 32 ∧ be32 o.mem H.attrib_off % 4 = 0) ∧
      (be32 o.mem H.const_off = o.const_off % 2 ^ 32 ∧ be32 o.mem H.const_off % 4 = 0) ∧
      o.names_off % 4 = 0 ∧
      (be32 o.mem H.ucode_off = o.ucode_off % 2 ^ 32 ∧ be32 o.mem H.ucode_off % 16 = 0) := by
  intro o
  have h0 := header_holds H A C pre sel idx enc ps insns hH hpre hs 0 (H.attrib_off, 4)
    (SWAP32 (attribOff H.size % 2 ^ 32)) rfl rfl
  have h2 := header_holds H A C pre sel idx enc ps insns hH hpre hs 2 (H.const_off, 4)
    (SWAP32 (constOff A H.size ps % 2 ^ 32)) rfl rfl
  have h4 := header_holds H A C pre sel idx enc ps insns hH hpre hs 4 (H.ucode_off, 4)
    (SWAP32 (ucodeOff A C sel H.size ps % 2 ^ 32)) rfl rfl
  have e0 : be32 o.mem H.attrib_off = attribOff H.size % 2 ^ 32 :=
    be32_of_holds _ _ _ (Nat.mod_lt _ (by norm_num)) h0
  have e2 : be32 o.mem H.const_off = constOff A H.size ps % 2 ^ 32 :=
    be32_of_holds _ _ _ (Nat.mod_lt _ (by norm_num)) h2
  have e4 : be32 o.mem H.ucode_off = ucodeOff A C sel H.size ps % 2 ^ 32 :=
    be32_of_holds _ _ _ (Nat.mod_lt _ (by norm_num)) h4
  have m0 := attribOff_mod H.size
  have m2 := constOff_mod A H.size ps
  have m3 := namesOff_mod A C sel H.size ps
  have m4 := ucodeOff_mod A C sel H.size ps
  refine ⟨⟨e0, ?_⟩, ⟨e2, ?_⟩, m3, ⟨e4, ?_⟩⟩
  · rw [e0]; omega
  · rw [e2]; omega
  · rw [e4]; omega

theorem specVPHeader_ok : specVPHeader.ok := by
  unfold VPHeader.ok fieldsOk
  decide

theorem specFPHeader_ok : specFPHeader.ok := by
  unfold FPHeader.ok fieldsOk
  decide

theorem sampleAttrib_ok : sampleAttrib.ok := by
  unfold AttribLayout.ok fieldsOk
  decide

theorem sampleConst_ok : sampleConst.ok := by
  unfold ConstLayout.ok fieldsOk
  decide

/-! ## The attribute table -/

theorem mul_succ_le (k k1 s : Nat) (h : k < k1) : k * s + s ≤ k1 * s := by
  have := Nat.mul_le_mul_right s (Nat.succ_le_of_lt h)
  rw [Nat.succ_mul] at this
  exact this

/-- Two members of two different records of a table do not meet. -/
theorem rec_sep (base s k k1 f wf g wg x : Nat) (hf : f + wf ≤ s) (hg : g + wg ≤ s)
    (hne : k ≠ k1) (h1 : base + k * s + f ≤ x) (h2 : x < base + k * s + f + wf)
    (h3 : base + k1 * s + g ≤ x) (h4 : x < base + k1 * s + g + wg) : False := by
  rcases Nat.lt_or_gt_of_ne hne with h | h
  · have := mul_succ_le k k1 s h; omega
  · have := mul_succ_le k1 k s h; omega

theorem get_lt {α : Type} (l : List α) (k : Nat) (a : α) (h : l[k]? = some a) : k < l.length := by
  rcases Nat.lt_or_ge k l.length with h5 | h5
  · exact h5
  · rw [List.getElem?_eq_none h5] at h; simp at h

theorem attrib_ok_facts (A : AttribLayout) (h : A.ok) :
    A.name_off = 0 ∧ 4 ≤ A.index ∧ A.index + 4 ≤ A.size := by
  obtain ⟨h0, h1, h2⟩ := h
  have h3 := h1 (A.index, 4) (by simp)
  simp only [List.pairwise_cons, List.mem_singleton, forall_eq] at h2
  have h4 := h2.1
  simp only at h3 h4
  omega

/-- A store of a back-patch goes to the first four bytes of an attribute record, or to the
constant table or behind it. -/
theorem isPatchW_addr (A : AttribLayout) (C : ConstLayout) (sel : param → Bool) (hsize : Nat)
    (ps : List param) (w : Write) (hs : selCovers sel)
    (h : isPatchW A C sel hsize ps w) :
    (∃ j p, ps[j]? = some p ∧ named p = true ∧ sel p = true ∧
        constOff A hsize ps + slotSum sel (ps.take j) * C.size ≤ w.1 ∧
        w.1 < constOff A hsize ps + slotSum sel (ps.take j) * C.size + 4) ∨
      (∃ j p, ps[j]? = some p ∧ named p = true ∧ p.is_const = false ∧
        attribOff hsize + (attribs (ps.take j)).length * A.size ≤ w.1 ∧
        w.1 < attribOff hsize + (attribs (ps.take j)).length * A.size + 4) := by
  obtain ⟨j, p, h1, h2, h3⟩ := h
  have h4 := st_addr _ _ _ _ h3
  unfold userAt at h4
  by_cases c1 : sel p = true
  · rw [if_pos c1] at h4
    exact Or.inl ⟨j, p, h1, h2, c1, h4⟩
  · rw [if_neg c1] at h4
    by_cases c2 : p.is_const = false
    · rw [if_pos c2] at h4
      exact Or.inr ⟨j, p, h1, h2, c2, h4⟩
    · exact absurd (hs p h2 (by simpa using c2)) c1

/-- The `index` member of attribute record `k` holds the swapped index of the `k`-th
non-constant parameter in the finished buffer. -/
theorem attrib_index_holds (H : Header) (A : AttribLayout) (C : ConstLayout) (pre : List Write)
    (sel : param → Bool) (idx : param → Nat → Nat) (enc : Nat → Nat)
    (ps : List param) (insns : List program_exec)
    (hH : fieldsOk H.size H.fields) (hA : A.ok) (hpre : preOk H pre) (hs : selCovers sel)
    (k : Nat) (p : param) (hk : (attribs ps)[k]? = some p) :
    holds (emit H A C pre sel idx enc ps insns).mem (attribOff H.size + k * A.size + A.index) 4
      (SWAP32 (p.index % 2 ^ 32)) := by
  obtain ⟨a0, a1, a2⟩ := attrib_ok_facts A hA
  have hc := offsets_chain A C sel H.size ps
  have hkl := get_lt _ _ _ hk
  have hend : attribOff H.size + k * A.size + A.size ≤ attribEnd A H.size ps := by
    rw [attribEnd_eq]
    have := mul_succ_le k _ A.size hkl
    omega
  unfold Emitted.mem
  apply holds_of_writes
  · intro w hw
    rw [mem_emit]
    refine Or.inr (Or.inr (Or.inr (Or.inl ⟨k, p, hk, ?_⟩)))
    simp only [attribRecord, List.mem_append]
    exact Or.inl hw
  · intro w hw h1 h2
    rw [mem_emit] at hw
    rcases hw with hw | hw | hw | hw | hw | hw | hw | hw | hw
    · have := (hpre w hw).1; omega
    · obtain ⟨i1, f1, v1, g1, g2, g3⟩ := (isHdrW_iff _ _ _ _ _ _ _).1 hw
      have := fields_inside _ _ hH i1 f1 g1
      have := st_addr _ _ _ _ g3
      omega
    · have := (isPadW_addr _ _ _ _ _ _ hw).2; omega
    · obtain ⟨k1, p1, g1, g2⟩ := hw
      simp only [attribRecord, List.mem_append] at g2
      by_cases hkk : k1 = k
      · subst hkk
        rw [hk] at g1; cases g1
        rcases g2 with g2 | g2
        · obtain ⟨i, _, rfl⟩ := (mem_st _ _ _ _).1 g2
          simp only [Nat.add_sub_cancel_left]
        · have := st_addr _ _ _ _ g2; omega
      · exfalso
        rcases g2 with g2 | g2
        · have := st_addr _ _ _ _ g2
          exact rec_sep (attribOff H.size) A.size k k1 A.index 4 A.index 4 w.1 a2 a2
            (Ne.symm hkk) h1 h2 this.1 this.2
        · have := st_addr _ _ _ _ g2
          exact rec_sep (attribOff H.size) A.size k k1 A.index 4 A.name_off 4 w.1 a2
            (by omega) (Ne.symm hkk) h1 h2 this.1 this.2
    · have := isHeadW_ge _ _ _ _ _ _ hw; omega
    · have := isSlotW_ge _ _ _ _ _ _ _ hw; omega
    · have := isStrW_addr _ _ _ _ _ _ hw; omega
    · exfalso
      rcases isPatchW_addr A C sel H.size ps w hs hw with ⟨j, q, _, _, _, g1, g2⟩ |
        ⟨j, q, _, _, _, g1, g2⟩
      · omega
      · by_cases hkk : (attribs (ps.take j)).length = k
        · rw [hkk] at g1 g2; omega
        · exact rec_sep (attribOff H.size) A.size k _ A.index 4 0 4 w.1 a2 (by omega)
            (Ne.symm hkk) h1 h2 (by omega) (by omega)
    · have := isInsnW_addr _ _ _ _ _ _ _ _ hw; omega

/-- The attribute table of a finished container: record `k` carries the index of the `k`-th
non-constant parameter, `num_attrib` their number, and the table ends where the padding before
the constant table starts. -/
theorem emit_attrib_table (H : Header) (A : AttribLayout) (C : ConstLayout) (pre : List Write)
    (sel : param → Bool) (idx : param → Nat → Nat) (enc : Nat → Nat)
    (ps : List param) (insns : List program_exec)
    (hH : fieldsOk H.size H.fields) (hA : A.ok) (hpre : preOk H pre) (hs : selCovers sel) :
    let o := emit H A C pre sel idx enc ps insns
    (∀ k p, (attribs ps)[k]? = some p →
        be32 o.mem (o.attrib_off + k * A.size + A.index) = p.index % 2 ^ 32) ∧
      ((attribs ps).length < 65536 → be16 o.mem H.num_attrib = (attribs ps).length) ∧
      o.num_attrib = (attribs ps).length ∧
      o.attrib_off + (attribs ps).length * A.size ≤ o.const_off ∧
      o.const_off < o.attrib_off + (attribs ps).length * A.size + 4 := by
  intro o
  refine ⟨?_, ?_, ?_, ?_, ?_⟩
  · intro k p hk
    exact be32_of_holds _ _ _ (Nat.mod_lt _ (by norm_num))
      (attrib_index_holds H A C pre sel idx enc ps insns hH hA hpre hs k p hk)
  · intro hn
    exact be16_of_holds _ _ _ (by norm_num; omega)
      (header_holds H A C pre sel idx enc ps insns hH hpre hs 1 (H.num_attrib, 2)
        (SWAP16 (attribs ps).length) rfl rfl)
  · show attribCount 0 ps = _
    rw [attribCount_eq, Nat.zero_add]
  · show attribOff H.size + _ ≤ constOff A H.size ps
    rw [← attribEnd_eq]; exact constOff_ge _ _ _
  · show constOff A H.size ps < attribOff H.size + _ + 4
    rw [← attribEnd_eq]; unfold constOff; rw [pad4_snd]; omega

theorem const_ok_facts (C : ConstLayout) (h : C.ok) : ConstFacts C := by
  obtain ⟨h0, h1, h2⟩ := h
  simp only [List.pairwise_cons, List.mem_cons, List.mem_singleton, forall_eq_or_imp, forall_eq,
    List.not_mem_nil, false_implies, implies_true, List.Pairwise.nil, and_true] at h1 h2
  obtain ⟨⟨p1, p2, p3, p4, p5⟩, ⟨p6, p7, p8, p9⟩, ⟨p10, p11, p12⟩, _⟩ := h2
  obtain ⟨q1, q2, q3, q4, q5, q6⟩ := h1
  constructor <;> omega

theorem mem_constSlot (C : ConstLayout) (idx rec : Nat) (pVal : Nat → Nat) (w : Write) :
    w ∈ constSlot C idx rec pVal ↔
      ∃ (m : Nat) (g : Nat × Nat), (slotFields C idx pVal)[m]? = some g ∧
        w ∈ st (rec + g.1) 4 g.2 := by
  unfold constSlot
  simp only [List.mem_append]
  constructor
  · rintro ((((h | h) | h) | h) | h)
    · exact ⟨0, _, rfl, h⟩
    · exact ⟨1, _, rfl, by simpa only [Nat.add_assoc] using h⟩
    · exact ⟨2, _, rfl, by simpa only [Nat.add_assoc] using h⟩
    · exact ⟨3, _, rfl, by simpa only [Nat.add_assoc] using h⟩
    · exact ⟨4, _, rfl, by simpa only [Nat.add_assoc] using h⟩
  · rintro ⟨m, g, h1, h2⟩
    have hm : m < 5 := by simpa [slotFields] using get_lt _ _ _ h1
    interval_cases m <;> simp only [slotFields, List.getElem?_cons_zero,
      List.getElem?_cons_succ, Option.some.injEq] at h1 <;> subst h1
    · exact Or.inl (Or.inl (Or.inl (Or.inl h2)))
    · exact Or.inl (Or.inl (Or.inl (Or.inr (by simpa only [Nat.add_assoc] using h2))))
    · exact Or.inl (Or.inl (Or.inr (by simpa only [Nat.add_assoc] using h2)))
    · exact Or.inl (Or.inr (by simpa only [Nat.add_assoc] using h2))
    · exact Or.inr (by simpa only [Nat.add_assoc] using h2)

/-- A slot member is the index member or lies inside the values. -/
theorem slotFields_addr (C : ConstLayout) (idx : Nat) (pVal : Nat → Nat) (m : Nat)
    (g : Nat × Nat) (h : (slotFields C idx pVal)[m]? = some g) :
    (m = 0 ∧ g.1 = C.index) ∨ (1 ≤ m ∧ m < 5 ∧ g.1 = C.values + 4 * (m - 1)) := by
  have hm : m < 5 := by simpa [slotFields] using get_lt _ _ _ h
  interval_cases m <;> simp only [slotFields, List.getElem?_cons_zero,
    List.getElem?_cons_succ, Option.some.injEq] at h <;> subst h <;> simp

/-- Record numbers identify the slot: two slots with the same record number are the same slot
of the same parameter. -/
theorem slot_unique (sel : param → Bool) (ps : List param) (j j1 i i1 : Nat) (p p1 : param)
    (h : ps[j]? = some p) (h1 : ps[j1]? = some p1) (hp : sel p = true) (hp1 : sel p1 = true)
    (hi : i < iterations p.count) (hi1 : i1 < iterations p1.count)
    (e : slotSum sel (ps.take j) + i = slotSum sel (ps.take j1) + i1) :
    j = j1 ∧ i = i1 ∧ p = p1 := by
  have hj : j = j1 := by
    rcases Nat.lt_trichotomy j j1 with c | c | c
    · have := slotSum_take_lt sel ps j j1 p h hp c; omega
    · exact c
    · have := slotSum_take_lt sel ps j1 j p1 h1 hp1 c; omega
  subst hj
  rw [h] at h1; cases h1
  exact ⟨rfl, by omega, rfl⟩

theorem isAttrW_lt (A : AttribLayout) (hsize : Nat) (ps : List param) (w : Write) (hA : A.ok)
    (h : isAttrW A hsize ps w) : w.1 < attribEnd A hsize ps := by
  obtain ⟨a0, a1, a2⟩ := attrib_ok_facts A hA
  obtain ⟨k, p, h1, h2⟩ := h
  have hkl := get_lt _ _ _ h1
  have := mul_succ_le k _ A.size hkl
  rw [attribEnd_eq]
  simp only [attribRecord, List.mem_append] at h2
  rcases h2 with h2 | h2 <;> have := (st_addr _ _ _ _ h2).2 <;> omega

theorem slotField_inside (C : ConstLayout) (F : ConstFacts C) (g : Nat)
    (h : isSlotField C g) : g + 4 ≤ C.size ∧ 4 ≤ g := by
  have i1 := F.index_in
  have i2 := F.values_in
  have i3 := F.name_index
  have i4 := F.name_values
  rcases h with rfl | ⟨m, hm, rfl⟩ <;> omega

theorem headField_inside (C : ConstLayout) (F : ConstFacts C) (g wd : Nat)
    (h : isHeadField C g wd) : g + wd ≤ C.size := by
  have i1 := F.count_in
  have i2 := F.type_in
  have i3 := F.internal_in
  have i4 := F.index_in
  have i5 := F.name_index
  have i6 := F.name0
  rcases h with ⟨rfl, rfl⟩ | ⟨rfl, rfl⟩ | ⟨rfl, rfl⟩ | ⟨rfl, rfl⟩ <;> omega

/-- Inside one record, a head member and a slot member do not meet. -/
theorem head_slot_sep (C : ConstLayout) (F : ConstFacts C) (g wd gs base x : Nat)
    (h : isHeadField C g wd) (hs : isSlotField C gs)
    (h1 : base + g ≤ x) (h2 : x < base + g + wd) (h3 : base + gs ≤ x) (h4 : x < base + gs + 4) :
    False := by
  have n0 := F.name0
  rcases h with ⟨rfl, rfl⟩ | ⟨rfl, rfl⟩ | ⟨rfl, rfl⟩ | ⟨rfl, rfl⟩
  · rcases hs with rfl | ⟨m, hm, rfl⟩
    · have := F.index_count; omega
    · have := F.values_count; omega
  · rcases hs with rfl | ⟨m, hm, rfl⟩
    · have := F.index_type; omega
    · have := F.values_type; omega
  · rcases hs with rfl | ⟨m, hm, rfl⟩
    · have := F.index_internal; omega
    · have := F.values_internal; omega
  · rcases hs with rfl | ⟨m, hm, rfl⟩
    · have := F.name_index; omega
    · have := F.name_values; omega

/-- Inside one record, two slot members that meet are the same member. -/
theorem slot_slot_same (C : ConstLayout) (F : ConstFacts C) (idx idx1 : Nat)
    (pVal pVal1 : Nat → Nat) (m m1 : Nat) (g g1 : Nat × Nat) (base x : Nat)
    (hm : (slotFields C idx pVal)[m]? = some g) (hm1 : (slotFields C idx1 pVal1)[m1]? = some g1)
    (h1 : base + g.1 ≤ x) (h2 : x < base + g.1 + 4) (h3 : base + g1.1 ≤ x)
    (h4 : x < base + g1.1 + 4) : m = m1 := by
  have a := slotFields_addr _ _ _ _ _ hm
  have b := slotFields_addr _ _ _ _ _ hm1
  have c := F.index_values
  rcases a with ⟨a1, a2⟩ | ⟨a1, a2, a3⟩ <;> rcases b with ⟨b1, b2⟩ | ⟨b1, b2, b3⟩ <;> omega

theorem slotFields_isSlotField (C : ConstLayout) (idx : Nat) (pVal : Nat → Nat) (m : Nat)
    (g : Nat × Nat) (h : (slotFields C idx pVal)[m]? = some g) : isSlotField C g.1 := by
  rcases slotFields_addr _ _ _ _ _ h with ⟨_, a2⟩ | ⟨a1, a2, a3⟩
  · exact Or.inl a2
  · exact Or.inr ⟨m - 1, by omega, a3⟩

/-- A once-per-constant store goes to one of the four members `count`, `type`, `is_internal`,
`name_off` of the record the counter points to. -/
theorem isHeadW_addr (A : AttribLayout) (C : ConstLayout) (sel : param → Bool) (hsize : Nat)
    (ps : List param) (w : Write) (h : isHeadW A C sel hsize ps w) :
    ∃ j p g wd, ps[j]? = some p ∧ sel p = true ∧
      isHeadField C g wd ∧
      constOff A hsize ps + slotSum sel (ps.take j) * C.size + g ≤ w.1 ∧
      w.1 < constOff A hsize ps + slotSum sel (ps.take j) * C.size + g + wd := by
  obtain ⟨j, p, h1, h2, h3⟩ := h
  simp only [constHead, List.mem_append] at h3
  rcases h3 with ((h3 | h3) | h3) | h3
  · exact ⟨j, p, _, _, h1, h2, Or.inl ⟨rfl, rfl⟩, st_addr _ _ _ _ h3⟩
  · exact ⟨j, p, _, _, h1, h2, Or.inr (Or.inl ⟨rfl, rfl⟩), st_addr _ _ _ _ h3⟩
  · exact ⟨j, p, _, _, h1, h2, Or.inr (Or.inr (Or.inl ⟨rfl, rfl⟩)), st_addr _ _ _ _ h3⟩
  · exact ⟨j, p, _, _, h1, h2, Or.inr (Or.inr (Or.inr ⟨rfl, rfl⟩)), st_addr _ _ _ _ h3⟩

/-- Member `m` of the slot fields of slot `i` of the selected parameter at position `j` holds,
in the finished buffer, the value the slot loop stored. -/
theorem slot_field_holds (H : Header) (A : AttribLayout) (C : ConstLayout) (pre : List Write)
    (sel : param → Bool) (idx : param → Nat → Nat) (enc : Nat → Nat)
    (ps : List param) (insns : List program_exec)
    (hH : fieldsOk H.size H.fields) (hA : A.ok) (hC : C.ok) (hpre : preOk H pre)
    (hs : selCovers sel)
    (j i : Nat) (p : param) (hj : ps[j]? = some p) (hp : sel p = true)
    (hi : i < iterations p.count) (m : Nat) (g : Nat × Nat)
    (hm : (slotFields C (idx p i) (p.values i))[m]? = some g) :
    holds (emit H A C pre sel idx enc ps insns).mem
      (constOff A H.size ps + (slotSum sel (ps.take j) + i) * C.size + g.1) 4 g.2 := by
  have F := const_ok_facts C hC
  have hc := offsets_chain A C sel H.size ps
  have hle := slotSum_take_le sel ps j p hj hp
  have hend : constOff A H.size ps + (slotSum sel (ps.take j) + i) * C.size + C.size ≤
      constEnd A C sel H.size ps := by
    rw [constEnd_eq]
    have := mul_succ_le (slotSum sel (ps.take j) + i) (slotSum sel ps) C.size (by omega)
    omega
  have hgs := slotFields_isSlotField _ _ _ _ _ hm
  obtain ⟨hg1, hg2⟩ := slotField_inside C F g.1 hgs
  unfold Emitted.mem
  apply holds_of_writes
  · intro w hw
    rw [mem_emit]
    refine Or.inr (Or.inr (Or.inr (Or.inr (Or.inr (Or.inl ⟨j, p, i, hj, hp, hi, ?_⟩)))))
    rw [mem_constSlot]
    exact ⟨m, g, hm, hw⟩
  · intro w hw h1 h2
    rw [mem_emit] at hw
    rcases hw with hw | hw | hw | hw | hw | hw | hw | hw | hw
    · have := (hpre w hw).1; omega
    · obtain ⟨i1, f1, v1, g1, g2, g3⟩ := (isHdrW_iff _ _ _ _ _ _ _).1 hw
      have := fields_inside _ _ hH i1 f1 g1
      have := st_addr _ _ _ _ g3
      omega
    · have := (isPadW_addr _ _ _ _ _ _ hw).2; omega
    · have := isAttrW_lt _ _ _ _ hA hw; omega
    · exfalso
      obtain ⟨j1, p1, g1, wd, _, _, c, b1, b2⟩ := isHeadW_addr _ _ _ _ _ _ hw
      by_cases hr : slotSum sel (ps.take j1) = slotSum sel (ps.take j) + i
      · rw [hr] at b1 b2
        exact head_slot_sep C F g1 wd g.1 _ w.1 c hgs b1 b2 h1 h2
      · exact rec_sep (constOff A H.size ps) C.size _ _ g.1 4 g1 wd w.1 hg1
          (headField_inside C F g1 wd c) (Ne.symm hr) h1 h2 b1 b2
    · obtain ⟨j1, p1, i1, b1, b2, b3, b4⟩ := hw
      obtain ⟨m1, g1, b5, b6⟩ := (mem_constSlot _ _ _ _ _).1 b4
      have b7 := st_addr _ _ _ _ b6
      by_cases hr : slotSum sel (ps.take j1) + i1 = slotSum sel (ps.take j) + i
      · obtain ⟨rfl, rfl, rfl⟩ := slot_unique sel ps j j1 i i1 p p1 hj b1 hp b2 hi b3 hr.symm
        have hmm : m = m1 := slot_slot_same C F _ _ _ _ m m1 g g1 _ w.1 hm b5 h1 h2 b7.1 b7.2
        subst hmm
        rw [hm] at b5; cases b5
        obtain ⟨k, _, rfl⟩ := (mem_st _ _ _ _).1 b6
        simp only [Nat.add_sub_cancel_left]
      · exfalso
        exact rec_sep (constOff A H.size ps) C.size _ _ g.1 4 g1.1 4 w.1 hg1
          (slotField_inside C F g1.1 (slotFields_isSlotField _ _ _ _ _ b5)).1
          (Ne.symm hr) h1 h2 b7.1 b7.2
    · have := isStrW_addr _ _ _ _ _ _ hw; omega
    · exfalso
      rcases isPatchW_addr A C sel H.size ps w hs hw with ⟨j1, q, _, _, _, b1, b2⟩ |
        ⟨j1, q, b0, _, b3, b1, b2⟩
      · by_cases hr : slotSum sel (ps.take j1) = slotSum sel (ps.take j) + i
        · rw [hr] at b1 b2; omega
        · exact rec_sep (constOff A H.size ps) C.size _ _ g.1 4 0 4 w.1 hg1 (by omega)
            (Ne.symm hr) h1 h2 (by omega) (by omega)
      · obtain ⟨a0, a1, a2⟩ := attrib_ok_facts A hA
        have := attribs_get ps j1 q b0 b3
        have := mul_succ_le _ _ A.size (get_lt _ _ _ this)
        have := attribEnd_eq A H.size ps
        omega
    · have := isInsnW_addr _ _ _ _ _ _ _ _ hw; omega

/-- The record of slot `i` of the selected parameter at position `j` holds the swapped index
and the four swapped values in the finished buffer. -/
theorem emit_const_slot (H : Header) (A : AttribLayout) (C : ConstLayout) (pre : List Write)
    (sel : param → Bool) (idx : param → Nat → Nat) (enc : Nat → Nat)
    (ps : List param) (insns : List program_exec)
    (hH : fieldsOk H.size H.fields) (hA : A.ok) (hC : C.ok) (hpre : preOk H pre)
    (hs : selCovers sel)
    (j i : Nat) (p : param) (hj : ps[j]? = some p) (hp : sel p = true)
    (hi : i < iterations p.count) :
    let o := emit H A C pre sel idx enc ps insns
    let rec_ := o.const_off + (slotSum sel (ps.take j) + i) * C.size
    holds o.mem (rec_ + C.index) 4 (idx p i) ∧
      ∀ v, v < 4 → be32 o.mem (rec_ + C.values + 4 * v) = p.values i v % 2 ^ 32 := by
  intro o rec_
  have key := slot_field_holds H A C pre sel idx enc ps insns hH hA hC hpre hs j i p hj hp hi
  refine ⟨key 0 (C.index, idx p i) rfl, ?_⟩
  intro v hv
  have hm : (slotFields C (idx p i) (p.values i))[v + 1]? =
      some (C.values + 4 * v, SWAP32 (p.values i v % 2 ^ 32)) := by
    interval_cases v <;> rfl
  have h1 := key (v + 1) _ hm
  simp only [← Nat.add_assoc] at h1
  exact be32_of_holds _ _ _ (Nat.mod_lt _ (by norm_num)) h1

/-- The count members of the header decode to the counters of the loops. -/
theorem emit_counts (H : Header) (A : AttribLayout) (C : ConstLayout) (pre : List Write)
    (sel : param → Bool) (idx : param → Nat → Nat) (enc : Nat → Nat)
    (ps : List param) (insns : List program_exec)
    (hH : fieldsOk H.size H.fields) (hpre : preOk H pre) (hs : selCovers sel) :
    let o := emit H A C pre sel idx enc ps insns
    ((attribs ps).length < 65536 → be16 o.mem H.num_attrib = (attribs ps).length) ∧
      (slotSum sel ps < 65536 → be16 o.mem H.num_const = slotSum sel ps) ∧
      (insns.length < 65536 → be16 o.mem H.num_insn = insns.length) := by
  intro o
  refine ⟨?_, ?_, ?_⟩
  · intro hn
    exact be16_of_holds _ _ _ (by norm_num; omega)
      (header_holds H A C pre sel idx enc ps insns hH hpre hs 1 (H.num_attrib, 2)
        (SWAP16 (attribs ps).length) rfl rfl)
  · intro hn
    exact be16_of_holds _ _ _ (by norm_num; omega)
      (header_holds H A C pre sel idx enc ps insns hH hpre hs 3 (H.num_const, 2)
        (SWAP16 (slotSum sel ps)) rfl rfl)
  · intro hn
    exact be16_of_holds _ _ _ (by norm_num; omega)
      (header_holds H A C pre sel idx enc ps insns hH hpre hs 5 (H.num_insn, 2)
        (SWAP16 insns.length) rfl rfl)

theorem iterations_eq (c : Nat) (h : c < 2 ^ 31) : iterations c = c := by
  unfold iterations
  have : c % 2 ^ 32 = c := Nat.mod_eq_of_lt (by omega)
  rw [this, if_pos h]

theorem inst_idx_find (rs : List fragment_program_data) (x : Nat) (d : fragment_program_data)
    (h : rs.find? (fun r => r.index = x) = some d) : inst_idx rs x = d.offset % 2 ^ 32 := by
  induction rs with
  | nil => simp at h
  | cons r rs ih =>
    by_cases c : r.index = x
    · simp only [List.find?_cons, c, decide_True, Option.some.injEq] at h
      subst h
      simp only [inst_idx, c, if_true]
    · simp only [List.find?_cons, c, decide_False] at h
      simp only [inst_idx, c, if_false]
      exact ih h

theorem inst_idx_none (rs : List fragment_program_data) (x : Nat)
    (h : ∀ r ∈ rs, r.index ≠ x) : inst_idx rs x = 2 ^ 32 - 1 := by
  induction rs with
  | nil => rfl
  | cons r rs ih =>
    simp only [inst_idx, if_neg (h r (List.mem_cons_self _ _))]
    exact ih fun r1 h1 => h r1 (List.mem_cons_of_mem _ h1)

/-! ## The instruction stream -/

/-- A field holds `v` when the last group of stores stored `v` there and stored nothing else
into the field. -/
theorem holds_of_last (a b : List Write) (addr n v : Nat)
    (hin : ∀ w ∈ st addr n v, w ∈ b)
    (huniq : ∀ w ∈ b, addr ≤ w.1 → w.1 < addr + n → w.2 = v / 256 ^ (w.1 - addr) % 256) :
    holds (load (a ++ b)) addr n v := by
  intro k hk
  unfold load
  rw [overlay_append]
  have h1 : ∀ w ∈ b, w.1 = addr + k → w.2 = v / 256 ^ k % 256 := by
    intro w hw hx
    have := huniq w hw (by omega) (by omega)
    rw [this, hx]; congr 3; omega
  rcases overlay_same b (addr + k) (overlay a (addr + k) 0) _ h1 with h2 | ⟨_, h2⟩
  · exact h2
  · exact absurd rfl (h2 _ (hin _ ((mem_st _ addr n v).2 ⟨k, hk, rfl⟩)))

theorem emit_writes_last (H : Header) (A : AttribLayout) (C : ConstLayout) (pre : List Write)
    (sel : param → Bool) (idx : param → Nat → Nat) (enc : Nat → Nat)
    (ps : List param) (insns : List program_exec) :
    ∃ a, (emit H A C pre sel idx enc ps insns).writes =
      a ++ insnWrites enc (ucodeOff A C sel H.size ps) 0 insns :=
  ⟨_, rfl⟩

/-- Word `j` of instruction `i` is stored, encoded, at `ucode_off + 16 * i + 4 * j` of the
finished buffer, whatever the earlier passes stored there. -/
theorem insn_word_holds (H : Header) (A : AttribLayout) (C : ConstLayout) (pre : List Write)
    (sel : param → Bool) (idx : param → Nat → Nat) (enc : Nat → Nat)
    (ps : List param) (insns : List program_exec)
    (i j : Nat) (e : program_exec) (hi : insns[i]? = some e) (hj : j < 4) :
    holds (emit H A C pre sel idx enc ps insns).mem
      (ucodeOff A C sel H.size ps + 16 * i + 4 * j) 4 (enc (e.data j)) := by
  obtain ⟨a, ha⟩ := emit_writes_last H A C pre sel idx enc ps insns
  unfold Emitted.mem
  rw [ha]
  apply holds_of_last
  · intro w hw
    rw [mem_insnWrites]
    refine ⟨i, e, j, hi, hj, ?_⟩
    rw [show ucodeOff A C sel H.size ps + 4 * (0 + 4 * i + j) =
      ucodeOff A C sel H.size ps + 16 * i + 4 * j by omega]
    exact hw
  · intro w hw h1 h2
    rw [mem_insnWrites] at hw
    obtain ⟨i1, e1, j1, g1, g2, g3⟩ := hw
    have g4 := st_addr _ _ _ _ g3
    have hii : i1 = i := by omega
    subst hii
    have hjj : j1 = j := by omega
    subst hjj
    rw [hi] at g1; cases g1
    obtain ⟨k, _, rfl⟩ := (mem_st _ _ _ _).1 g3
    simp only
    congr 3; omega

theorem bytesAt_four (m : Nat → Nat) (a : Nat) :
    bytesAt m a 4 = [m a, m (a + 1), m (a + 2), m (a + 3)] := by
  simp [bytesAt, List.range, List.range.loop]

/-- The bytes of a field holding `SWAP32 v`: those of `v`, most significant first. -/
theorem bytes_of_swapped (m : Nat → Nat) (a v : Nat) (hv : v < 2 ^ 32)
    (h : holds m a 4 (SWAP32 v)) :
    bytesAt m a 4 = [v / 2 ^ 24 % 256, v / 2 ^ 16 % 256, v / 2 ^ 8 % 256, v % 256] := by
  have h0 := h 0 (by norm_num)
  have h1 := h 1 (by norm_num)
  have h2 := h 2 (by norm_num)
  have h3 := h 3 (by norm_num)
  rw [SWAP32_byte v _ hv (by norm_num)] at h0 h1 h2 h3
  simp only [Nat.add_zero] at h0
  rw [bytesAt_four, h0, h1, h2, h3]
  norm_num

/-- The bytes of a field holding `endian_fp (SWAP32 v)`: with `v` made of the bytes
`b3 b2 b1 b0`, most significant first, they are `b1 b0 b3 b2`. -/
theorem bytes_of_fpWord (m : Nat → Nat) (a v : Nat) (hv : v < 2 ^ 32)
    (h : holds m a 4 (endian_fp (SWAP32 v))) :
    bytesAt m a 4 = [v / 2 ^ 8 % 256, v % 256, v / 2 ^ 24 % 256, v / 2 ^ 16 % 256] := by
  have hs := SWAP32_lt v hv
  have h0 := h 0 (by norm_num)
  have h1 := h 1 (by norm_num)
  have h2 := h 2 (by norm_num)
  have h3 := h 3 (by norm_num)
  rw [endian_fp_byte _ _ hs (by norm_num)] at h0 h1 h2 h3
  norm_num at h0 h1 h2 h3
  have s0 := SWAP32_byte v 0 hv (by norm_num)
  have s1 := SWAP32_byte v 1 hv (by norm_num)
  have s2 := SWAP32_byte v 2 hv (by norm_num)
  have s3 := SWAP32_byte v 3 hv (by norm_num)
  norm_num at s0 s1 s2 s3
  rw [bytesAt_four, h0, h1, h2, h3, s0, s1, s2, s3]
  norm_num

theorem endian_fp_lt (v : Nat) : endian_fp v < 2 ^ 32 := by
  unfold endian_fp
  apply Nat.or_lt_two_pow
  · have : (v >>> 16 &&& 0xffff) <<< 0 = v >>> 16 &&& 0xffff := rfl
    rw [this]
    exact lt_of_le_of_lt Nat.and_le_right (by norm_num)
  · rw [Nat.shiftLeft_eq]
    have : v >>> 0 &&& 0xffff ≤ 0xffff := Nat.and_le_right
    omega

theorem le32_of_holds (m : Nat → Nat) (a v : Nat) (hv : v < 2 ^ 32) (h : holds m a 4 v) :
    le32 m a = v := by
  have h0 := h 0 (by norm_num)
  have h1 := h 1 (by norm_num)
  have h2 := h 2 (by norm_num)
  have h3 := h 3 (by norm_num)
  simp only [Nat.add_zero] at h0
  unfold le32
  rw [h0, h1, h2, h3]
  norm_num
  omega

theorem testBit_full (i : Nat) (hi : i < 32) : Nat.testBit 0xFFFFFFFF i = true := by
  have : (0xFFFFFFFF : Nat) = 2 ^ 32 - 1 := by norm_num
  rw [this, Nat.testBit_two_pow_sub_one]
  simpa using hi

/-- After the body of the relocation loop the constant-source field is the target, when the
target fits the field. -/
theorem applyReloc_field (F : ConstSrc) (t : Nat) (e : program_exec) (h : fitsField F t) :
    constSrcField F (applyReloc F t e) = t := by
  unfold fitsField at h
  have hm : F.mask % 2 ^ 32 < 2 ^ 32 := Nat.mod_lt _ (by norm_num)
  have hT : t <<< F.shift < 2 ^ 32 := by
    rw [← h]; exact lt_of_le_of_lt Nat.and_le_right hm
  have ht : t < 2 ^ 32 := by
    refine lt_of_le_of_lt ?_ hT
    rw [Nat.shiftLeft_eq]
    exact Nat.le_mul_of_pos_right _ (Nat.two_pow_pos _)
  have hd : e.data 1 % 2 ^ 32 < 2 ^ 32 := Nat.mod_lt _ (by norm_num)
  unfold constSrcField applyReloc
  simp only [if_true]
  rw [Nat.mod_eq_of_lt ht, Nat.mod_eq_of_lt hT]
  have hlt : (e.data 1 % 2 ^ 32 &&& (0xFFFFFFFF ^^^ F.mask % 2 ^ 32)) ||| t <<< F.shift <
      2 ^ 32 :=
    Nat.or_lt_two_pow (lt_of_le_of_lt Nat.and_le_left hd) hT
  rw [Nat.mod_eq_of_lt hlt]
  have key : ((e.data 1 % 2 ^ 32 &&& (0xFFFFFFFF ^^^ F.mask % 2 ^ 32)) ||| t <<< F.shift) &&&
      (F.mask % 2 ^ 32) = t <<< F.shift := by
    apply Nat.eq_of_testBit_eq
    intro i
    have hTi : (t <<< F.shift).testBit i =
        ((t <<< F.shift).testBit i && (F.mask % 2 ^ 32).testBit i) := by
      conv_lhs => rw [← h]
      rw [Nat.testBit_land]
    simp only [Nat.testBit_land, Nat.testBit_lor, Nat.testBit_xor]
    generalize (t <<< F.shift).testBit i = b at hTi
    by_cases hi : i < 32
    · rw [testBit_full i hi]
      generalize (F.mask % 2 ^ 32).testBit i = c at hTi
      generalize (e.data 1 % 2 ^ 32).testBit i = a
      cases a <;> cases b <;> cases c <;> simp_all
    · have : (F.mask % 2 ^ 32).testBit i = false := testBit_above _ 32 i hm (by omega)
      rw [this] at hTi ⊢
      simp_all
  rw [key, Nat.shiftLeft_shiftRight]

theorem relocate_length (F : ConstSrc) (rs : List nvfx_relocation) (vpi : List program_exec) :
    (relocate F rs vpi).length = vpi.length := by
  induction rs generalizing vpi with
  | nil => rfl
  | cons r rs ih => simp only [relocate, ih, List.length_modify]

theorem relocate_append (F : ConstSrc) (a b : List nvfx_relocation) (vpi : List program_exec) :
    relocate F (a ++ b) vpi = relocate F b (relocate F a vpi) := by
  induction a generalizing vpi with
  | nil => rfl
  | cons r rs ih => exact ih _

/-- Relocations at other locations leave an instruction as it is. -/
theorem relocate_other (F : ConstSrc) (rs : List nvfx_relocation) (vpi : List program_exec)
    (loc : Nat) (h : ∀ q ∈ rs, q.location ≠ loc) : (relocate F rs vpi)[loc]? = vpi[loc]? := by
  induction rs generalizing vpi with
  | nil => rfl
  | cons r rs ih =>
    simp only [relocate]
    rw [ih _ fun q hq => h q (List.mem_cons_of_mem _ hq)]
    exact List.getElem?_modify_ne _ _ (h r (List.mem_cons_self _ _))

/-- The instruction a relocation names carries the target in its constant-source field after
the relocation loop, when the target fits the field and no later relocation names the same
instruction. -/
theorem relocate_field (F : ConstSrc) (a b : List nvfx_relocation) (r : nvfx_relocation)
    (vpi : List program_exec) (hin : r.location < vpi.length) (hfit : fitsField F r.target)
    (hlast : ∀ q ∈ b, q.location ≠ r.location) :
    ∃ e, (relocate F (a ++ r :: b) vpi)[r.location]? = some e ∧
      constSrcField F e = r.target := by
  rw [relocate_append]
  simp only [relocate]
  rw [relocate_other F b _ _ hlast, List.getElem?_modify_eq]
  have hl : r.location < (relocate F a vpi).length := by rw [relocate_length]; exact hin
  rw [List.getElem?_eq_getElem hl]
  exact ⟨_, rfl, applyReloc_field F _ _ hfit⟩

theorem const_rec_end (A : AttribLayout) (C : ConstLayout) (sel : param → Bool) (hsize : Nat)
    (ps : List param) (j : Nat) (p : param) (hj : ps[j]? = some p) (hp : sel p = true)
    (hc : 1 ≤ iterations p.count) :
    constOff A hsize ps + slotSum sel (ps.take j) * C.size + C.size ≤
      constEnd A C sel hsize ps := by
  rw [constEnd_eq]
  have := slotSum_take_le sel ps j p hj hp
  have := mul_succ_le (slotSum sel (ps.take j)) (slotSum sel ps) C.size (by omega)
  omega

theorem attr_rec_end (A : AttribLayout) (hsize : Nat) (ps : List param) (j : Nat) (p : param)
    (hj : ps[j]? = some p) (hp : p.is_const = false) :
    attribOff hsize + (attribs (ps.take j)).length * A.size + A.size ≤ attribEnd A hsize ps := by
  rw [attribEnd_eq]
  have := mul_succ_le _ _ A.size (get_lt _ _ _ (attribs_get ps j p hj hp))
  omega

theorem isHeadW_lt (A : AttribLayout) (C : ConstLayout) (sel : param → Bool) (hsize : Nat)
    (ps : List param) (w : Write) (hC : C.ok) (hok : slotsOk sel ps)
    (h : isHeadW A C sel hsize ps w) : w.1 < constEnd A C sel hsize ps := by
  obtain ⟨j, p, g, wd, h1, h2, c, b1, b2⟩ := isHeadW_addr _ _ _ _ _ _ h
  have := headField_inside C (const_ok_facts C hC) g wd c
  have := const_rec_end A C sel hsize ps j p h1 h2 (hok p (List.getElem?_mem h1) h2)
  omega

theorem isSlotW_lt (A : AttribLayout) (C : ConstLayout) (sel : param → Bool)
    (idx : param → Nat → Nat) (hsize : Nat) (ps : List param) (w : Write) (hC : C.ok)
    (h : isSlotW A C sel idx hsize ps w) : w.1 < constEnd A C sel hsize ps := by
  obtain ⟨j, p, i, h1, h2, h3, h4⟩ := h
  obtain ⟨m, g, h5, h6⟩ := (mem_constSlot _ _ _ _ _).1 h4
  have := (slotField_inside C (const_ok_facts C hC) g.1 (slotFields_isSlotField _ _ _ _ _ h5)).1
  have := st_addr _ _ _ _ h6
  have := slotSum_take_le sel ps j p h1 h2
  have := mul_succ_le (slotSum sel (ps.take j) + i) (slotSum sel ps) C.size (by omega)
  rw [constEnd_eq]
  omega

theorem isPatchW_lt (A : AttribLayout) (C : ConstLayout) (sel : param → Bool) (hsize : Nat)
    (ps : List param) (w : Write) (hA : A.ok) (hC : C.ok) (hs : selCovers sel)
    (hok : slotsOk sel ps) (h : isPatchW A C sel hsize ps w) :
    w.1 < constEnd A C sel hsize ps := by
  have hc := offsets_chain A C sel hsize ps
  rcases isPatchW_addr A C sel hsize ps w hs h with ⟨j, p, h1, _, h3, b1, b2⟩ |
    ⟨j, p, h1, _, h3, b1, b2⟩
  · have := const_rec_end A C sel hsize ps j p h1 h3 (hok p (List.getElem?_mem h1) h3)
    have := (const_ok_facts C hC).index_in
    have := (const_ok_facts C hC).name_index
    omega
  · have := attr_rec_end A hsize ps j p h1 h3
    obtain ⟨a0, a1, a2⟩ := attrib_ok_facts A hA
    omega

/-- Byte `k` of the name string table in the finished buffer is byte `k` of the concatenated
NUL-terminated names. -/
theorem name_byte (H : Header) (A : AttribLayout) (C : ConstLayout) (pre : List Write)
    (sel : param → Bool) (idx : param → Nat → Nat) (enc : Nat → Nat)
    (ps : List param) (insns : List program_exec)
    (hH : fieldsOk H.size H.fields) (hA : A.ok) (hC : C.ok) (hpre : preOk H pre)
    (hs : selCovers sel) (hok : slotsOk sel ps)
    (k b : Nat) (hk : (nameBytes ps)[k]? = some b) :
    (emit H A C pre sel idx enc ps insns).mem (namesOff A C sel H.size ps + k) = b % 256 := by
  have hc := offsets_chain A C sel H.size ps
  have hkl := get_lt _ _ _ hk
  have hne := namesEnd_eq A C sel H.size ps
  unfold Emitted.mem
  apply load_unique
  · intro w hw hx
    rw [mem_emit] at hw
    rcases hw with hw | hw | hw | hw | hw | hw | hw | hw | hw
    · have := (hpre w hw).1; omega
    · obtain ⟨i1, f1, v1, g1, g2, g3⟩ := (isHdrW_iff _ _ _ _ _ _ _).1 hw
      have := fields_inside _ _ hH i1 f1 g1
      have := st_addr _ _ _ _ g3
      omega
    · have := (isPadW_addr _ _ _ _ _ _ hw).2; omega
    · have := isAttrW_lt _ _ _ _ hA hw; omega
    · have := isHeadW_lt _ _ _ _ _ _ hC hok hw; omega
    · have := isSlotW_lt _ _ _ _ _ _ _ hC hw; omega
    · obtain ⟨k1, b1, g1, rfl⟩ := hw
      simp only at hx
      have : k1 = k := by omega
      subst this
      rw [hk] at g1; cases g1; rfl
    · have := isPatchW_lt _ _ _ _ _ _ hA hC hs hok hw; omega
    · have := isInsnW_addr _ _ _ _ _ _ _ _ hw; omega
  · refine ⟨(namesOff A C sel H.size ps + k, b % 256), ?_, rfl⟩
    rw [mem_emit]
    exact Or.inr (Or.inr (Or.inr (Or.inr (Or.inr (Or.inr (Or.inl ⟨k, b, hk, rfl⟩))))))

theorem bytesAt_eq (m : Nat → Nat) (a : Nat) (l : List Nat)
    (h : ∀ k b, l[k]? = some b → m (a + k) = b) : bytesAt m a l.length = l := by
  apply List.ext_getElem?
  intro k
  unfold bytesAt
  by_cases hk : k < l.length
  · simp only [List.getElem?_map, List.getElem?_range hk, Option.map_some',
      List.getElem?_eq_getElem hk, Option.some.injEq]
    exact h k _ (List.getElem?_eq_getElem hk)
  · rw [List.getElem?_eq_none (by simpa using hk), List.getElem?_eq_none (by simpa using hk)]

/-- The name string table of the finished buffer is the concatenation of the NUL-terminated
names of the parameters the name loop selects. -/
theorem name_table (H : Header) (A : AttribLayout) (C : ConstLayout) (pre : List Write)
    (sel : param → Bool) (idx : param → Nat → Nat) (enc : Nat → Nat)
    (ps : List param) (insns : List program_exec)
    (hH : fieldsOk H.size H.fields) (hA : A.ok) (hC : C.ok) (hpre : preOk H pre)
    (hs : selCovers sel) (hok : slotsOk sel ps) :
    bytesAt (emit H A C pre sel idx enc ps insns).mem (namesOff A C sel H.size ps)
      (nameBytes ps).length = (nameBytes ps).map fun b => b % 256 := by
  have := bytesAt_eq (emit H A C pre sel idx enc ps insns).mem (namesOff A C sel H.size ps)
    ((nameBytes ps).map fun b => b % 256) (by
      intro k b hk
      simp only [List.getElem?_map, Option.map_eq_some'] at hk
      obtain ⟨b0, h1, rfl⟩ := hk
      exact name_byte H A C pre sel idx enc ps insns hH hA hC hpre hs hok k b0 h1)
  simpa using this

/-! ## The name offsets -/

theorem named_not_internal (p : param) (h : named p = true) : p.is_internal = false := by
  unfold named at h
  simp only [Bool.and_eq_true, Bool.not_eq_true'] at h
  exact h.2

theorem named_nonempty (p : param) (h : named p = true) : p.name ≠ [] := by
  unfold named at h
  simp only [Bool.and_eq_true, Bool.not_eq_true', List.isEmpty_eq_false] at h
  intro e
  rw [e] at h
  simp at h

theorem SWAP32_int_zero : SWAP32_int 0 = 0 := by decide

/-- A field holds `v` when a middle group of stores stored `v` there and nothing else, and
the stores after it stay clear of the field. -/
theorem holds_of_mid (a n b : List Write) (addr len v : Nat)
    (hb : ∀ w ∈ b, w.1 < addr ∨ addr + len ≤ w.1)
    (hin : ∀ w ∈ st addr len v, w ∈ n)
    (huniq : ∀ w ∈ n, addr ≤ w.1 → w.1 < addr + len → w.2 = v / 256 ^ (w.1 - addr) % 256) :
    holds (load (a ++ n ++ b)) addr len v := by
  intro k hk
  have h1 := holds_of_last a n addr len v hin huniq k hk
  unfold load at h1 ⊢
  rw [overlay_append, overlay_skip b (addr + k) _ (fun w hw => by have := hb w hw; omega)]
  exact h1

theorem emit_writes_mid (H : Header) (A : AttribLayout) (C : ConstLayout) (pre : List Write)
    (sel : param → Bool) (idx : param → Nat → Nat) (enc : Nat → Nat)
    (ps : List param) (insns : List program_exec) :
    ∃ a, (emit H A C pre sel idx enc ps insns).writes =
      a ++ nameWrites (namesOff A C sel H.size ps) (ps.zip (usersOf A C sel H.size ps)) ++
        ((pad16 (namesEnd A C sel H.size ps)).1 ++
          (st H.ucode_off 4 (SWAP32 (ucodeOff A C sel H.size ps % 2 ^ 32)) ++
            (st H.num_insn 2 (SWAP16 insns.length) ++
              insnWrites enc (ucodeOff A C sel H.size ps) 0 insns))) :=
  ⟨pre ++ (pad4 H.size).1 ++
      st H.attrib_off 4 (SWAP32 (attribOff H.size % 2 ^ 32)) ++
      attribWrites A (attribOff H.size) 0 ps ++
      st H.num_attrib 2 (SWAP16 (attribCount 0 ps)) ++
      (pad4 (attribEnd A H.size ps)).1 ++
      st H.const_off 4 (SWAP32 (constOff A H.size ps % 2 ^ 32)) ++
      constWrites C sel idx (constOff A H.size ps) 0 ps ++
      st H.num_const 2 (SWAP16 (constCount sel 0 ps)) ++
      (pad4 (constEnd A C sel H.size ps)).1, by simp only [emit, List.append_assoc]⟩

theorem mem_names (A : AttribLayout) (C : ConstLayout) (sel : param → Bool) (hsize : Nat)
    (ps : List param) (w : Write) :
    w ∈ nameWrites (namesOff A C sel hsize ps) (ps.zip (usersOf A C sel hsize ps)) ↔
      isStrW A C sel hsize ps w ∨ isPatchW A C sel hsize ps w := by
  rw [mem_nameWrites _ _ _ (usersOf_length A C sel hsize ps), ← isPatchW_iff]
  rfl

/-- The record starts of two different selected parameters are different. -/
theorem slotSum_take_ne (sel : param → Bool) (ps : List param) (j j1 : Nat) (p p1 : param)
    (h : ps[j]? = some p) (h1 : ps[j1]? = some p1) (hp : sel p = true) (hp1 : sel p1 = true)
    (hok : slotsOk sel ps) (hne : j ≠ j1) :
    slotSum sel (ps.take j) ≠ slotSum sel (ps.take j1) := by
  have c := hok p (List.getElem?_mem h) hp
  have c1 := hok p1 (List.getElem?_mem h1) hp1
  rcases Nat.lt_or_gt_of_ne hne with d | d
  · have := slotSum_take_lt sel ps j j1 p h hp d; omega
  · have := slotSum_take_lt sel ps j1 j p1 h1 hp1 d; omega

theorem attribs_take_ne (ps : List param) (j j1 : Nat) (p p1 : param)
    (h : ps[j]? = some p) (h1 : ps[j1]? = some p1) (hp : p.is_const = false)
    (hp1 : p1.is_const = false) (hne : j ≠ j1) :
    (attribs (ps.take j)).length ≠ (attribs (ps.take j1)).length := by
  rcases Nat.lt_or_gt_of_ne hne with d | d
  · have := attribs_take_lt ps j j1 p h hp d; omega
  · have := attribs_take_lt ps j1 j p1 h1 hp1 d; omega

/-- The name offset of the named parameter at position `j`: the four bytes at its `user`
offset hold the swapped offset of its string in the finished buffer. -/
theorem patch_holds (H : Header) (A : AttribLayout) (C : ConstLayout) (pre : List Write)
    (sel : param → Bool) (idx : param → Nat → Nat) (enc : Nat → Nat)
    (ps : List param) (insns : List program_exec)
    (hH : fieldsOk H.size H.fields) (hA : A.ok) (hC : C.ok)
    (hs : selCovers sel) (hok : slotsOk sel ps)
    (j : Nat) (p : param) (hj : ps[j]? = some p) (hn : named p = true) :
    holds (emit H A C pre sel idx enc ps insns).mem (userAt A C sel H.size ps j p) 4
      (SWAP32_int ((namesOff A C sel H.size ps + (nameBytes (ps.take j)).length) % 2 ^ 32)) := by
  have F := const_ok_facts C hC
  obtain ⟨a0, a1, a2⟩ := attrib_ok_facts A hA
  have hc := offsets_chain A C sel H.size ps
  have c1 := F.index_in
  have c2 := F.name_index
  obtain ⟨a, ha⟩ := emit_writes_mid H A C pre sel idx enc ps insns
  have hlo := userAt_ge A C sel H.size ps j p hs hn
  have hhi : userAt A C sel H.size ps j p + 4 ≤ constEnd A C sel H.size ps := by
    unfold userAt
    by_cases d : sel p = true
    · rw [if_pos d]
      have := const_rec_end A C sel H.size ps j p hj d (hok p (List.getElem?_mem hj) d)
      omega
    · rw [if_neg d]
      by_cases d2 : p.is_const = false
      · rw [if_pos d2]
        have := attr_rec_end A H.size ps j p hj d2
        omega
      · exact absurd (hs p hn (by simpa using d2)) d
  unfold Emitted.mem
  rw [ha]
  apply holds_of_mid
  · intro w hw
    simp only [List.mem_append] at hw
    rcases hw with hw | hw | hw | hw
    · have := pad16_mem _ _ hw; omega
    · have := fields_inside _ _ hH 4 (H.ucode_off, 4) rfl
      have := st_addr _ _ _ _ hw
      simp only at this
      omega
    · have := fields_inside _ _ hH 5 (H.num_insn, 2) rfl
      have := st_addr _ _ _ _ hw
      simp only at this
      omega
    · have := (mem_insnWrites _ _ _ _ _).1 hw
      obtain ⟨i1, e1, j1, _, _, g3⟩ := this
      have := st_addr _ _ _ _ g3
      omega
  · intro w hw
    rw [mem_names]
    exact Or.inr ⟨j, p, hj, hn, hw⟩
  · intro w hw h1 h2
    rw [mem_names] at hw
    rcases hw with hw | hw
    · have := isStrW_addr _ _ _ _ _ _ hw; omega
    · obtain ⟨j1, p1, g1, g2, g3⟩ := hw
      by_cases hjj : j1 = j
      · subst hjj
        rw [hj] at g1; cases g1
        obtain ⟨k, _, rfl⟩ := (mem_st _ _ _ _).1 g3
        simp only [Nat.add_sub_cancel_left]
      · exfalso
        have g4 := st_addr _ _ _ _ g3
        unfold userAt at h1 h2 g4
        by_cases d : sel p = true
        · rw [if_pos d] at h1 h2
          by_cases d1 : sel p1 = true
          · rw [if_pos d1] at g4
            exact rec_sep (constOff A H.size ps) C.size _ _ 0 4 0 4 w.1 (by omega) (by omega)
              (slotSum_take_ne sel ps j j1 p p1 hj g1 d d1 hok (Ne.symm hjj))
              (by omega) (by omega) (by omega) (by omega)
          · rw [if_neg d1] at g4
            by_cases d2 : p1.is_const = false
            · rw [if_pos d2] at g4
              have := attr_rec_end A H.size ps j1 p1 g1 d2
              omega
            · exact absurd (hs p1 g2 (by simpa using d2)) d1
        · rw [if_neg d] at h1 h2
          by_cases d2 : p.is_const = false
          · rw [if_pos d2] at h1 h2
            by_cases d1 : sel p1 = true
            · rw [if_pos d1] at g4
              have := attr_rec_end A H.size ps j p hj d2
              omega
            · rw [if_neg d1] at g4
              by_cases d3 : p1.is_const = false
              · rw [if_pos d3] at g4
                exact rec_sep (attribOff H.size) A.size _ _ 0 4 0 4 w.1 (by omega) (by omega)
                  (attribs_take_ne ps j j1 p p1 hj g1 d2 d3 (Ne.symm hjj))
                  (by omega) (by omega) (by omega) (by omega)
              · exact absurd (hs p1 g2 (by simpa using d3)) d1
          · exact absurd (hs p hn (by simpa using d2)) d

theorem st_zero_val (a n : Nat) (w : Write) (h : w ∈ st a n 0) : w.2 = 0 := by
  obtain ⟨k, _, rfl⟩ := (mem_st _ _ _ _).1 h
  simp

/-- The name offset of the attribute record of a parameter the name loop skips stays zero. -/
theorem attr_nameoff_zero (H : Header) (A : AttribLayout) (C : ConstLayout) (pre : List Write)
    (sel : param → Bool) (idx : param → Nat → Nat) (enc : Nat → Nat)
    (ps : List param) (insns : List program_exec)
    (hH : fieldsOk H.size H.fields) (hA : A.ok) (hpre : preOk H pre) (hs : selCovers sel)
    (j : Nat) (p : param) (hj : ps[j]? = some p) (hp : p.is_const = false)
    (hn : named p = false) (t : Nat) (ht : t < 4) :
    (emit H A C pre sel idx enc ps insns).mem
      (attribOff H.size + (attribs (ps.take j)).length * A.size + A.name_off + t) = 0 := by
  obtain ⟨a0, a1, a2⟩ := attrib_ok_facts A hA
  have hc := offsets_chain A C sel H.size ps
  have hend := attr_rec_end A H.size ps j p hj hp
  unfold Emitted.mem
  apply load_zero
  intro w hw hx
  rw [mem_emit] at hw
  rcases hw with hw | hw | hw | hw | hw | hw | hw | hw | hw
  · have := (hpre w hw).1; omega
  · obtain ⟨i1, f1, v1, g1, g2, g3⟩ := (isHdrW_iff _ _ _ _ _ _ _).1 hw
    have := fields_inside _ _ hH i1 f1 g1
    have := st_addr _ _ _ _ g3
    omega
  · exact (isPadW_addr _ _ _ _ _ _ hw).1
  · obtain ⟨k1, p1, g1, g2⟩ := hw
    simp only [attribRecord, List.mem_append] at g2
    rcases g2 with g2 | g2
    · exfalso
      have b := st_addr _ _ _ _ g2
      by_cases hkk : k1 = (attribs (ps.take j)).length
      · rw [hkk] at b; omega
      · exact rec_sep (attribOff H.size) A.size _ _ A.index 4 0 4 w.1 a2 (by omega) hkk
          b.1 b.2 (by omega) (by omega)
    · rw [SWAP32_int_zero] at g2
      exact st_zero_val _ _ _ g2
  · have := isHeadW_ge _ _ _ _ _ _ hw; omega
  · have := isSlotW_ge _ _ _ _ _ _ _ hw; omega
  · have := isStrW_addr _ _ _ _ _ _ hw; omega
  · exfalso
    rcases isPatchW_addr A C sel H.size ps w hs hw with ⟨j1, q, _, _, _, b1, b2⟩ |
      ⟨j1, q, b0, b3, b4, b1, b2⟩
    · omega
    · by_cases hjj : j1 = j
      · subst hjj
        rw [hj] at b0; cases b0
        rw [hn] at b3; cases b3
      · exact rec_sep (attribOff H.size) A.size _ _ 0 4 0 4 w.1 (by omega) (by omega)
          (attribs_take_ne ps j1 j q p b0 hj b4 hp hjj) b1 b2 (by omega) (by omega)
  · have := isInsnW_addr _ _ _ _ _ _ _ _ hw; omega

/-- The name offset of every constant record of a parameter the name loop skips stays zero,
when every selected constant has at least one slot. -/
theorem const_nameoff_zero (H : Header) (A : AttribLayout) (C : ConstLayout) (pre : List Write)
    (sel : param → Bool) (idx : param → Nat → Nat) (enc : Nat → Nat)
    (ps : List param) (insns : List program_exec)
    (hH : fieldsOk H.size H.fields) (hA : A.ok) (hC : C.ok) (hpre : preOk H pre)
    (hs : selCovers sel) (hok : slotsOk sel ps)
    (j i : Nat) (p : param) (hj : ps[j]? = some p) (hp : sel p = true)
    (hn : named p = false) (hi : i < iterations p.count) (t : Nat) (ht : t < 4) :
    (emit H A C pre sel idx enc ps insns).mem
      (constOff A H.size ps + (slotSum sel (ps.take j) + i) * C.size + C.name_off + t) = 0 := by
  have F := const_ok_facts C hC
  have n0 := F.name0
  have c1 := F.index_in
  have c2 := F.name_index
  have hc := offsets_chain A C sel H.size ps
  have hle := slotSum_take_le sel ps j p hj hp
  have hend : constOff A H.size ps + (slotSum sel (ps.take j) + i) * C.size + C.size ≤
      constEnd A C sel H.size ps := by
    rw [constEnd_eq]
    have := mul_succ_le (slotSum sel (ps.take j) + i) (slotSum sel ps) C.size (by omega)
    omega
  unfold Emitted.mem
  apply load_zero
  intro w hw hx
  rw [mem_emit] at hw
  rcases hw with hw | hw | hw | hw | hw | hw | hw | hw | hw
  · have := (hpre w hw).1; omega
  · obtain ⟨i1, f1, v1, g1, g2, g3⟩ := (isHdrW_iff _ _ _ _ _ _ _).1 hw
    have := fields_inside _ _ hH i1 f1 g1
    have := st_addr _ _ _ _ g3
    omega
  · exact (isPadW_addr _ _ _ _ _ _ hw).1
  · have := isAttrW_lt _ _ _ _ hA hw; omega
  · obtain ⟨j1, p1, g1, g2, g3⟩ := hw
    simp only [constHead, List.mem_append] at g3
    have sep : ∀ g wd, isHeadField C g wd → (4 ≤ g ∨ wd = 0) →
        constOff A H.size ps + slotSum sel (ps.take j1) * C.size + g ≤ w.1 →
        w.1 < constOff A H.size ps + slotSum sel (ps.take j1) * C.size + g + wd → False := by
      intro g wd hf hg b1 b2
      by_cases hr : slotSum sel (ps.take j1) = slotSum sel (ps.take j) + i
      · rw [hr] at b1 b2; omega
      · exact rec_sep (constOff A H.size ps) C.size _ _ g wd 0 4 w.1
          (headField_inside C F g wd hf) (by omega) hr b1 b2 (by omega) (by omega)
    rcases g3 with ((g3 | g3) | g3) | g3
    · have b := st_addr _ _ _ _ g3
      exact (sep C.count C.count_w (Or.inl ⟨rfl, rfl⟩) F.name_count b.1 b.2).elim
    · have b := st_addr _ _ _ _ g3
      exact (sep C.type C.type_w (Or.inr (Or.inl ⟨rfl, rfl⟩)) F.name_type b.1 b.2).elim
    · have b := st_addr _ _ _ _ g3
      exact (sep C.is_internal C.is_internal_w (Or.inr (Or.inr (Or.inl ⟨rfl, rfl⟩)))
        F.name_internal b.1 b.2).elim
    · rw [SWAP32_int_zero] at g3
      exact st_zero_val _ _ _ g3
  · exfalso
    obtain ⟨j1, p1, i1, b1, b2, b3, b4⟩ := hw
    obtain ⟨m1, g1, b5, b6⟩ := (mem_constSlot _ _ _ _ _).1 b4
    have b7 := st_addr _ _ _ _ b6
    obtain ⟨s1, s2⟩ := slotField_inside C F g1.1 (slotFields_isSlotField _ _ _ _ _ b5)
    by_cases hr : slotSum sel (ps.take j1) + i1 = slotSum sel (ps.take j) + i
    · rw [hr] at b7; omega
    · exact rec_sep (constOff A H.size ps) C.size _ _ g1.1 4 0 4 w.1 s1 (by omega) hr
        b7.1 b7.2 (by omega) (by omega)
  · have := isStrW_addr _ _ _ _ _ _ hw; omega
  · exfalso
    rcases isPatchW_addr A C sel H.size ps w hs hw with ⟨j1, q, b0, b3, b4, b1, b2⟩ |
      ⟨j1, q, b0, _, b3, b1, b2⟩
    · by_cases hr : slotSum sel (ps.take j1) = slotSum sel (ps.take j) + i
      · have hq := hok q (List.getElem?_mem b0) b4
        obtain ⟨rfl, _, rfl⟩ := slot_unique sel ps j1 j 0 i q p b0 hj b4 hp (by omega) hi
          (by omega)
        rw [hn] at b3; cases b3
      · exact rec_sep (constOff A H.size ps) C.size _ _ 0 4 0 4 w.1 (by omega) (by omega) hr
          (by omega) (by omega) (by omega) (by omega)
    · have := attr_rec_end A H.size ps j1 q b0 b3
      obtain ⟨a0, a1, a2⟩ := attrib_ok_facts A hA
      omega
  · have := isInsnW_addr _ _ _ _ _ _ _ _ hw; omega

/-- C1: in the containers of `compileVP` and of `compileFP` the `attrib_off` and `const_off`
members of the header decode to the offsets of the attribute and constant tables and these are
multiples of 4, the name string table starts at a multiple of 4, and `ucode_off` decodes to the
offset of the instruction stream, a multiple of 16. -/
theorem C1_alignment (LV : VPLayout) (LF : FPLayout) (vp : VPProgram) (fp : FPProgram)
    (hV : LV.hdr.ok) (hF : LF.hdr.ok) :
    ((be32 (compileVP LV vp).mem LV.hdr.attrib_off = (compileVP LV vp).attrib_off % 2 ^ 32 ∧
        be32 (compileVP LV vp).mem LV.hdr.attrib_off % 4 = 0) ∧
      (be32 (compileVP LV vp).mem LV.hdr.const_off = (compileVP LV vp).const_off % 2 ^ 32 ∧
        be32 (compileVP LV vp).mem LV.hdr.const_off % 4 = 0) ∧
      (compileVP LV vp).names_off % 4 = 0 ∧
      (be32 (compileVP LV vp).mem LV.hdr.ucode_off = (compileVP LV vp).ucode_off % 2 ^ 32 ∧
        be32 (compileVP LV vp).mem LV.hdr.ucode_off % 16 = 0)) ∧
    ((be32 (compileFP LF fp).mem LF.hdr.attrib_off = (compileFP LF fp).attrib_off % 2 ^ 32 ∧
        be32 (compileFP LF fp).mem LF.hdr.attrib_off % 4 = 0) ∧
      (be32 (compileFP LF fp).mem LF.hdr.const_off = (compileFP LF fp).const_off % 2 ^ 32 ∧
        be32 (compileFP LF fp).mem LF.hdr.const_off % 4 = 0) ∧
      (compileFP LF fp).names_off % 4 = 0 ∧
      (be32 (compileFP LF fp).mem LF.hdr.ucode_off = (compileFP LF fp).ucode_off % 2 ^ 32 ∧
        be32 (compileFP LF fp).mem LF.hdr.ucode_off % 16 = 0)) :=
  ⟨emit_offsets LV.hdr.common LV.attr LV.cst _ vpSel vpIndex vpWord vp.params _
      (vp_common_ok _ hV) (vp_preOk _ hV _ _) vp_selCovers,
    emit_offsets LF.hdr.common LF.attr LF.cst _ fpSel (fpIndex fp.const_relocs) fpWord
      fp.params fp.insns (fp_common_ok _ hF) (fp_preOk _ hF _ _) fp_selCovers⟩

/-- C1, witness: the sample layouts on the two scenario programs. -/
theorem C1_alignment_witness :
    sampleVP.hdr.ok ∧ sampleFP.hdr.ok ∧
      be32 (compileVP sampleVP scenarioVP).mem sampleVP.hdr.ucode_off % 16 = 0 ∧
      be32 (compileFP sampleFP scenarioFP).mem sampleFP.hdr.const_off % 4 = 0 :=
  ⟨specVPHeader_ok, specFPHeader_ok,
    (C1_alignment sampleVP sampleFP scenarioVP scenarioFP specVPHeader_ok
      specFPHeader_ok).1.2.2.2.2,
    (C1_alignment sampleVP sampleFP scenarioVP scenarioFP specVPHeader_ok
      specFPHeader_ok).2.2.1.2⟩

/-- C2: in the finished buffer of either program kind, attribute record `k` carries in its
`index` member the hardware index of the `k`-th non-constant parameter, `num_attrib` decodes
to the number of non-constant parameters when that is below 65536, and the attribute table
has exactly that many records before the padding in front of the constant table. -/
theorem C2_attribute_table (LV : VPLayout) (LF : FPLayout) (vp : VPProgram) (fp : FPProgram)
    (hV : LV.ok) (hF : LF.ok) :
    ((∀ k p, (attribs vp.params)[k]? = some p →
          attribIndexAt (compileVP LV vp) LV.attr k = p.index % 2 ^ 32) ∧
      ((attribs vp.params).length < 65536 →
          be16 (compileVP LV vp).mem LV.hdr.num_attrib = (attribs vp.params).length) ∧
      (compileVP LV vp).num_attrib = (attribs vp.params).length ∧
      (compileVP LV vp).attrib_off + (attribs vp.params).length * LV.attr.size ≤
          (compileVP LV vp).const_off ∧
      (compileVP LV vp).const_off <
          (compileVP LV vp).attrib_off + (attribs vp.params).length * LV.attr.size + 4) ∧
    ((∀ k p, (attribs fp.params)[k]? = some p →
          attribIndexAt (compileFP LF fp) LF.attr k = p.index % 2 ^ 32) ∧
      ((attribs fp.params).length < 65536 →
          be16 (compileFP LF fp).mem LF.hdr.num_attrib = (attribs fp.params).length) ∧
      (compileFP LF fp).num_attrib = (attribs fp.params).length ∧
      (compileFP LF fp).attrib_off + (attribs fp.params).length * LF.attr.size ≤
          (compileFP LF fp).const_off ∧
      (compileFP LF fp).const_off <
          (compileFP LF fp).attrib_off + (attribs fp.params).length * LF.attr.size + 4) :=
  ⟨emit_attrib_table LV.hdr.common LV.attr LV.cst _ vpSel vpIndex vpWord vp.params _
      (vp_common_ok _ hV.1) hV.2.1 (vp_preOk _ hV.1 _ _) vp_selCovers,
    emit_attrib_table LF.hdr.common LF.attr LF.cst _ fpSel (fpIndex fp.const_relocs) fpWord
      fp.params fp.insns (fp_common_ok _ hF.1) hF.2.1 (fp_preOk _ hF.1 _ _) fp_selCovers⟩

theorem sampleVP_ok : sampleVP.ok :=
  ⟨specVPHeader_ok, sampleAttrib_ok, sampleConst_ok⟩

theorem sampleFP_ok : sampleFP.ok :=
  ⟨specFPHeader_ok, sampleAttrib_ok, sampleConst_ok⟩

/-- C2, witness: the attribute of the vertex scenario and the attribute put in front of the
fragment scenario. -/
theorem C2_attribute_table_witness :
    sampleVP.ok ∧ sampleFP.ok ∧
      attribIndexAt (compileVP sampleVP scenarioVP) sampleVP.attr 0 = 0 ∧
      be16 (compileVP sampleVP scenarioVP).mem sampleVP.hdr.num_attrib = 1 ∧
      attribIndexAt (compileFP sampleFP attribFP) sampleFP.attr 0 = 4 ∧
      be16 (compileFP sampleFP attribFP).mem sampleFP.hdr.num_attrib = 1 :=
  ⟨sampleVP_ok, sampleFP_ok,
    (C2_attribute_table sampleVP sampleFP scenarioVP attribFP sampleVP_ok sampleFP_ok).1.1 0 _
      rfl,
    (C2_attribute_table sampleVP sampleFP scenarioVP attribFP sampleVP_ok sampleFP_ok).1.2.1
      (by decide),
    (C2_attribute_table sampleVP sampleFP scenarioVP attribFP sampleVP_ok sampleFP_ok).2.1 0 _
      rfl,
    (C2_attribute_table sampleVP sampleFP scenarioVP attribFP sampleVP_ok sampleFP_ok).2.2.1
      (by decide)⟩

theorem slotSum_ones (sel : param → Bool) (ps : List param)
    (h : ∀ p ∈ ps, sel p = true → iterations p.count = 1) :
    slotSum sel ps = (consts sel ps).length := by
  induction ps with
  | nil => rfl
  | cons p ps ih =>
    have ih1 := ih fun q hq => h q (List.mem_cons_of_mem _ hq)
    rw [slotSum_cons]
    unfold consts at ih1 ⊢
    by_cases c : sel p = true
    · rw [if_pos c, h p (List.mem_cons_self _ _) c, ih1, List.filter_cons_of_pos c,
        List.length_cons]
      omega
    · rw [if_neg c, ih1, List.filter_cons_of_neg c]

/-- The constant table of a finished container: `num_const` decodes to the number of records,
the sum of the slot counts of the selected constants, and the table has that many records
before the padding in front of the name string table. -/
theorem emit_const_table (H : Header) (A : AttribLayout) (C : ConstLayout) (pre : List Write)
    (sel : param → Bool) (idx : param → Nat → Nat) (enc : Nat → Nat)
    (ps : List param) (insns : List program_exec)
    (hH : fieldsOk H.size H.fields) (hpre : preOk H pre) (hs : selCovers sel) :
    let o := emit H A C pre sel idx enc ps insns
    (slotSum sel ps < 65536 → be16 o.mem H.num_const = slotSum sel ps) ∧
      o.num_const = slotSum sel ps ∧
      o.const_off + slotSum sel ps * C.size ≤ o.names_off ∧
      o.names_off < o.const_off + slotSum sel ps * C.size + 4 := by
  intro o
  refine ⟨(emit_counts H A C pre sel idx enc ps insns hH hpre hs).2.1, ?_, ?_, ?_⟩
  · show constCount sel 0 ps = _
    rw [constCount_eq, Nat.zero_add]
  · show constOff A H.size ps + _ ≤ namesOff A C sel H.size ps
    rw [← constEnd_eq]; exact namesOff_ge _ _ _ _ _
  · show namesOff A C sel H.size ps < constOff A H.size ps + _ + 4
    rw [← constEnd_eq]; unfold namesOff; rw [pad4_snd]; omega

/-- C3, as stated, fails: a vertex program with a single constant of two slots gets
`num_const = 2`, not the number of constant parameters. -/
theorem C3_counterexample :
    ¬ (be16 (compileVP sampleVP twoSlotVP).mem sampleVP.hdr.num_const =
      (consts vpSel twoSlotVP.params).length) := by
  decide

/-- C3, amended: the constant table holds one record per slot of every applicable constant
parameter (vertex: every constant; fragment: every non-internal constant), so `num_const`
decodes to the sum of their slot counts when that is below 65536; it is the number of
applicable constant parameters when each of them has one slot. -/
theorem C3_num_const (LV : VPLayout) (LF : FPLayout) (vp : VPProgram) (fp : FPProgram)
    (hV : LV.hdr.ok) (hF : LF.hdr.ok) :
    ((slotSum vpSel vp.params < 65536 →
          be16 (compileVP LV vp).mem LV.hdr.num_const = slotSum vpSel vp.params) ∧
      (compileVP LV vp).num_const = slotSum vpSel vp.params ∧
      (compileVP LV vp).const_off + slotSum vpSel vp.params * LV.cst.size ≤
          (compileVP LV vp).names_off ∧
      (compileVP LV vp).names_off <
          (compileVP LV vp).const_off + slotSum vpSel vp.params * LV.cst.size + 4 ∧
      ((∀ p ∈ vp.params, vpSel p = true → iterations p.count = 1) →
          slotSum vpSel vp.params = (consts vpSel vp.params).length)) ∧
    ((slotSum fpSel fp.params < 65536 →
          be16 (compileFP LF fp).mem LF.hdr.num_const = slotSum fpSel fp.params) ∧
      (compileFP LF fp).num_const = slotSum fpSel fp.params ∧
      (compileFP LF fp).const_off + slotSum fpSel fp.params * LF.cst.size ≤
          (compileFP LF fp).names_off ∧
      (compileFP LF fp).names_off <
          (compileFP LF fp).const_off + slotSum fpSel fp.params * LF.cst.size + 4 ∧
      ((∀ p ∈ fp.params, fpSel p = true → iterations p.count = 1) →
          slotSum fpSel fp.params = (consts fpSel fp.params).length)) := by
  have a := emit_const_table LV.hdr.common LV.attr LV.cst _ vpSel vpIndex vpWord vp.params
    (relocate LV.src vp.const_reloc vp.insns) (vp_common_ok _ hV)
    (vp_preOk _ hV vp.input_mask vp.output_mask) vp_selCovers
  have b := emit_const_table LF.hdr.common LF.attr LF.cst _ fpSel (fpIndex fp.const_relocs)
    fpWord fp.params fp.insns (fp_common_ok _ hF) (fp_preOk _ hF fp.num_regs fp.fp_control)
    fp_selCovers
  exact ⟨⟨a.1, a.2.1, a.2.2.1, a.2.2.2, slotSum_ones _ _⟩,
    ⟨b.1, b.2.1, b.2.2.1, b.2.2.2, slotSum_ones _ _⟩⟩

/-- C3, witness: the two-slot vertex program and the fragment scenario. -/
theorem C3_num_const_witness :
    sampleVP.hdr.ok ∧ sampleFP.hdr.ok ∧
      be16 (compileVP sampleVP twoSlotVP).mem sampleVP.hdr.num_const = 2 ∧
      be16 (compileFP sampleFP scenarioFP).mem sampleFP.hdr.num_const = 1 ∧
      slotSum fpSel scenarioFP.params = (consts fpSel scenarioFP.params).length :=
  ⟨specVPHeader_ok, specFPHeader_ok,
    (C3_num_const sampleVP sampleFP twoSlotVP scenarioFP specVPHeader_ok specFPHeader_ok).1.1
      (by decide),
    (C3_num_const sampleVP sampleFP twoSlotVP scenarioFP specVPHeader_ok specFPHeader_ok).2.1
      (by decide),
    (C3_num_const sampleVP sampleFP twoSlotVP scenarioFP specVPHeader_ok
      specFPHeader_ok).2.2.2.2.2 (by decide)⟩

theorem c_str_id (name : List Nat) (h : ∀ c ∈ name, 0 < c ∧ c < 256) : c_str name = name := by
  unfold c_str
  rw [List.takeWhile_eq_self_iff]
  intro c hc
  have := (h c hc).1
  simp only [ne_eq, decide_not, Bool.not_eq_true', decide_eq_false_iff_not]
  omega

theorem nameBytes_strings (ps : List param) (h : namesOk ps) :
    nameBytes ps = (nameStrings ps).flatten := by
  induction ps with
  | nil => rfl
  | cons p ps ih =>
    have ih1 := ih fun q hq => h q (List.mem_cons_of_mem _ hq)
    rw [nameBytes_cons]
    unfold nameStrings at ih1 ⊢
    by_cases c : named p = true
    · rw [if_pos c, List.filter_cons_of_pos c, List.map_cons, List.flatten_cons, ih1,
        c_str_id _ (h p (List.mem_cons_self _ _))]
    · rw [if_neg c, List.filter_cons_of_neg c, ih1]

theorem nameBytes_lt (ps : List param) (h : namesOk ps) : ∀ b ∈ nameBytes ps, b < 256 := by
  intro b hb
  unfold nameBytes at hb
  simp only [List.mem_flatMap] at hb
  obtain ⟨p, hp, hb⟩ := hb
  by_cases c : named p = true
  · rw [if_pos c, c_str_id _ (h p hp)] at hb
    rcases List.mem_append.1 hb with hb | hb
    · exact (h p hp b hb).2
    · simp only [List.mem_singleton] at hb; omega
  · rw [if_neg c] at hb; simp at hb

theorem map_mod_id (l : List Nat) (h : ∀ b ∈ l, b < 256) : (l.map fun b => b % 256) = l := by
  induction l with
  | nil => rfl
  | cons b l ih =>
    rw [List.map_cons, ih fun c hc => h c (List.mem_cons_of_mem _ hc),
      Nat.mod_eq_of_lt (h b (List.mem_cons_self _ _))]

theorem slotsOk_of_counts (sel : param → Bool) (ps : List param) (hsc : selConst sel)
    (h : countsOk ps) : slotsOk sel ps := by
  intro p hp hs
  obtain ⟨h1, h2⟩ := h p hp (hsc p hs)
  rw [iterations_eq _ h2]; exact h1

theorem vp_selConst : selConst vpSel := fun _ h => h

theorem fp_selConst : selConst fpSel := by
  intro p h
  unfold fpSel at h
  simp only [Bool.and_eq_true] at h
  exact h.1

/-- The name string table and the name offsets of a finished container. -/
theorem emit_names (H : Header) (A : AttribLayout) (C : ConstLayout) (pre : List Write)
    (sel : param → Bool) (idx : param → Nat → Nat) (enc : Nat → Nat)
    (ps : List param) (insns : List program_exec)
    (hH : fieldsOk H.size H.fields) (hA : A.ok) (hC : C.ok) (hpre : preOk H pre)
    (hs : selCovers sel) (hsc : selConst sel) (hcnt : countsOk ps) (hnm : namesOk ps)
    (hfit : (emit H A C pre sel idx enc ps insns).lastoff ≤ bufferSize) :
    let o := emit H A C pre sel idx enc ps insns
    (∀ j p, ps[j]? = some p → named p = true →
      be32 o.mem (nameOffField o A C sel ps j p) =
          o.names_off + (nameBytes (ps.take j)).length ∧
        bytesAt o.mem (o.names_off + (nameBytes (ps.take j)).length) (p.name ++ [0]).length =
          p.name ++ [0] ∧
        o.names_off + (nameBytes (ps.take j)).length + (p.name ++ [0]).length ≤ o.names_end) ∧
      bytesAt o.mem o.names_off (nameBytes ps).length = nameBytes ps ∧
      nameBytes ps = (nameStrings ps).flatten ∧
      o.names_end = o.names_off + (nameBytes ps).length := by
  intro o
  have hok := slotsOk_of_counts sel ps hsc hcnt
  have hc := offsets_chain A C sel H.size ps
  have hne := namesEnd_eq A C sel H.size ps
  have hlast : ucodeOff A C sel H.size ps + 16 * insns.length ≤ bufferSize := hfit
  unfold bufferSize at hlast
  have htab := name_table H A C pre sel idx enc ps insns hH hA hC hpre hs hok
  rw [map_mod_id _ (nameBytes_lt ps hnm)] at htab
  refine ⟨?_, htab, nameBytes_strings ps hnm, hne⟩
  intro j p hj hn
  have hsplit := nameBytes_take_le ps j p hj hn
  rw [c_str_id _ (hnm p (List.getElem?_mem hj))] at hsplit
  have hlen : (nameBytes (ps.take j)).length + (p.name ++ [0]).length ≤
      (nameBytes ps).length := by
    rw [hsplit]; simp only [List.length_append]; omega
  refine ⟨?_, ?_, ?_⟩
  · have hp := patch_holds H A C pre sel idx enc ps insns hH hA hC hs hok j p hj hn
    have hlt : namesOff A C sel H.size ps + (nameBytes (ps.take j)).length < 2 ^ 31 := by
      omega
    rw [Nat.mod_eq_of_lt (by omega), SWAP32_int_eq _ hlt] at hp
    have e : nameOffField o A C sel ps j p = userAt A C sel H.size ps j p := by
      unfold nameOffField userAt
      have := (const_ok_facts C hC).name0
      have := (attrib_ok_facts A hA).1
      by_cases c : p.is_const = true
      · rw [if_pos c, if_pos (hs p hn c)]
        show constOff A H.size ps + _ + _ = _
        omega
      · have c1 : ¬ sel p = true := fun h1 => c (hsc p h1)
        rw [if_neg c, if_neg c1, if_pos (by simpa using c)]
        show attribOff H.size + _ + _ = _
        omega
    rw [e]
    show be32 _ _ = namesOff A C sel H.size ps + _
    exact be32_of_holds _ _ _ (by omega) hp
  · apply bytesAt_eq
    intro k b hk
    have hkl := get_lt _ _ _ hk
    have h1 : (nameBytes ps)[(nameBytes (ps.take j)).length + k]? = some b := by
      rw [hsplit, List.append_assoc, List.getElem?_append_right (by omega),
        Nat.add_sub_cancel_left, List.getElem?_append_left hkl]
      exact hk
    have h2 := name_byte H A C pre sel idx enc ps insns hH hA hC hpre hs hok _ b h1
    rw [Nat.mod_eq_of_lt (nameBytes_lt ps hnm b (List.getElem?_mem h1))] at h2
    rw [← h2]
    show load _ _ = load _ _
    congr 1
    show namesOff A C sel H.size ps + _ + k = _
    omega
  · show namesOff A C sel H.size ps + _ + _ ≤ namesEnd A C sel H.size ps
    omega

theorem emit_nameTableSpec (H : Header) (A : AttribLayout) (C : ConstLayout)
    (pre : List Write) (sel : param → Bool) (idx : param → Nat → Nat) (enc : Nat → Nat)
    (ps : List param) (insns : List program_exec)
    (hH : fieldsOk H.size H.fields) (hA : A.ok) (hC : C.ok) (hpre : preOk H pre)
    (hs : selCovers sel) (hsc : selConst sel) (hcnt : countsOk ps) (hnm : namesOk ps)
    (hfit : (emit H A C pre sel idx enc ps insns).lastoff ≤ bufferSize) :
    nameTableSpec (emit H A C pre sel idx enc ps insns) A C sel ps := by
  have a := emit_names H A C pre sel idx enc ps insns hH hA hC hpre hs hsc hcnt hnm hfit
  have b := emit_const_table H A C pre sel idx enc ps insns hH hpre hs
  have c := namesOff_mod A C sel H.size ps
  refine ⟨a.1, a.2.1, a.2.2.1, a.2.2.2, c, ?_, ?_⟩
  · rw [b.2.1]; exact b.2.2.1
  · rw [b.2.1]; exact b.2.2.2

/-- C4, as stated, fails: for the fragment program with one internal and one named constant
`num_const` is not 2. -/
theorem C4_counterexample :
    ¬ (be16 (compileFP sampleFP scenarioFP).mem sampleFP.hdr.num_const = 2) := by
  decide

/-- C4, amended: for a fragment program whose parameter list consists of one internal constant
and one named non-internal constant, each of count 1, the constant table has one record
(`num_const = 1`: the internal constant gets none) and the name string table consists of the
NUL-terminated name of the named constant. -/
theorem C4_fragment_scenario (L : FPLayout) (prog : FPProgram) (a b : param) (hL : L.ok)
    (hps : prog.params = [a, b] ∨ prog.params = [b, a])
    (ha : a.is_const = true ∧ a.is_internal = true ∧ a.count = 1)
    (hb : b.is_const = true ∧ b.is_internal = false ∧ b.count = 1 ∧ b.name ≠ [])
    (hname : ∀ c ∈ b.name, 0 < c ∧ c < 256) :
    be16 (compileFP L prog).mem L.hdr.num_const = 1 ∧
      (compileFP L prog).num_const = 1 ∧
      (compileFP L prog).names_end = (compileFP L prog).names_off + (b.name.length + 1) ∧
      bytesAt (compileFP L prog).mem (compileFP L prog).names_off (b.name.length + 1) =
        b.name ++ [0] := by
  obtain ⟨a1, a2, a3⟩ := ha
  obtain ⟨b1, b2, b3, b4⟩ := hb
  have sa : fpSel a = false := by simp [fpSel, a1, a2]
  have sb : fpSel b = true := by simp [fpSel, b1, b2]
  have na : named a = false := by simp [named, a2]
  have nb : named b = true := by
    cases hbn : b.name with
    | nil => exact absurd hbn b4
    | cons c cs => simp [named, b2, hbn]
  have ib : iterations b.count = 1 := by rw [b3]; decide
  have hsum : slotSum fpSel prog.params = 1 := by
    rcases hps with e | e <;> rw [e] <;>
      simp [slotSum_cons, slotSum_nil, sa, sb, ib]
  have hbytes : nameBytes prog.params = b.name ++ [0] := by
    rcases hps with e | e <;> rw [e] <;>
      simp [nameBytes_cons, nameBytes_nil, na, nb, c_str_id _ hname]
  have hok : slotsOk fpSel prog.params := by
    intro p hp hs
    rcases hps with e | e <;> rw [e] at hp <;> simp only [List.mem_cons, List.mem_singleton,
      List.not_mem_nil, or_false] at hp <;> rcases hp with rfl | rfl
    · rw [sa] at hs; cases hs
    · omega
    · omega
    · rw [sa] at hs; cases hs
  have t := emit_const_table L.hdr.common L.attr L.cst _ fpSel (fpIndex prog.const_relocs)
    fpWord prog.params prog.insns (fp_common_ok _ hL.1)
    (fp_preOk _ hL.1 prog.num_regs prog.fp_control) fp_selCovers
  have n := name_table L.hdr.common L.attr L.cst _ fpSel (fpIndex prog.const_relocs)
    fpWord prog.params prog.insns (fp_common_ok _ hL.1) hL.2.1 hL.2.2
    (fp_preOk _ hL.1 prog.num_regs prog.fp_control) fp_selCovers hok
  have e := namesEnd_eq L.attr L.cst fpSel L.hdr.common.size prog.params
  rw [hbytes] at n e
  have hlt : ∀ c ∈ b.name ++ [0], c < 256 := by
    intro c hc
    rcases List.mem_append.1 hc with hc | hc
    · exact (hname c hc).2
    · simp only [List.mem_singleton] at hc; omega
  rw [map_mod_id _ hlt] at n
  simp only [List.length_append, List.length_singleton] at n e
  refine ⟨?_, ?_, e, n⟩
  · have := t.1 (by rw [hsum]; norm_num)
    rw [hsum] at this
    exact this
  · have := t.2.1
    rw [hsum] at this
    exact this

/-- C4, witness: the fragment scenario. -/
theorem C4_fragment_scenario_witness :
    sampleFP.ok ∧
      be16 (compileFP sampleFP scenarioFP).mem sampleFP.hdr.num_const = 1 ∧
      bytesAt (compileFP sampleFP scenarioFP).mem (compileFP sampleFP scenarioFP).names_off 4 =
        [99, 111, 108, 0] :=
  ⟨sampleFP_ok,
    (C4_fragment_scenario sampleFP scenarioFP _ _ sampleFP_ok (Or.inl rfl) (by decide)
      (by decide) (by decide)).1,
    (C4_fragment_scenario sampleFP scenarioFP _ _ sampleFP_ok (Or.inl rfl) (by decide)
      (by decide) (by decide)).2.2.2⟩

/-- C5: for a vertex or fragment program in which every constant has a count of at least 1,
whose names are NUL-free byte strings and whose output fits the buffer, every parameter with a
non-empty name and `is_internal = false` has in the `name_off` member of its first table
record the offset, inside the name string table, at which the buffer holds the bytes of its
name followed by a NUL; the strings lie back to back in declaration order, one per such
parameter, starting at the 4-aligned end of the constant table. -/
theorem C5_name_table (LV : VPLayout) (LF : FPLayout) (vp : VPProgram) (fp : FPProgram)
    (hV : LV.ok) (hF : LF.ok)
    (hcv : countsOk vp.params) (hcf : countsOk fp.params)
    (hnv : namesOk vp.params) (hnf : namesOk fp.params)
    (hfv : (compileVP LV vp).lastoff ≤ bufferSize)
    (hff : (compileFP LF fp).lastoff ≤ bufferSize) :
    nameTableSpec (compileVP LV vp) LV.attr LV.cst vpSel vp.params ∧
      nameTableSpec (compileFP LF fp) LF.attr LF.cst fpSel fp.params :=
  ⟨emit_nameTableSpec LV.hdr.common LV.attr LV.cst _ vpSel vpIndex vpWord vp.params _
      (vp_common_ok _ hV.1) hV.2.1 hV.2.2 (vp_preOk _ hV.1 _ _) vp_selCovers vp_selConst
      hcv hnv hfv,
    emit_nameTableSpec LF.hdr.common LF.attr LF.cst _ fpSel (fpIndex fp.const_relocs) fpWord
      fp.params fp.insns (fp_common_ok _ hF.1) hF.2.1 hF.2.2 (fp_preOk _ hF.1 _ _)
      fp_selCovers fp_selConst hcf hnf hff⟩

/-- C5, witness: the vertex scenario (an attribute `pos` and a constant `col`) and the
fragment scenario with an attribute in front. -/
theorem C5_name_table_witness :
    sampleVP.ok ∧ sampleFP.ok ∧ countsOk scenarioVP.params ∧ countsOk attribFP.params ∧
      namesOk scenarioVP.params ∧ namesOk attribFP.params ∧
      (compileVP sampleVP scenarioVP).lastoff ≤ bufferSize ∧
      (compileFP sampleFP attribFP).lastoff ≤ bufferSize ∧
      attribNameOffAt (compileVP sampleVP scenarioVP) sampleVP.attr 0 = 76 ∧
      bytesAt (compileVP sampleVP scenarioVP).mem 76 4 = [112, 111, 115, 0] ∧
      constNameOffAt (compileVP sampleVP scenarioVP) sampleVP.cst 0 = 80 ∧
      bytesAt (compileVP sampleVP scenarioVP).mem 80 4 = [99, 111, 108, 0] ∧
      constNameOffAt (compileFP sampleFP attribFP) sampleFP.cst 0 = 79 ∧
      bytesAt (compileFP sampleFP attribFP).mem 79 4 = [99, 111, 108, 0] :=
  ⟨sampleVP_ok, sampleFP_ok, by decide, by decide, by decide, by decide, by decide, by decide,
    ((C5_name_table sampleVP sampleFP scenarioVP attribFP sampleVP_ok sampleFP_ok (by decide)
      (by decide) (by decide) (by decide) (by decide) (by decide)).1.1 0 _ rfl rfl).1,
    ((C5_name_table sampleVP sampleFP scenarioVP attribFP sampleVP_ok sampleFP_ok (by decide)
      (by decide) (by decide) (by decide) (by decide) (by decide)).1.1 0 _ rfl rfl).2.1,
    ((C5_name_table sampleVP sampleFP scenarioVP attribFP sampleVP_ok sampleFP_ok (by decide)
      (by decide) (by decide) (by decide) (by decide) (by decide)).1.1 1 _ rfl rfl).1,
    ((C5_name_table sampleVP sampleFP scenarioVP attribFP sampleVP_ok sampleFP_ok (by decide)
      (by decide) (by decide) (by decide) (by decide) (by decide)).1.1 1 _ rfl rfl).2.1,
    ((C5_name_table sampleVP sampleFP scenarioVP attribFP sampleVP_ok sampleFP_ok (by decide)
      (by decide) (by decide) (by decide) (by decide) (by decide)).2.1 2 _ rfl rfl).1,
    ((C5_name_table sampleVP sampleFP scenarioVP attribFP sampleVP_ok sampleFP_ok (by decide)
      (by decide) (by decide) (by decide) (by decide) (by decide)).2.1 2 _ rfl rfl).2.1⟩

theorem be32_zero (m : Nat → Nat) (a : Nat) (h : ∀ t, t < 4 → m (a + t) = 0) :
    be32 m a = 0 := by
  have h0 := h 0 (by norm_num)
  have h1 := h 1 (by norm_num)
  have h2 := h 2 (by norm_num)
  have h3 := h 3 (by norm_num)
  simp only [Nat.add_zero] at h0
  unfold be32
  rw [h0, h1, h2, h3]
  norm_num

theorem emit_internalSpec (H : Header) (A : AttribLayout) (C : ConstLayout)
    (pre : List Write) (sel : param → Bool) (idx : param → Nat → Nat) (enc : Nat → Nat)
    (ps : List param) (insns : List program_exec)
    (hH : fieldsOk H.size H.fields) (hA : A.ok) (hC : C.ok) (hpre : preOk H pre)
    (hs : selCovers sel) (hsc : selConst sel) (hcnt : countsOk ps) :
    internalSpec (emit H A C pre sel idx enc ps insns) A C sel ps := by
  have hok := slotsOk_of_counts sel ps hsc hcnt
  refine ⟨name_table H A C pre sel idx enc ps insns hH hA hC hpre hs hok,
    namesEnd_eq A C sel H.size ps, ?_⟩
  intro j p hj hi
  have hn : named p = false := by simp [named, hi]
  refine ⟨?_, ?_, ?_⟩
  · conv_lhs => rw [split_at ps j p hj]
    rw [nameBytes_append, nameBytes_cons, nameBytes_append]
    simp [hn]
  · intro hp
    exact be32_zero _ _ fun t ht =>
      attr_nameoff_zero H A C pre sel idx enc ps insns hH hA hpre hs j p hj hp hn t ht
  · intro hp i hit
    exact be32_zero _ _ fun t ht =>
      const_nameoff_zero H A C pre sel idx enc ps insns hH hA hC hpre hs hok j i p hj hp hn
        hit t ht

/-- C6, as stated, fails: in `zeroCountVP` the only constant record belongs to the internal
parameter (position 1, slot 0), and its `name_off` member is not zero: the back-patch of the
preceding named constant of count 0 lands on it. -/
theorem C6_counterexample :
    ¬ (constNameOffAt (compileVP sampleVP zeroCountVP) sampleVP.cst
      (slotSum vpSel (zeroCountVP.params.take 1) + 0) = 0) := by
  decide

/-- C6, amended: for a vertex or fragment program in which every constant has a count of at
least 1, a parameter with `is_internal = true` contributes no bytes to the name string table,
and the `name_off` member of every record emitted for it is 0 in the finished buffer. -/
theorem C6_internal (LV : VPLayout) (LF : FPLayout) (vp : VPProgram) (fp : FPProgram)
    (hV : LV.ok) (hF : LF.ok) (hcv : countsOk vp.params) (hcf : countsOk fp.params) :
    internalSpec (compileVP LV vp) LV.attr LV.cst vpSel vp.params ∧
      internalSpec (compileFP LF fp) LF.attr LF.cst fpSel fp.params :=
  ⟨emit_internalSpec LV.hdr.common LV.attr LV.cst _ vpSel vpIndex vpWord vp.params _
      (vp_common_ok _ hV.1) hV.2.1 hV.2.2 (vp_preOk _ hV.1 _ _) vp_selCovers vp_selConst hcv,
    emit_internalSpec LF.hdr.common LF.attr LF.cst _ fpSel (fpIndex fp.const_relocs) fpWord
      fp.params fp.insns (fp_common_ok _ hF.1) hF.2.1 hF.2.2 (fp_preOk _ hF.1 _ _)
      fp_selCovers fp_selConst hcf⟩

/-- C6, witness: the internal constant and the internal attribute of `internalVP`, and the
internal constant of the fragment scenario. -/
theorem C6_internal_witness :
    sampleVP.ok ∧ sampleFP.ok ∧ countsOk internalVP.params ∧ countsOk scenarioFP.params ∧
      constNameOffAt (compileVP sampleVP internalVP) sampleVP.cst 1 = 0 ∧
      attribNameOffAt (compileVP sampleVP internalVP) sampleVP.attr 0 = 0 ∧
      nameBytes scenarioFP.params = nameBytes (scenarioFP.params.take 0 ++
        scenarioFP.params.drop 1) :=
  ⟨sampleVP_ok, sampleFP_ok, by decide, by decide,
    ((C6_internal sampleVP sampleFP internalVP scenarioFP sampleVP_ok sampleFP_ok (by decide)
      (by decide)).1.2.2 0 _ rfl rfl).2.2 rfl 1 (by decide),
    ((C6_internal sampleVP sampleFP internalVP scenarioFP sampleVP_ok sampleFP_ok (by decide)
      (by decide)).1.2.2 1 _ rfl rfl).2.1 rfl,
    ((C6_internal sampleVP sampleFP internalVP scenarioFP sampleVP_ok sampleFP_ok (by decide)
      (by decide)).2.2.2 0 _ rfl rfl).1⟩

/-- C7, as stated, fails: with in-bounds locations, a relocation that is followed by another
one of the same instruction does not find its target in the field, and neither does a
relocation whose target does not fit the field. -/
theorem C7_counterexample :
    (∀ r ∈ dupRelocs, r.location < [zeroInsn].length) ∧
      ¬ relocSpec sampleSrc dupRelocs [zeroInsn] ∧
      (∀ r ∈ wideReloc, r.location < [zeroInsn].length) ∧
      ¬ relocSpec sampleSrc wideReloc [zeroInsn] := by
  decide

/-- C7, amended: in `compileVP`, for every instruction array and every relocation list, after
the relocation loop the constant-source field of `instruction[location].data[1]` equals
`target` for every relocation (location, target) whose location is in bounds, whose target
fits the field, and which no later relocation of the same location follows. -/
theorem C7_relocation (F : ConstSrc) (a b : List nvfx_relocation) (r : nvfx_relocation)
    (vpi : List program_exec) (hin : r.location < vpi.length)
    (hfit : fitsField F r.target) (hlast : ∀ q ∈ b, q.location ≠ r.location) :
    ((relocate F (a ++ r :: b) vpi)[r.location]?).map (constSrcField F) = some r.target := by
  obtain ⟨e, h1, h2⟩ := relocate_field F a b r vpi hin hfit hlast
  rw [h1, Option.map_some', h2]

/-- C7, witness: the relocation of the vertex scenario, and the last of two relocations of
one instruction. -/
theorem C7_relocation_witness :
    (0 < scenarioVP.insns.length ∧ fitsField sampleSrc 4 ∧
        ((relocate sampleSrc scenarioVP.const_reloc scenarioVP.insns)[0]?).map
          (constSrcField sampleSrc) = some 4) ∧
      ((relocate sampleSrc dupRelocs [zeroInsn])[0]?).map (constSrcField sampleSrc) =
        some 2 :=
  ⟨⟨by decide, by decide,
      C7_relocation sampleSrc [] [] { location := 0, target := 4 } scenarioVP.insns
        (by decide) (by decide) (by decide)⟩,
    C7_relocation sampleSrc [{ location := 0, target := 1 }] []
      { location := 0, target := 2 } [zeroInsn] (by decide) (by decide) (by decide)⟩

/-- C8: in `compileFP`, for a non-internal constant parameter `p` (at position `j` of the
parameter list) whose declared index is matched by a record of the relocation list, `d` being
the first such record, record `i` of `p` (`i` below its count) has an `index` member that
decodes to `(d.offset + i) * 16`, as long as that product is in the range of `int`. -/
theorem C8_fragment_index (L : FPLayout) (prog : FPProgram) (hL : L.ok) (j i : Nat) (p : param)
    (d : fragment_program_data) (hj : prog.params[j]? = some p)
    (hc : p.is_const = true) (hi : p.is_internal = false)
    (hd : prog.const_relocs.find? (fun r => r.index = p.index) = some d)
    (hit : i < iterations p.count) (hr : (d.offset + i) * 16 < 2 ^ 31) :
    constIndexAt (compileFP L prog) L.cst (slotSum fpSel (prog.params.take j) + i) =
      (d.offset + i) * 16 := by
  have hs : fpSel p = true := by simp [fpSel, hc, hi]
  have h := (emit_const_slot L.hdr.common L.attr L.cst _ fpSel (fpIndex prog.const_relocs)
    fpWord prog.params prog.insns (fp_common_ok _ hL.1) hL.2.1 hL.2.2
    (fp_preOk _ hL.1 prog.num_regs prog.fp_control) fp_selCovers j i p hj hs hit).1
  have e : fpIndex prog.const_relocs p i = SWAP32 ((d.offset + i) * 16) := by
    unfold fpIndex
    rw [inst_idx_find _ _ _ hd, Nat.mod_eq_of_lt (by omega), Nat.mod_eq_of_lt (by omega),
      SWAP32_int_eq _ hr]
  rw [e] at h
  exact be32_of_holds _ _ _ (by omega) h

/-- C8, witness: the named constant of the fragment scenario, relocated to offset 1. -/
theorem C8_fragment_index_witness :
    sampleFP.ok ∧ constIndexAt (compileFP sampleFP scenarioFP) sampleFP.cst 0 = 16 :=
  ⟨sampleFP_ok,
    C8_fragment_index sampleFP scenarioFP sampleFP_ok 1 0 _ { index := 1, offset := 1 } rfl
      rfl rfl rfl (by decide) (by decide)⟩

/-- C9: in `compileVP`, a constant parameter `p` (at position `j` of the parameter list) has
one record per slot, placed after the records of the constants declared before it; record `i`
has an `index` member that decodes to `p.index + i` and four value words that decode to the
bit patterns of `values[i][0..3]`.  In the scenario of one attribute, one 1-slot constant
(index 4, values 1.0, 0.0, 0.0, 1.0) and one instruction, the three counts decode to 1 and
the values to the bit patterns of 1.0, 0.0, 0.0, 1.0. -/
theorem C9_vertex_constants (L : VPLayout) (prog : VPProgram) (hL : L.ok) (j i : Nat)
    (p : param) (hj : prog.params[j]? = some p) (hc : p.is_const = true)
    (hit : i < iterations p.count) :
    (constIndexAt (compileVP L prog) L.cst (slotSum vpSel (prog.params.take j) + i) =
        (p.index + i) % 2 ^ 32 ∧
      (∀ v, v < 4 →
        constValueAt (compileVP L prog) L.cst (slotSum vpSel (prog.params.take j) + i) v =
          p.values i v % 2 ^ 32) ∧
      slotSum vpSel (prog.params.take j) + iterations p.count ≤ (compileVP L prog).num_const) ∧
    (be16 (compileVP sampleVP scenarioVP).mem sampleVP.hdr.num_attrib = 1 ∧
      be16 (compileVP sampleVP scenarioVP).mem sampleVP.hdr.num_const = 1 ∧
      be16 (compileVP sampleVP scenarioVP).mem sampleVP.hdr.num_insn = 1 ∧
      constIndexAt (compileVP sampleVP scenarioVP) sampleVP.cst 0 = 4 ∧
      constValueAt (compileVP sampleVP scenarioVP) sampleVP.cst 0 0 = 0x3F800000 ∧
      constValueAt (compileVP sampleVP scenarioVP) sampleVP.cst 0 1 = 0 ∧
      constValueAt (compileVP sampleVP scenarioVP) sampleVP.cst 0 2 = 0 ∧
      constValueAt (compileVP sampleVP scenarioVP) sampleVP.cst 0 3 = 0x3F800000) := by
  have h := emit_const_slot L.hdr.common L.attr L.cst
    (vpPre L.hdr prog.input_mask prog.output_mask) vpSel vpIndex vpWord prog.params
    (relocate L.src prog.const_reloc prog.insns) (vp_common_ok _ hL.1) hL.2.1 hL.2.2
    (vp_preOk _ hL.1 prog.input_mask prog.output_mask) vp_selCovers j i p hj hc hit
  refine ⟨⟨be32_of_holds _ _ _ (Nat.mod_lt _ (by norm_num)) h.1, h.2, ?_⟩, by decide⟩
  show _ ≤ constCount vpSel 0 prog.params
  rw [constCount_eq, Nat.zero_add]
  exact slotSum_take_le vpSel prog.params j p hj hc

/-- C9, witness: the second slot of the constant of `twoSlotVP`. -/
theorem C9_vertex_constants_witness :
    sampleVP.ok ∧ constIndexAt (compileVP sampleVP twoSlotVP) sampleVP.cst 1 = 9 ∧
      constValueAt (compileVP sampleVP twoSlotVP) sampleVP.cst 1 3 = 4 :=
  ⟨sampleVP_ok,
    (C9_vertex_constants sampleVP twoSlotVP sampleVP_ok 0 1 _ rfl rfl (by decide)).1.1,
    (C9_vertex_constants sampleVP twoSlotVP sampleVP_ok 0 1 _ rfl rfl (by decide)).1.2.1 3
      (by decide)⟩

/-- C10: the instruction stream occupies the bytes from `ucode_off` to the end of the output,
16 per instruction.  For a vertex program the 4 bytes at `ucode_off + 16 * i + 4 * j` are the
big-endian encoding of word `j` of instruction `i` after relocation; for a fragment program
they are the little-endian image of `endian_fp(SWAP32(w))`, that is `b1, b0, b3, b2` for a
word `w` of bytes `b3 b2 b1 b0`; `0x11223344` is stored as the word `0x22114433`. -/
theorem C10_instruction_stream (LV : VPLayout) (LF : FPLayout) (vp : VPProgram)
    (fp : FPProgram) (i j : Nat) (ev ef : program_exec)
    (hv : (relocate LV.src vp.const_reloc vp.insns)[i]? = some ev)
    (hf : fp.insns[i]? = some ef) (hj : j < 4) :
    ((compileVP LV vp).lastoff = (compileVP LV vp).ucode_off + 16 * vp.insns.length ∧
      bytesAt (compileVP LV vp).mem ((compileVP LV vp).ucode_off + 16 * i + 4 * j) 4 =
        [ev.data j % 2 ^ 32 / 2 ^ 24 % 256, ev.data j % 2 ^ 32 / 2 ^ 16 % 256,
          ev.data j % 2 ^ 32 / 2 ^ 8 % 256, ev.data j % 2 ^ 32 % 256]) ∧
    ((compileFP LF fp).lastoff = (compileFP LF fp).ucode_off + 16 * fp.insns.length ∧
      bytesAt (compileFP LF fp).mem ((compileFP LF fp).ucode_off + 16 * i + 4 * j) 4 =
        [ef.data j % 2 ^ 32 / 2 ^ 8 % 256, ef.data j % 2 ^ 32 % 256,
          ef.data j % 2 ^ 32 / 2 ^ 24 % 256, ef.data j % 2 ^ 32 / 2 ^ 16 % 256] ∧
      le32 (compileFP LF fp).mem ((compileFP LF fp).ucode_off + 16 * i + 4 * j) =
        endian_fp (SWAP32 (ef.data j % 2 ^ 32))) ∧
    fpWord 0x11223344 = 0x22114433 := by
  have a := insn_word_holds LV.hdr.common LV.attr LV.cst
    (vpPre LV.hdr vp.input_mask vp.output_mask) vpSel vpIndex vpWord vp.params
    (relocate LV.src vp.const_reloc vp.insns) i j ev hv hj
  have b := insn_word_holds LF.hdr.common LF.attr LF.cst
    (fpPre LF.hdr fp.num_regs fp.fp_control) fpSel (fpIndex fp.const_relocs) fpWord fp.params
    fp.insns i j ef hf hj
  have hm : ∀ x : Nat, x % 2 ^ 32 < 2 ^ 32 := fun x => Nat.mod_lt _ (by norm_num)
  refine ⟨⟨?_, bytes_of_swapped _ _ _ (hm _) a⟩,
    ⟨rfl, bytes_of_fpWord _ _ _ (hm _) b, le32_of_holds _ _ _ (endian_fp_lt _) b⟩, by decide⟩
  show _ + 16 * (relocate LV.src vp.const_reloc vp.insns).length = _
  rw [relocate_length]
  rfl

/-- C10, witness: the instruction of the vertex scenario, whose second word carries the
relocated constant source, and the instruction of the fragment scenario. -/
theorem C10_instruction_stream_witness :
    bytesAt (compileVP sampleVP scenarioVP).mem ((compileVP sampleVP scenarioVP).ucode_off + 4)
        4 = [0x00, 0x40, 0x40, 0x0D] ∧
      bytesAt (compileFP sampleFP scenarioFP).mem (compileFP sampleFP scenarioFP).ucode_off 4 =
        [0x33, 0x44, 0x11, 0x22] :=
  ⟨(C10_instruction_stream sampleVP sampleFP scenarioVP scenarioFP 0 1 _ _ rfl rfl
      (by decide)).1.2,
    (C10_instruction_stream sampleVP sampleFP scenarioVP scenarioFP 0 0 _ _ rfl rfl
      (by decide)).2.1.2.1⟩

theorem bytes_decomp (x : Nat) (h : x < 2 ^ 32) :
    x = (x / 2 ^ 24 % 256) * 2 ^ 24 + (x / 2 ^ 16 % 256) * 2 ^ 16 + (x / 2 ^ 8 % 256) * 2 ^ 8 +
      x % 256 := by
  norm_num at h ⊢
  omega

theorem bswap32_bytes (a b c d : Nat) (ha : a < 256) (hb : b < 256) (hc : c < 256)
    (hd : d < 256) :
    bswap32 (a * 2 ^ 24 + b * 2 ^ 16 + c * 2 ^ 8 + d) =
      d * 2 ^ 24 + c * 2 ^ 16 + b * 2 ^ 8 + a := by
  have e0 : (a * 2 ^ 24 + b * 2 ^ 16 + c * 2 ^ 8 + d) % 256 = d := by norm_num; omega
  have e1 : (a * 2 ^ 24 + b * 2 ^ 16 + c * 2 ^ 8 + d) / 2 ^ 8 % 256 = c := by norm_num; omega
  have e2 : (a * 2 ^ 24 + b * 2 ^ 16 + c * 2 ^ 8 + d) / 2 ^ 16 % 256 = b := by norm_num; omega
  have e3 : (a * 2 ^ 24 + b * 2 ^ 16 + c * 2 ^ 8 + d) / 2 ^ 24 % 256 = a := by norm_num; omega
  unfold bswap32
  rw [e0, e1, e2, e3]

theorem SWAP32_eq_bswap32 (v : Nat) (hv : v < 2 ^ 32) : SWAP32 v = bswap32 v := by
  have hx := bytes_decomp (SWAP32 v) (SWAP32_lt v hv)
  have s0 : SWAP32 v % 256 = v / 2 ^ 24 % 256 := by
    have h := SWAP32_byte v 0 hv (by norm_num)
    simpa using h
  have s1 : SWAP32 v / 2 ^ 8 % 256 = v / 2 ^ 16 % 256 := by
    have h := SWAP32_byte v 1 hv (by norm_num)
    simpa using h
  have s2 : SWAP32 v / 2 ^ 16 % 256 = v / 2 ^ 8 % 256 := by
    have h := SWAP32_byte v 2 hv (by norm_num)
    simpa using h
  have s3 : SWAP32 v / 2 ^ 24 % 256 = v % 256 := by
    have h := SWAP32_byte v 3 hv (by norm_num)
    simpa using h
  rw [s0, s1, s2, s3] at hx
  rw [hx]
  rfl

theorem bswap32_bswap32 (v : Nat) (hv : v < 2 ^ 32) : bswap32 (bswap32 v) = v := by
  have h : ∀ x : Nat, x % 256 < 256 := fun x => Nat.mod_lt _ (by norm_num)
  unfold bswap32
  rw [← bswap32.eq_1, bswap32_bytes _ _ _ _ (h _) (h _) (h _) (h _)]
  exact (bytes_decomp v hv).symm

theorem bswap32_lt (v : Nat) : bswap32 v < 2 ^ 32 := by
  have h : ∀ x : Nat, x % 256 < 256 := fun x => Nat.mod_lt _ (by norm_num)
  have a := h v
  have b := h (v / 2 ^ 8)
  have c := h (v / 2 ^ 16)
  have d := h (v / 2 ^ 24)
  unfold bswap32
  generalize v % 256 = a1 at a ⊢
  generalize v / 2 ^ 8 % 256 = b1 at b ⊢
  generalize v / 2 ^ 16 % 256 = c1 at c ⊢
  generalize v / 2 ^ 24 % 256 = d1 at d ⊢
  norm_num
  omega

theorem SWAP16_eq_bswap16 (v : Nat) (hv : v < 2 ^ 16) : SWAP16 v % 2 ^ 16 = bswap16 v := by
  have s0 : SWAP16 v % 256 = v / 2 ^ 8 % 256 := by
    have h := SWAP16_byte v 0 hv (by norm_num)
    simpa using h
  have s1 : SWAP16 v / 2 ^ 8 % 256 = v % 256 := by
    have h := SWAP16_byte v 1 hv (by norm_num)
    simpa using h
  have hx : SWAP16 v % 2 ^ 16 = (SWAP16 v / 2 ^ 8 % 256) * 2 ^ 8 + SWAP16 v % 256 := by
    norm_num; omega
  rw [hx, s0, s1]
  rfl

/-- C19: `SWAP32` applied to an unsigned 32-bit value is the exact 4-byte reversal and is its
own inverse; `SWAP16` applied to a value below 65536 held in an `int`, truncated to 16 bits,
is the exact 2-byte reversal. -/
theorem C19_swap_macros (v w : Nat) (hv : v < 2 ^ 32) (hw : w < 2 ^ 16) :
    SWAP32 v = bswap32 v ∧ SWAP32 (SWAP32 v) = v ∧ SWAP16 w % 2 ^ 16 = bswap16 w := by
  refine ⟨SWAP32_eq_bswap32 v hv, ?_, SWAP16_eq_bswap16 w hw⟩
  rw [SWAP32_eq_bswap32 v hv, SWAP32_eq_bswap32 _ (bswap32_lt v), bswap32_bswap32 v hv]

/-- C19, witness: the words `0x11223344` and `0x5650`. -/
theorem C19_swap_macros_witness :
    SWAP32 0x11223344 = 0x44332211 ∧ SWAP32 (SWAP32 0x11223344) = 0x11223344 ∧
      SWAP16 0x5650 % 2 ^ 16 = 0x5056 :=
  C19_swap_macros 0x11223344 0x5650 (by decide) (by decide)

/-- C11, evaluation at the failing inputs: for the fragment constant that no relocation record
matches, the `int` operand of `SWAP32` is `-16` (bit pattern `0xFFFFFFF0`), whose byte
reversal is `0xF0FFFFFF`, but the macro yields `0xFFFFFFFF` and the `index` member of the first
record holds the bytes `FF FF FF FF`; and `SWAP16` of the count 65536 yields `0x0100` after
truncation, not the reversal `0` of `65536 mod 2 ^ 16`. -/
theorem C11_swap_signed_operand :
    inst_idx unmatchedFP.const_relocs 5 = 2 ^ 32 - 1 ∧
      ((2 ^ 32 - 1 + 0) * 16) % 2 ^ 32 = 0xFFFFFFF0 ∧
      bswap32 0xFFFFFFF0 = 0xF0FFFFFF ∧
      SWAP32_int 0xFFFFFFF0 = 0xFFFFFFFF ∧
      bytesAt (compileFP sampleFP unmatchedFP).mem
        ((compileFP sampleFP unmatchedFP).const_off + 0 * sampleFP.cst.size +
          sampleFP.cst.index) 4 = [0xFF, 0xFF, 0xFF, 0xFF] ∧
      SWAP16 65536 % 2 ^ 16 = 0x0100 ∧ bswap16 (65536 % 2 ^ 16) = 0 := by
  decide

/-- C17, evaluation at the failing input: for the fragment constant that no relocation record
matches, the `index` member of record 0 decodes to `0xFFFFFFFF`, not to `0xFFFFFFF0`, the
two's-complement value of `(0 - 1) * 16`; the `index` member of record 1 decodes to 0. -/
theorem C17_unmatched_index :
    (∀ r ∈ unmatchedFP.const_relocs, r.index ≠ 5) ∧
      constIndexAt (compileFP sampleFP unmatchedFP) sampleFP.cst 0 = 0xFFFFFFFF ∧
      constIndexAt (compileFP sampleFP unmatchedFP) sampleFP.cst 0 ≠ 0xFFFFFFF0 ∧
      constIndexAt (compileFP sampleFP unmatchedFP) sampleFP.cst 1 = 0 := by
  decide

/-- A member stored before the first padding loop holds the value stored in it when no other
store made there and no common header member touches it. -/
theorem pre_holds (H : Header) (A : AttribLayout) (C : ConstLayout) (pre : List Write)
    (sel : param → Bool) (idx : param → Nat → Nat) (enc : Nat → Nat)
    (ps : List param) (insns : List program_exec) (hs : selCovers sel) (a n v : Nat)
    (hin : ∀ w ∈ st a n v, w ∈ pre)
    (hpre : ∀ w ∈ pre, a ≤ w.1 → w.1 < a + n → w.2 = v / 256 ^ (w.1 - a) % 256)
    (hsz : a + n ≤ H.size)
    (hdis : ∀ f ∈ H.fields, a + n ≤ f.1 ∨ f.1 + f.2 ≤ a) :
    holds (emit H A C pre sel idx enc ps insns).mem a n v := by
  unfold Emitted.mem
  apply holds_of_writes
  · intro w hw
    rw [mem_emit]
    exact Or.inl (hin w hw)
  · intro w hw h1 h2
    rw [mem_emit] at hw
    rcases hw with hw | hw | hw
    · exact hpre w hw h1 h2
    · obtain ⟨i1, f1, v1, g1, _, g3⟩ := (isHdrW_iff _ _ _ _ _ _ _).1 hw
      have := hdis f1 (List.getElem?_mem g1)
      have := st_addr _ _ _ _ g3
      omega
    · have := body_ge A C sel idx enc H.size ps insns w hs hw
      omega

theorem st_val (w : Write) (a n v : Nat) (h : w ∈ st a n v) :
    w.2 = v / 256 ^ (w.1 - a) % 256 := by
  obtain ⟨k, _, rfl⟩ := (mem_st _ _ _ _).1 h
  simp only [Nat.add_sub_cancel_left]

/-- The 16-bit members `magic`, `start_insn` and `const_start` of the vertex header hold the
values stored in them. -/
theorem vp_pre_holds (L : VPLayout) (prog : VPProgram) (h : L.hdr.ok) :
    holds (compileVP L prog).mem L.hdr.magic 2 (SWAP16 ((0x56 <<< 8) ||| 0x50)) ∧
      holds (compileVP L prog).mem L.hdr.start_insn 2 (SWAP16 0) ∧
      holds (compileVP L prog).mem L.hdr.const_start 2 (SWAP16 0) := by
  have hc := (fieldsOk_append _ _ _ h).2
  have d := fun i j f g hi hj hne => fields_disjoint _ _ h i j f g hi hj hne
  have d01 := d 0 1 (L.hdr.magic, 2) (L.hdr.start_insn, 2) rfl rfl (by decide)
  have d02 := d 0 2 (L.hdr.magic, 2) (L.hdr.const_start, 2) rfl rfl (by decide)
  have d03 := d 0 3 (L.hdr.magic, 2) (L.hdr.input_mask, 4) rfl rfl (by decide)
  have d04 := d 0 4 (L.hdr.magic, 2) (L.hdr.output_mask, 4) rfl rfl (by decide)
  have d12 := d 1 2 (L.hdr.start_insn, 2) (L.hdr.const_start, 2) rfl rfl (by decide)
  have d13 := d 1 3 (L.hdr.start_insn, 2) (L.hdr.input_mask, 4) rfl rfl (by decide)
  have d14 := d 1 4 (L.hdr.start_insn, 2) (L.hdr.output_mask, 4) rfl rfl (by decide)
  have d23 := d 2 3 (L.hdr.const_start, 2) (L.hdr.input_mask, 4) rfl rfl (by decide)
  have d24 := d 2 4 (L.hdr.const_start, 2) (L.hdr.output_mask, 4) rfl rfl (by decide)
  simp only at d01 d02 d03 d04 d12 d13 d14 d23 d24
  refine ⟨?_, ?_, ?_⟩
  · apply pre_holds _ _ _ _ _ _ _ _ _ vp_selCovers
    · intro w hw
      simp only [vpPre, List.mem_append]
      exact Or.inl (Or.inl (Or.inl (Or.inl hw)))
    · intro w hw h1 h2
      simp only [vpPre, List.mem_append] at hw
      rcases hw with (((hw | hw) | hw) | hw) | hw
      · exact st_val _ _ _ _ hw
      all_goals have := st_addr _ _ _ _ hw; omega
    · exact (hc (L.hdr.magic, 2) (by simp)).1
    · intro f hf
      have := (hc (L.hdr.magic, 2) (by simp)).2 f hf
      simp only at this
      omega
  · apply pre_holds _ _ _ _ _ _ _ _ _ vp_selCovers
    · intro w hw
      simp only [vpPre, List.mem_append]
      exact Or.inl (Or.inl (Or.inl (Or.inr hw)))
    · intro w hw h1 h2
      simp only [vpPre, List.mem_append] at hw
      rcases hw with (((hw | hw) | hw) | hw) | hw
      · have := st_addr _ _ _ _ hw; omega
      · exact st_val _ _ _ _ hw
      all_goals have := st_addr _ _ _ _ hw; omega
    · exact (hc (L.hdr.start_insn, 2) (by simp)).1
    · intro f hf
      have := (hc (L.hdr.start_insn, 2) (by simp)).2 f hf
      simp only at this
      omega
  · apply pre_holds _ _ _ _ _ _ _ _ _ vp_selCovers
    · intro w hw
      simp only [vpPre, List.mem_append]
      exact Or.inl (Or.inl (Or.inr hw))
    · intro w hw h1 h2
      simp only [vpPre, List.mem_append] at hw
      rcases hw with (((hw | hw) | hw) | hw) | hw
      · have := st_addr _ _ _ _ hw; omega
      · have := st_addr _ _ _ _ hw; omega
      · exact st_val _ _ _ _ hw
      all_goals have := st_addr _ _ _ _ hw; omega
    · exact (hc (L.hdr.const_start, 2) (by simp)).1
    · intro f hf
      have := (hc (L.hdr.const_start, 2) (by simp)).2 f hf
      simp only at this
      omega

/-- The 16-bit member `magic` of the fragment header holds the value stored in it. -/
theorem fp_pre_holds (L : FPLayout) (prog : FPProgram) (h : L.hdr.ok) :
    holds (compileFP L prog).mem L.hdr.magic 2 (SWAP16 ((0x46 <<< 8) ||| 0x50)) := by
  have hc := (fieldsOk_append _ _ _ h).2
  have d := fun i j f g hi hj hne => fields_disjoint _ _ h i j f g hi hj hne
  have d01 := d 0 1 (L.hdr.magic, 2) (L.hdr.num_regs, 4) rfl rfl (by decide)
  have d02 := d 0 2 (L.hdr.magic, 2) (L.hdr.fp_control, 4) rfl rfl (by decide)
  simp only at d01 d02
  apply pre_holds _ _ _ _ _ _ _ _ _ fp_selCovers
  · intro w hw
    simp only [fpPre, List.mem_append]
    exact Or.inl (Or.inl hw)
  · intro w hw h1 h2
    simp only [fpPre, List.mem_append] at hw
    rcases hw with (hw | hw) | hw
    · exact st_val _ _ _ _ hw
    all_goals have := st_addr _ _ _ _ hw; omega
  · exact (hc (L.hdr.magic, 2) (by simp)).1
  · intro f hf
    have := (hc (L.hdr.magic, 2) (by simp)).2 f hf
    simp only at this
    omega

theorem emit_size_le (H : Header) (A : AttribLayout) (C : ConstLayout) (pre : List Write)
    (sel : param → Bool) (idx : param → Nat → Nat) (enc : Nat → Nat)
    (ps : List param) (insns : List program_exec) :
    H.size ≤ (emit H A C pre sel idx enc ps insns).lastoff := by
  have := offsets_chain A C sel H.size ps
  show H.size ≤ ucodeOff A C sel H.size ps + 16 * insns.length
  omega

theorem file_take_two (o : Emitted) (h : 2 ≤ o.lastoff) :
    o.file.take 2 = [o.mem 0, o.mem 1] := by
  unfold Emitted.file bytesAt
  rw [← List.map_take, List.take_range, Nat.min_eq_left h]
  rfl

/-- C13: in every vertex container the two bytes of the `magic` member are `'V'`, `'P'`
(0x56, 0x50), and the members `start_insn` and `const_start` read as 0; in every fragment
container the two bytes of `magic` are `'F'`, `'P'` (0x46, 0x50).  `magic` being the first
member of the header, these are the first two bytes of the output file. -/
theorem C13_magic (LV : VPLayout) (LF : FPLayout) (vp : VPProgram) (fp : FPProgram)
    (hV : LV.ok) (hF : LF.ok) (hmV : LV.hdr.magic = 0) (hmF : LF.hdr.magic = 0) :
    (compileVP LV vp).file.take 2 = [0x56, 0x50] ∧
      be16 (compileVP LV vp).mem LV.hdr.start_insn = 0 ∧
      be16 (compileVP LV vp).mem LV.hdr.const_start = 0 ∧
      (compileFP LF fp).file.take 2 = [0x46, 0x50] := by
  obtain ⟨v1, v2, v3⟩ := vp_pre_holds LV vp hV.1
  have f1 := fp_pre_holds LF fp hF.1
  have sV : 2 ≤ (compileVP LV vp).lastoff := by
    have h1 := emit_size_le LV.hdr.common LV.attr LV.cst
      (vpPre LV.hdr vp.input_mask vp.output_mask) vpSel vpIndex vpWord vp.params
      (relocate LV.src vp.const_reloc vp.insns)
    have h2 := ((fieldsOk_append _ _ _ hV.1).2 (LV.hdr.magic, 2) (by simp)).1
    have h3 : LV.hdr.common.size = LV.hdr.size := rfl
    rw [compileVP_eq]
    simp only at h2
    omega
  have sF : 2 ≤ (compileFP LF fp).lastoff := by
    have h1 := emit_size_le LF.hdr.common LF.attr LF.cst
      (fpPre LF.hdr fp.num_regs fp.fp_control) fpSel (fpIndex fp.const_relocs) fpWord
      fp.params fp.insns
    have h2 := ((fieldsOk_append _ _ _ hF.1).2 (LF.hdr.magic, 2) (by simp)).1
    have h3 : LF.hdr.common.size = LF.hdr.size := rfl
    rw [compileFP_eq]
    simp only at h2
    omega
  refine ⟨?_, be16_of_holds _ _ 0 (by norm_num) v2, be16_of_holds _ _ 0 (by norm_num) v3, ?_⟩
  · rw [file_take_two _ sV]
    have a0 := v1 0 (by norm_num)
    have a1 := v1 1 (by norm_num)
    rw [hmV] at a0 a1
    rw [a0, a1]
    decide
  · rw [file_take_two _ sF]
    have a0 := f1 0 (by norm_num)
    have a1 := f1 1 (by norm_num)
    rw [hmF] at a0 a1
    rw [a0, a1]
    decide

/-- C13, witness: the vertex and the fragment scenario in the sample layouts. -/
theorem C13_magic_witness :
    (compileVP sampleVP scenarioVP).file.take 2 = [0x56, 0x50] ∧
      be16 (compileVP sampleVP scenarioVP).mem sampleVP.hdr.start_insn = 0 ∧
      be16 (compileVP sampleVP scenarioVP).mem sampleVP.hdr.const_start = 0 ∧
      (compileFP sampleFP scenarioFP).file.take 2 = [0x46, 0x50] :=
  C13_magic sampleVP sampleFP scenarioVP scenarioFP sampleVP_ok sampleFP_ok rfl rfl

/-- The body of the relocation loop leaves the words 0, 2 and 3 as they are. -/
theorem applyReloc_other (F : ConstSrc) (t : Nat) (e : program_exec) (j : Nat) (hj : j ≠ 1) :
    (applyReloc F t e).data j = e.data j := by
  unfold applyReloc
  simp only [if_neg hj]

/-- The body of the relocation loop leaves the bits of word 1 outside the constant-source
field as they are, when the target fits the field. -/
theorem applyReloc_outside (F : ConstSrc) (t : Nat) (e : program_exec) (h : fitsField F t) :
    ((applyReloc F t e).data 1 % 2 ^ 32) &&& outsideMask F =
      (e.data 1 % 2 ^ 32) &&& outsideMask F := by
  unfold fitsField at h
  have hm : F.mask % 2 ^ 32 < 2 ^ 32 := Nat.mod_lt _ (by norm_num)
  have hT : t <<< F.shift < 2 ^ 32 := by
    rw [← h]; exact lt_of_le_of_lt Nat.and_le_right hm
  have ht : t < 2 ^ 32 := by
    refine lt_of_le_of_lt ?_ hT
    rw [Nat.shiftLeft_eq]
    exact Nat.le_mul_of_pos_right _ (Nat.two_pow_pos _)
  have hd : e.data 1 % 2 ^ 32 < 2 ^ 32 := Nat.mod_lt _ (by norm_num)
  unfold applyReloc outsideMask
  simp only [if_true]
  rw [Nat.mod_eq_of_lt ht, Nat.mod_eq_of_lt hT]
  have hlt : (e.data 1 % 2 ^ 32 &&& (0xFFFFFFFF ^^^ F.mask % 2 ^ 32)) ||| t <<< F.shift <
      2 ^ 32 :=
    Nat.or_lt_two_pow (lt_of_le_of_lt Nat.and_le_left hd) hT
  rw [Nat.mod_eq_of_lt hlt]
  apply Nat.eq_of_testBit_eq
  intro i
  have hTi : (t <<< F.shift).testBit i =
      ((t <<< F.shift).testBit i && (F.mask % 2 ^ 32).testBit i) := by
    conv_lhs => rw [← h]
    rw [Nat.testBit_land]
  simp only [Nat.testBit_land, Nat.testBit_lor, Nat.testBit_xor]
  generalize (t <<< F.shift).testBit i = b at hTi
  by_cases hi : i < 32
  · rw [testBit_full i hi]
    generalize (F.mask % 2 ^ 32).testBit i = c at hTi
    generalize (e.data 1 % 2 ^ 32).testBit i = a
    cases a <;> cases b <;> cases c <;> simp_all
  · have h1 : (F.mask % 2 ^ 32).testBit i = false := testBit_above _ 32 i hm (by omega)
    have h2 : Nat.testBit 0xFFFFFFFF i = false := testBit_above _ 32 i (by norm_num) (by omega)
    rw [h1, h2]
    simp

/-- What the relocation loop leaves alone in the instruction at position `i`. -/
theorem relocate_frame (F : ConstSrc) (rs : List nvfx_relocation) (vpi : List program_exec)
    (i : Nat) (e : program_exec) (h : vpi[i]? = some e) :
    ∃ e1, (relocate F rs vpi)[i]? = some e1 ∧ (∀ j, j ≠ 1 → e1.data j = e.data j) ∧
      ((∀ r ∈ rs, r.location = i → fitsField F r.target) →
        (e1.data 1 % 2 ^ 32) &&& outsideMask F = (e.data 1 % 2 ^ 32) &&& outsideMask F) := by
  induction rs generalizing vpi e with
  | nil => exact ⟨e, h, fun _ _ => rfl, fun _ => rfl⟩
  | cons r rs ih =>
    simp only [relocate]
    by_cases hl : r.location = i
    · have h1 : (vpi.modify (applyReloc F r.target) r.location)[i]? =
          some (applyReloc F r.target e) := by
        rw [← hl, List.getElem?_modify_eq, hl, h]
        rfl
      obtain ⟨e1, g1, g2, g3⟩ := ih _ _ h1
      refine ⟨e1, g1, ?_, ?_⟩
      · intro j hj
        rw [g2 j hj, applyReloc_other F _ _ j hj]
      · intro hf
        rw [g3 fun q hq hqi => hf q (List.mem_cons_of_mem _ hq) hqi]
        exact applyReloc_outside F _ _ (hf r (List.mem_cons_self _ _) hl)
    · have h1 : (vpi.modify (applyReloc F r.target) r.location)[i]? = some e := by
        rw [List.getElem?_modify_ne _ _ hl, h]
      obtain ⟨e1, g1, g2, g3⟩ := ih _ _ h1
      exact ⟨e1, g1, g2, fun hf => g3 fun q hq hqi => hf q (List.mem_cons_of_mem _ hq) hqi⟩

/-- C14, as stated, fails: with an in-bounds location and a 32-bit target that needs more bits
than the field has, the relocation sets a bit of `data[1]` outside the mask (bit 21 for the
target 512 and a field of 9 bits at bit 12). -/
theorem C14_counterexample :
    (∀ r ∈ wideReloc, r.location < [zeroInsn].length ∧ r.target < 2 ^ 32) ∧
      ((relocate sampleSrc wideReloc [zeroInsn])[0]?).map
        (fun e => (e.data 1 % 2 ^ 32) &&& outsideMask sampleSrc) = some 0x200000 ∧
      ([zeroInsn][0]?).map (fun e => (e.data 1 % 2 ^ 32) &&& outsideMask sampleSrc) =
        some 0 := by
  decide

/-- C14, amended: in `compileVP`, for every instruction array and every relocation list, the
relocation loop keeps the number of instructions, leaves the words `data[0]`, `data[2]`,
`data[3]` of every instruction unchanged, leaves every instruction that no relocation names
unchanged, and leaves every bit of `data[1]` outside the constant-source mask unchanged in an
instruction all of whose relocation targets fit the field. -/
theorem C14_relocation_frame (F : ConstSrc) (rs : List nvfx_relocation)
    (vpi : List program_exec) (i : Nat) (e : program_exec) (h : vpi[i]? = some e) :
    (relocate F rs vpi).length = vpi.length ∧
      ∃ e1, (relocate F rs vpi)[i]? = some e1 ∧
        e1.data 0 = e.data 0 ∧ e1.data 2 = e.data 2 ∧ e1.data 3 = e.data 3 ∧
        ((∀ r ∈ rs, r.location ≠ i) → e1 = e) ∧
        ((∀ r ∈ rs, r.location = i → fitsField F r.target) →
          (e1.data 1 % 2 ^ 32) &&& outsideMask F = (e.data 1 % 2 ^ 32) &&& outsideMask F) := by
  obtain ⟨e1, g1, g2, g3⟩ := relocate_frame F rs vpi i e h
  refine ⟨relocate_length F rs vpi, e1, g1, g2 0 (by decide), g2 2 (by decide),
    g2 3 (by decide), ?_, g3⟩
  intro hn
  rw [relocate_other F rs vpi i hn, h] at g1
  exact (Option.some.inj g1).symm

/-- C14, witness: two relocations of the one instruction of an array, with targets that fit
the field. -/
theorem C14_relocation_frame_witness :
    [zeroInsn][0]? = some zeroInsn ∧
      (relocate sampleSrc dupRelocs [zeroInsn]).length = [zeroInsn].length ∧
      ∃ e1, (relocate sampleSrc dupRelocs [zeroInsn])[0]? = some e1 ∧
        e1.data 0 = zeroInsn.data 0 ∧ e1.data 2 = zeroInsn.data 2 ∧
        e1.data 3 = zeroInsn.data 3 ∧
        ((∀ r ∈ dupRelocs, r.location ≠ 0) → e1 = zeroInsn) ∧
        ((∀ r ∈ dupRelocs, r.location = 0 → fitsField sampleSrc r.target) →
          (e1.data 1 % 2 ^ 32) &&& outsideMask sampleSrc =
            (zeroInsn.data 1 % 2 ^ 32) &&& outsideMask sampleSrc) :=
  ⟨rfl, C14_relocation_frame sampleSrc dupRelocs [zeroInsn] 0 zeroInsn rfl⟩

theorem constWrites_append (C : ConstLayout) (sel : param → Bool) (idx : param → Nat → Nat)
    (base n : Nat) (a b : List param) :
    constWrites C sel idx base n (a ++ b) =
      constWrites C sel idx base n a ++ constWrites C sel idx base (n + slotSum sel a) b := by
  induction a generalizing n with
  | nil => simp [constWrites, slotSum_nil]
  | cons q a ih =>
    rw [show (q :: a) ++ b = q :: (a ++ b) from rfl, slotSum_cons]
    by_cases h : sel q = true
    · rw [if_pos h]
      simp only [constWrites, if_pos h]
      rw [ih, Nat.add_assoc]
      simp only [List.append_assoc]
    · rw [if_neg h]
      simp only [constWrites, if_neg h]
      exact ih n

/-- The stores of the constant loop, split at the selected parameter at position `j`. -/
theorem constWrites_at (C : ConstLayout) (sel : param → Bool) (idx : param → Nat → Nat)
    (base : Nat) (ps : List param) (j : Nat) (p : param) (hj : ps[j]? = some p)
    (hp : sel p = true) :
    constWrites C sel idx base 0 ps =
      constWrites C sel idx base 0 (ps.take j) ++
        (constHead C (base + slotSum sel (ps.take j) * C.size) p ++
          (constSlots C (idx p) base (slotSum sel (ps.take j)) p ++
            constWrites C sel idx base (slotSum sel (ps.take j) + iterations p.count)
              (ps.drop (j + 1)))) := by
  conv_lhs => rw [split_at ps j p hj]
  rw [constWrites_append]
  simp only [constWrites, if_pos hp, Nat.zero_add, List.append_assoc]

/-- Every store of the constant loop entered with counter `n` goes into a member of a record
`k` with `n ≤ k`. -/
theorem constWrites_rec (C : ConstLayout) (F : ConstFacts C) (sel : param → Bool)
    (idx : param → Nat → Nat) (base n : Nat) (ps : List param) (w : Write)
    (h : w ∈ constWrites C sel idx base n ps) :
    ∃ k f wf, n ≤ k ∧ f + wf ≤ C.size ∧ base + k * C.size + f ≤ w.1 ∧
      w.1 < base + k * C.size + f + wf := by
  have n0 := F.name0
  have c1 := F.index_in
  have c2 := F.name_index
  obtain ⟨j, p, _, _, h3 | h3⟩ := (mem_constWrites _ _ _ _ _ _ _).1 h
  · simp only [constHead, List.mem_append] at h3
    rcases h3 with ((h3 | h3) | h3) | h3
    · have b := st_addr _ _ _ _ h3
      exact ⟨_, C.count, C.count_w, Nat.le_add_right _ _, F.count_in, b.1, b.2⟩
    · have b := st_addr _ _ _ _ h3
      exact ⟨_, C.type, C.type_w, Nat.le_add_right _ _, F.type_in, b.1, b.2⟩
    · have b := st_addr _ _ _ _ h3
      exact ⟨_, C.is_internal, C.is_internal_w, Nat.le_add_right _ _, F.internal_in, b.1, b.2⟩
    · have b := st_addr _ _ _ _ h3
      exact ⟨_, C.name_off, 4, Nat.le_add_right _ _, by omega, b.1, b.2⟩
  · obtain ⟨i, _, h4⟩ := (mem_constSlots _ _ _ _ _ _).1 h3
    obtain ⟨m, g, hm, h5⟩ := (mem_constSlot _ _ _ _ _).1 h4
    have b := st_addr _ _ _ _ h5
    have s := slotField_inside C F g.1 (slotFields_isSlotField _ _ _ _ _ hm)
    exact ⟨n + slotSum sel (ps.take j) + i, g.1, 4, by omega, s.1, b.1, b.2⟩

/-- No selected parameter starts its records inside the records of another one. -/
theorem rec_ne (sel : param → Bool) (ps : List param) (j j1 i : Nat) (p p1 : param)
    (h : ps[j]? = some p) (h1 : ps[j1]? = some p1) (hp : sel p = true) (hp1 : sel p1 = true)
    (hi1 : 1 ≤ i) (hi : i < iterations p.count) :
    slotSum sel (ps.take j1) ≠ slotSum sel (ps.take j) + i := by
  rcases Nat.lt_trichotomy j1 j with d | d | d
  · have := slotSum_take_lt sel ps j1 j p1 h1 hp1 d; omega
  · subst d; omega
  · have := slotSum_take_lt sel ps j j1 p h hp d; omega

/-- A member of the first record of a constant with at least one slot that the once-per-constant
stores fill holds, in the finished buffer, what they stored: stores made for earlier constants
without slots into the same record come before, and nothing after touches the member. -/
theorem head_holds (H : Header) (A : AttribLayout) (C : ConstLayout) (pre : List Write)
    (sel : param → Bool) (idx : param → Nat → Nat) (enc : Nat → Nat)
    (ps : List param) (insns : List program_exec)
    (hH : fieldsOk H.size H.fields) (hA : A.ok) (hC : C.ok) (hs : selCovers sel)
    (j : Nat) (p : param) (hj : ps[j]? = some p) (hp : sel p = true)
    (hit : 1 ≤ iterations p.count) (g wd v : Nat) (hf : isHeadField C g wd)
    (hg : 4 ≤ g ∨ wd = 0)
    (hin : ∀ w ∈ st (constOff A H.size ps + slotSum sel (ps.take j) * C.size + g) wd v,
      w ∈ constHead C (constOff A H.size ps + slotSum sel (ps.take j) * C.size) p)
    (huniq : ∀ w ∈ constHead C (constOff A H.size ps + slotSum sel (ps.take j) * C.size) p,
      constOff A H.size ps + slotSum sel (ps.take j) * C.size + g ≤ w.1 →
      w.1 < constOff A H.size ps + slotSum sel (ps.take j) * C.size + g + wd →
      w.2 = v / 256 ^ (w.1 - (constOff A H.size ps + slotSum sel (ps.take j) * C.size + g)) %
        256) :
    holds (emit H A C pre sel idx enc ps insns).mem
      (constOff A H.size ps + slotSum sel (ps.take j) * C.size + g) wd v := by
  have F := const_ok_facts C hC
  obtain ⟨a0, a1, a2⟩ := attrib_ok_facts A hA
  have hc := offsets_chain A C sel H.size ps
  have hsz := headField_inside C F g wd hf
  have hend := const_rec_end A C sel H.size ps j p hj hp hit
  have e : (emit H A C pre sel idx enc ps insns).writes =
      (pre ++ (pad4 H.size).1 ++
        st H.attrib_off 4 (SWAP32 (attribOff H.size % 2 ^ 32)) ++
        attribWrites A (attribOff H.size) 0 ps ++
        st H.num_attrib 2 (SWAP16 (attribCount 0 ps)) ++
        (pad4 (attribEnd A H.size ps)).1 ++
        st H.const_off 4 (SWAP32 (constOff A H.size ps % 2 ^ 32)) ++
        constWrites C sel idx (constOff A H.size ps) 0 (ps.take j)) ++
      constHead C (constOff A H.size ps + slotSum sel (ps.take j) * C.size) p ++
      (constSlots C (idx p) (constOff A H.size ps) (slotSum sel (ps.take j)) p ++
        constWrites C sel idx (constOff A H.size ps)
          (slotSum sel (ps.take j) + iterations p.count) (ps.drop (j + 1)) ++
        st H.num_const 2 (SWAP16 (constCount sel 0 ps)) ++
        (pad4 (constEnd A C sel H.size ps)).1 ++
        nameWrites (namesOff A C sel H.size ps) (ps.zip (usersOf A C sel H.size ps)) ++
        (pad16 (namesEnd A C sel H.size ps)).1 ++
        st H.ucode_off 4 (SWAP32 (ucodeOff A C sel H.size ps % 2 ^ 32)) ++
        st H.num_insn 2 (SWAP16 insns.length) ++
        insnWrites enc (ucodeOff A C sel H.size ps) 0 insns) := by
    simp only [emit]
    rw [constWrites_at C sel idx (constOff A H.size ps) ps j p hj hp]
    simp only [List.append_assoc]
  unfold Emitted.mem
  rw [e]
  apply holds_of_mid _ _ _ _ _ _ _ hin huniq
  intro w hw
  simp only [List.mem_append] at hw
  rcases hw with (((((((hw | hw) | hw) | hw) | hw) | hw) | hw) | hw) | hw
  · obtain ⟨i, hi, h1⟩ := (mem_constSlots _ _ _ _ _ _).1 hw
    obtain ⟨m, g1, hm, h2⟩ := (mem_constSlot _ _ _ _ _).1 h1
    have b := st_addr _ _ _ _ h2
    have sf := slotFields_isSlotField _ _ _ _ _ hm
    have s := slotField_inside C F g1.1 sf
    by_contra hcon
    have hcon1 : constOff A H.size ps + slotSum sel (ps.take j) * C.size + g ≤ w.1 := by omega
    have hcon2 : w.1 < constOff A H.size ps + slotSum sel (ps.take j) * C.size + g + wd := by
      omega
    by_cases hi0 : i = 0
    · subst hi0
      rw [Nat.add_zero] at b
      exact head_slot_sep C F g wd g1.1 _ w.1 hf sf hcon1 hcon2 b.1 b.2
    · exact rec_sep (constOff A H.size ps) C.size _ _ g wd g1.1 4 w.1 hsz s.1
        (show slotSum sel (ps.take j) ≠ slotSum sel (ps.take j) + i by omega)
        hcon1 hcon2 b.1 b.2
  · obtain ⟨k, f, wf, k1, k2, k3, k4⟩ := constWrites_rec C F sel idx _ _ _ w hw
    by_contra hcon
    have hcon1 : constOff A H.size ps + slotSum sel (ps.take j) * C.size + g ≤ w.1 := by omega
    have hcon2 : w.1 < constOff A H.size ps + slotSum sel (ps.take j) * C.size + g + wd := by
      omega
    exact rec_sep (constOff A H.size ps) C.size _ _ g wd f wf w.1 hsz k2
      (show slotSum sel (ps.take j) ≠ k by omega) hcon1 hcon2 k3 k4
  · have := fields_inside _ _ hH 3 (H.num_const, 2) rfl
    have := st_addr _ _ _ _ hw
    simp only at this
    omega
  · have := pad4_mem _ _ hw; omega
  · rw [mem_names] at hw
    rcases hw with hw | hw
    · have := isStrW_addr _ _ _ _ _ _ hw; omega
    · rcases isPatchW_addr A C sel H.size ps w hs hw with ⟨j1, q, b0, _, b4, b1, b2⟩ |
        ⟨j1, q, b0, _, b3, b1, b2⟩
      · by_cases hr : slotSum sel (ps.take j1) = slotSum sel (ps.take j)
        · rw [hr] at b1 b2; omega
        · by_contra hcon
          have hcon1 : constOff A H.size ps + slotSum sel (ps.take j) * C.size + g ≤ w.1 := by
            omega
          have hcon2 :
              w.1 < constOff A H.size ps + slotSum sel (ps.take j) * C.size + g + wd := by
            omega
          have n1 := F.index_in
          have n2 := F.name_index
          exact rec_sep (constOff A H.size ps) C.size _ _ g wd 0 4 w.1 hsz (by omega)
            (Ne.symm hr) hcon1 hcon2 (by omega) (by omega)
      · have := attr_rec_end A H.size ps j1 q b0 b3
        omega
  · have := pad16_mem _ _ hw; omega
  · have := fields_inside _ _ hH 4 (H.ucode_off, 4) rfl
    have := st_addr _ _ _ _ hw
    simp only at this
    omega
  · have := fields_inside _ _ hH 5 (H.num_insn, 2) rfl
    have := st_addr _ _ _ _ hw
    simp only at this
    omega
  · obtain ⟨i1, e1, j1, _, _, g3⟩ := (mem_insnWrites _ _ _ _ _).1 hw
    have := st_addr _ _ _ _ g3
    omega

/-- In the further records of a constant the members that the once-per-constant stores fill
stay zero. -/
theorem head_zero (H : Header) (A : AttribLayout) (C : ConstLayout) (pre : List Write)
    (sel : param → Bool) (idx : param → Nat → Nat) (enc : Nat → Nat)
    (ps : List param) (insns : List program_exec)
    (hH : fieldsOk H.size H.fields) (hA : A.ok) (hC : C.ok) (hpre : preOk H pre)
    (hs : selCovers sel)
    (j i : Nat) (p : param) (hj : ps[j]? = some p) (hp : sel p = true)
    (hi1 : 1 ≤ i) (hi : i < iterations p.count) (g wd : Nat) (hf : isHeadField C g wd) :
    holds (emit H A C pre sel idx enc ps insns).mem
      (constOff A H.size ps + (slotSum sel (ps.take j) + i) * C.size + g) wd 0 := by
  have F := const_ok_facts C hC
  obtain ⟨a0, a1, a2⟩ := attrib_ok_facts A hA
  have hc := offsets_chain A C sel H.size ps
  have hsz := headField_inside C F g wd hf
  have hle := slotSum_take_le sel ps j p hj hp
  have hend : constOff A H.size ps + (slotSum sel (ps.take j) + i) * C.size + C.size ≤
      constEnd A C sel H.size ps := by
    rw [constEnd_eq]
    have := mul_succ_le (slotSum sel (ps.take j) + i) (slotSum sel ps) C.size (by omega)
    omega
  intro t ht
  rw [Nat.zero_div, Nat.zero_mod]
  unfold Emitted.mem
  apply load_zero
  intro w hw hx
  rw [mem_emit] at hw
  rcases hw with hw | hw | hw | hw | hw | hw | hw | hw | hw
  · have := (hpre w hw).1; omega
  · obtain ⟨i1, f1, v1, g1, g2, g3⟩ := (isHdrW_iff _ _ _ _ _ _ _).1 hw
    have := fields_inside _ _ hH i1 f1 g1
    have := st_addr _ _ _ _ g3
    omega
  · exact (isPadW_addr _ _ _ _ _ _ hw).1
  · have := isAttrW_lt _ _ _ _ hA hw; omega
  · exfalso
    obtain ⟨j1, p1, g1, wd1, b0, b3, b4, b1, b2⟩ := isHeadW_addr _ _ _ _ _ _ hw
    exact rec_sep (constOff A H.size ps) C.size _ _ g1 wd1 g wd w.1
      (headField_inside C F g1 wd1 b4) hsz (rec_ne sel ps j j1 i p p1 hj b0 hp b3 hi1 hi)
      b1 b2 (by omega) (by omega)
  · exfalso
    obtain ⟨j1, p1, i1, b1, b2, b3, b4⟩ := hw
    obtain ⟨m1, g1, b5, b6⟩ := (mem_constSlot _ _ _ _ _).1 b4
    have b7 := st_addr _ _ _ _ b6
    have sf := slotFields_isSlotField _ _ _ _ _ b5
    obtain ⟨s1, s2⟩ := slotField_inside C F g1.1 sf
    by_cases hr : slotSum sel (ps.take j1) + i1 = slotSum sel (ps.take j) + i
    · rw [hr] at b7
      exact head_slot_sep C F g wd g1.1 _ w.1 hf sf (by omega) (by omega) b7.1 b7.2
    · exact rec_sep (constOff A H.size ps) C.size _ _ g1.1 4 g wd w.1 s1 hsz hr
        b7.1 b7.2 (by omega) (by omega)
  · have := isStrW_addr _ _ _ _ _ _ hw; omega
  · exfalso
    rcases isPatchW_addr A C sel H.size ps w hs hw with ⟨j1, q, b0, _, b4, b1, b2⟩ |
      ⟨j1, q, b0, _, b3, b1, b2⟩
    · have n1 := F.index_in
      have n2 := F.name_index
      exact rec_sep (constOff A H.size ps) C.size _ _ 0 4 g wd w.1 (by omega) hsz
        (rec_ne sel ps j j1 i p q hj b0 hp b4 hi1 hi) (by omega) (by omega) (by omega)
        (by omega)
    · have := attr_rec_end A H.size ps j1 q b0 b3
      omega
  · have := isInsnW_addr _ _ _ _ _ _ _ _ hw; omega

/-- The records of a selected constant with at least one slot in the finished container. -/
theorem emit_headSpec (H : Header) (A : AttribLayout) (C : ConstLayout) (pre : List Write)
    (sel : param → Bool) (idx : param → Nat → Nat) (enc : Nat → Nat)
    (ps : List param) (insns : List program_exec)
    (hH : fieldsOk H.size H.fields) (hA : A.ok) (hC : C.ok) (hpre : preOk H pre)
    (hs : selCovers sel)
    (j : Nat) (p : param) (hj : ps[j]? = some p) (hp : sel p = true)
    (hit : 1 ≤ iterations p.count) :
    headSpec (emit H A C pre sel idx enc ps insns) C sel ps j p := by
  have F := const_ok_facts C hC
  have n0 := F.name0
  have d := fun i j f g hi hj hne => fields_disjoint _ _ hC.2 i j f g hi hj hne
  have d34 := d 3 4 (C.count, C.count_w) (C.type, C.type_w) rfl rfl (by decide)
  have d35 := d 3 5 (C.count, C.count_w) (C.is_internal, C.is_internal_w) rfl rfl (by decide)
  have d45 := d 4 5 (C.type, C.type_w) (C.is_internal, C.is_internal_w) rfl rfl (by decide)
  simp only at d34 d35 d45
  have fc : isHeadField C C.count C.count_w := Or.inl ⟨rfl, rfl⟩
  have ft : isHeadField C C.type C.type_w := Or.inr (Or.inl ⟨rfl, rfl⟩)
  have fi : isHeadField C C.is_internal C.is_internal_w := Or.inr (Or.inr (Or.inl ⟨rfl, rfl⟩))
  refine ⟨?_, ?_, ?_, ?_⟩
  · apply head_holds H A C pre sel idx enc ps insns hH hA hC hs j p hj hp hit _ _ _ fc
      F.name_count
    · intro w hw
      simp only [constHead, List.mem_append]
      exact Or.inl (Or.inl (Or.inl hw))
    · intro w hw h1 h2
      simp only [constHead, List.mem_append] at hw
      rcases hw with ((hw | hw) | hw) | hw
      · exact st_val _ _ _ _ hw
      all_goals have := st_addr _ _ _ _ hw; have := F.name_count; omega
  · apply head_holds H A C pre sel idx enc ps insns hH hA hC hs j p hj hp hit _ _ _ ft
      F.name_type
    · intro w hw
      simp only [constHead, List.mem_append]
      exact Or.inl (Or.inl (Or.inr hw))
    · intro w hw h1 h2
      simp only [constHead, List.mem_append] at hw
      rcases hw with ((hw | hw) | hw) | hw
      · have := st_addr _ _ _ _ hw; omega
      · exact st_val _ _ _ _ hw
      all_goals have := st_addr _ _ _ _ hw; have := F.name_type; omega
  · apply head_holds H A C pre sel idx enc ps insns hH hA hC hs j p hj hp hit _ _ _ fi
      F.name_internal
    · intro w hw
      simp only [constHead, List.mem_append]
      exact Or.inl (Or.inr hw)
    · intro w hw h1 h2
      simp only [constHead, List.mem_append] at hw
      rcases hw with ((hw | hw) | hw) | hw
      · have := st_addr _ _ _ _ hw; omega
      · have := st_addr _ _ _ _ hw; omega
      · exact st_val _ _ _ _ hw
      · have := st_addr _ _ _ _ hw; have := F.name_internal; omega
  · intro i hi1 hi
    exact ⟨head_zero H A C pre sel idx enc ps insns hH hA hC hpre hs j i p hj hp hi1 hi _ _ fc,
      head_zero H A C pre sel idx enc ps insns hH hA hC hpre hs j i p hj hp hi1 hi _ _ ft,
      head_zero H A C pre sel idx enc ps insns hH hA hC hpre hs j i p hj hp hi1 hi _ _ fi⟩

/-- C15, as stated, fails: the vertex constant of `twoSlotVP` has count 2 and type 1 and gets
two records; the first carries 2 and 1 in its `count` and `type` members, the second holds 0
in both. -/
theorem C15_counterexample :
    (twoSlotVP.params.map fun p => (p.is_const, p.count, p.type)) = [(true, 2, 1)] ∧
      (compileVP sampleVP twoSlotVP).num_const = 2 ∧
      bytesAt (compileVP sampleVP twoSlotVP).mem
        ((compileVP sampleVP twoSlotVP).const_off + 0 * sampleVP.cst.size +
          sampleVP.cst.count) 1 = [2] ∧
      bytesAt (compileVP sampleVP twoSlotVP).mem
        ((compileVP sampleVP twoSlotVP).const_off + 0 * sampleVP.cst.size +
          sampleVP.cst.type) 1 = [1] ∧
      bytesAt (compileVP sampleVP twoSlotVP).mem
        ((compileVP sampleVP twoSlotVP).const_off + 1 * sampleVP.cst.size +
          sampleVP.cst.count) 1 = [0] ∧
      bytesAt (compileVP sampleVP twoSlotVP).mem
        ((compileVP sampleVP twoSlotVP).const_off + 1 * sampleVP.cst.size +
          sampleVP.cst.type) 1 = [0] := by
  decide

/-- C15, amended: for every constant parameter with count `k ≥ 1` that is emitted (a constant
for `compileVP`, a constant that is not internal for `compileFP`), the first of the `k`
records emitted for it carries the parameter's count, type and is_internal values in its
`count`, `type` and `is_internal` members (as many low bytes as the member has, in host
order); the further `k - 1` records hold zero in these three members. -/
theorem C15_first_record (LV : VPLayout) (LF : FPLayout) (vp : VPProgram) (fp : FPProgram)
    (hV : LV.ok) (hF : LF.ok) (j : Nat) (p : param) (h1 : 1 ≤ p.count)
    (h2 : p.count < 2 ^ 31) :
    (vp.params[j]? = some p → p.is_const = true →
      iterations p.count = p.count ∧
        headSpec (compileVP LV vp) LV.cst vpSel vp.params j p) ∧
    (fp.params[j]? = some p → p.is_const = true → p.is_internal = false →
      iterations p.count = p.count ∧
        headSpec (compileFP LF fp) LF.cst fpSel fp.params j p) := by
  have hit := iterations_eq p.count h2
  refine ⟨fun hj hc => ⟨hit, ?_⟩, fun hj hc hi => ⟨hit, ?_⟩⟩
  · exact emit_headSpec LV.hdr.common LV.attr LV.cst
      (vpPre LV.hdr vp.input_mask vp.output_mask) vpSel vpIndex vpWord vp.params
      (relocate LV.src vp.const_reloc vp.insns) (vp_common_ok _ hV.1) hV.2.1 hV.2.2
      (vp_preOk _ hV.1 vp.input_mask vp.output_mask) vp_selCovers j p hj hc (by omega)
  · exact emit_headSpec LF.hdr.common LF.attr LF.cst
      (fpPre LF.hdr fp.num_regs fp.fp_control) fpSel (fpIndex fp.const_relocs) fpWord
      fp.params fp.insns (fp_common_ok _ hF.1) hF.2.1 hF.2.2
      (fp_preOk _ hF.1 fp.num_regs fp.fp_control) fp_selCovers j p hj
      (by unfold fpSel; rw [hc, hi]; rfl) (by omega)

/-- C15, witness: the constant of two slots of `twoSlotVP` and the named constant of the
fragment scenario. -/
theorem C15_first_record_witness :
    headSpec (compileVP sampleVP twoSlotVP) sampleVP.cst vpSel twoSlotVP.params 0
        { name := [109], is_const := true, is_internal := false, type := 1, index := 8,
          count := 2, values := fun i j => i + j, user := 0 } ∧
      headSpec (compileFP sampleFP unmatchedFP) sampleFP.cst fpSel unmatchedFP.params 0
        { name := [117], is_const := true, is_internal := false, type := 1, index := 5,
          count := 2, values := fun _ _ => 0x3F800000, user := 0 } :=
  ⟨((C15_first_record sampleVP sampleFP twoSlotVP unmatchedFP sampleVP_ok sampleFP_ok 0 _
      (by decide) (by decide)).1 rfl rfl).2,
    ((C15_first_record sampleVP sampleFP twoSlotVP unmatchedFP sampleVP_ok sampleFP_ok 0
      { name := [117], is_const := true, is_internal := false, type := 1, index := 5,
        count := 2, values := fun _ _ => 0x3F800000, user := 0 }
      (by decide) (by decide)).2 rfl rfl rfl).2⟩

theorem emit_patchSpec (H : Header) (A : AttribLayout) (C : ConstLayout) (pre : List Write)
    (sel : param → Bool) (idx : param → Nat → Nat) (enc : Nat → Nat)
    (ps : List param) (insns : List program_exec) (hA : A.ok) (hC : C.ok)
    (hs : selCovers sel) (hsc : selConst sel) (hok : slotsOk sel ps)
    (j : Nat) (p : param) (hj : ps[j]? = some p) (hn : named p = true) :
    patchSpec (emit H A C pre sel idx enc ps insns) A C sel ps j p := by
  have F := const_ok_facts C hC
  obtain ⟨a0, a1, a2⟩ := attrib_ok_facts A hA
  have n1 := F.index_in
  have n2 := F.name_index
  refine ⟨userAt A C sel H.size ps j p, usersOf_get A C sel H.size ps j p hj, ?_⟩
  by_cases hc : p.is_const = true
  · have hp : sel p = true := hs p hn hc
    have hit := hok p (List.getElem?_mem hj) hp
    have hle := slotSum_take_le sel ps j p hj hp
    have hend := const_rec_end A C sel H.size ps j p hj hp hit
    refine Or.inr ⟨hc, ?_, hit, ?_, by omega, ?_, ?_⟩
    · unfold userAt
      rw [if_pos hp]
      rfl
    · show _ ≤ constCount sel 0 ps
      rw [constCount_eq, Nat.zero_add]
      exact hle
    · unfold userAt
      rw [if_pos hp]
      exact hend
    · intro j1 p1 i1 g1 g2 g3 g4
      have := slot_unique sel ps j1 j i1 0 p1 p g1 hj g2 hp g3 (by omega) (by omega)
      exact ⟨this.1, this.2.1⟩
  · have hc1 : p.is_const = false := by simpa using hc
    have hp : ¬ sel p = true := fun h => hc (hsc p h)
    have hend := attr_rec_end A H.size ps j p hj hc1
    have hget := attribs_get ps j p hj hc1
    have hlt : (attribs (ps.take j)).length < (attribs ps).length := by
      rcases Nat.lt_or_ge (attribs (ps.take j)).length (attribs ps).length with h5 | h5
      · exact h5
      · rw [List.getElem?_eq_none h5] at hget; simp at hget
    refine Or.inl ⟨hc1, ?_, hget, ?_, by omega, ?_⟩
    · unfold userAt
      rw [if_neg hp, if_pos hc1]
      rfl
    · show _ < attribCount 0 ps
      rw [attribCount_eq, Nat.zero_add]
      exact hlt
    · unfold userAt
      rw [if_neg hp, if_pos hc1]
      exact hend

theorem emit_nameLoopInside (H : Header) (A : AttribLayout) (C : ConstLayout)
    (pre : List Write) (sel : param → Bool) (idx : param → Nat → Nat) (enc : Nat → Nat)
    (ps : List param) (insns : List program_exec) (hA : A.ok) (hC : C.ok)
    (hs : selCovers sel) (hok : slotsOk sel ps) :
    nameLoopInside (emit H A C pre sel idx enc ps insns) A C ps := by
  have F := const_ok_facts C hC
  obtain ⟨a0, a1, a2⟩ := attrib_ok_facts A hA
  have n1 := F.index_in
  have n2 := F.name_index
  intro w hw
  have hw1 : w ∈ nameWrites (namesOff A C sel H.size ps)
      (ps.zip (usersOf A C sel H.size ps)) := hw
  rw [mem_names] at hw1
  rcases hw1 with hw1 | hw1
  · exact Or.inl (isStrW_addr _ _ _ _ _ _ hw1)
  · rcases isPatchW_addr A C sel H.size ps w hs hw1 with ⟨j1, q, b0, _, b4, b1, b2⟩ |
      ⟨j1, q, b0, _, b3, b1, b2⟩
    · have hend := const_rec_end A C sel H.size ps j1 q b0 b4 (hok q (List.getElem?_mem b0) b4)
      refine Or.inr (Or.inr ⟨?_, ?_⟩)
      · show constOff A H.size ps ≤ w.1
        omega
      · show w.1 < constEnd A C sel H.size ps
        omega
    · have hend := attr_rec_end A H.size ps j1 q b0 b3
      refine Or.inr (Or.inl ⟨?_, ?_⟩)
      · show attribOff H.size ≤ w.1
        omega
      · show w.1 < attribEnd A H.size ps
        omega

/-- C16: for every parameter list in which every constant has a count of at least 1 (vertex
and fragment), every parameter the name loop back-patches (non-empty name, not internal) has
its `user` offset assigned by the attribute loop or by the constant loop, that offset is the
start of a record of the parameter inside the attribute or the constant table, and every
store of the name loop goes into the name string table or into one of these two tables. -/
theorem C16_backpatch (LV : VPLayout) (LF : FPLayout) (vp : VPProgram) (fp : FPProgram)
    (hV : LV.ok) (hF : LF.ok) (hcv : countsOk vp.params) (hcf : countsOk fp.params) :
    ((∀ j p, vp.params[j]? = some p → named p = true →
        patchSpec (compileVP LV vp) LV.attr LV.cst vpSel vp.params j p) ∧
      nameLoopInside (compileVP LV vp) LV.attr LV.cst vp.params) ∧
    ((∀ j p, fp.params[j]? = some p → named p = true →
        patchSpec (compileFP LF fp) LF.attr LF.cst fpSel fp.params j p) ∧
      nameLoopInside (compileFP LF fp) LF.attr LF.cst fp.params) := by
  have okv := slotsOk_of_counts vpSel vp.params vp_selConst hcv
  have okf := slotsOk_of_counts fpSel fp.params fp_selConst hcf
  refine ⟨⟨fun j p hj hn => ?_, ?_⟩, ⟨fun j p hj hn => ?_, ?_⟩⟩
  · exact emit_patchSpec _ _ _ _ _ _ _ _ _ hV.2.1 hV.2.2 vp_selCovers vp_selConst okv j p hj hn
  · exact emit_nameLoopInside _ _ _ _ _ _ _ _ _ hV.2.1 hV.2.2 vp_selCovers okv
  · exact emit_patchSpec _ _ _ _ _ _ _ _ _ hF.2.1 hF.2.2 fp_selCovers fp_selConst okf j p hj hn
  · exact emit_nameLoopInside _ _ _ _ _ _ _ _ _ hF.2.1 hF.2.2 fp_selCovers okf

/-- C16, witness: the named constant of `twoSlotVP` and the name loop of the fragment
scenario with an attribute in front. -/
theorem C16_backpatch_witness :
    patchSpec (compileVP sampleVP twoSlotVP) sampleVP.attr sampleVP.cst vpSel
        twoSlotVP.params 0
        { name := [109], is_const := true, is_internal := false, type := 1, index := 8,
          count := 2, values := fun i j => i + j, user := 0 } ∧
      nameLoopInside (compileFP sampleFP attribFP) sampleFP.attr sampleFP.cst
        attribFP.params :=
  ⟨(C16_backpatch sampleVP sampleFP twoSlotVP attribFP sampleVP_ok sampleFP_ok (by decide)
      (by decide)).1.1 0 _ rfl rfl,
    (C16_backpatch sampleVP sampleFP twoSlotVP attribFP sampleVP_ok sampleFP_ok (by decide)
      (by decide)).2.2⟩

/-- A padding loop stores a zero at every offset it passes. -/
theorem padLoop_covers (mask fuel off x : Nat) (h1 : off ≤ x)
    (h2 : x < (padLoop mask fuel off).2) : (x, 0) ∈ (padLoop mask fuel off).1 := by
  induction fuel generalizing off with
  | zero =>
    simp only [padLoop] at h2
    omega
  | succ fuel ih =>
    by_cases hc : off &&& mask ≠ 0
    · simp only [padLoop, if_pos hc] at h2 ⊢
      by_cases hx : x = off
      · rw [hx]; exact List.mem_cons_self _ _
      · exact List.mem_cons_of_mem _ (ih (off + 1) (by omega) h2)
    · simp only [padLoop, if_neg hc] at h2
      omega

theorem bytesAt_get (m : Nat → Nat) (len x : Nat) (h : x < len) :
    (bytesAt m 0 len)[x]? = some (m x) := by
  unfold bytesAt
  rw [List.getElem?_map, List.getElem?_range h]
  simp

theorem file_length (o : Emitted) : o.file.length = o.lastoff := by
  unfold Emitted.file bytesAt
  simp

/-- The bytes between the header and the attribute table, between the attribute table and the
constant table, and between the constant table and the name string table are zero; the last
of these three gaps is empty when the size of a constant record is a multiple of 4. -/
theorem gap_zero (H : Header) (A : AttribLayout) (C : ConstLayout) (pre : List Write)
    (sel : param → Bool) (idx : param → Nat → Nat) (enc : Nat → Nat)
    (ps : List param) (insns : List program_exec)
    (hH : fieldsOk H.size H.fields) (hA : A.ok) (hpre : preOk H pre) (hs : selCovers sel)
    (h4 : C.size % 4 = 0) (x : Nat)
    (hx : (H.size ≤ x ∧ x < attribOff H.size) ∨
      (attribEnd A H.size ps ≤ x ∧ x < constOff A H.size ps) ∨
      (constEnd A C sel H.size ps ≤ x ∧ x < namesOff A C sel H.size ps)) :
    (emit H A C pre sel idx enc ps insns).mem x = 0 := by
  obtain ⟨a0, a1, a2⟩ := attrib_ok_facts A hA
  have hc := offsets_chain A C sel H.size ps
  have hm : constEnd A C sel H.size ps % 4 = 0 := by
    have m1 := constOff_mod A H.size ps
    have m2 : slotSum sel ps * C.size % 4 = 0 := by
      rw [Nat.mul_mod, h4, Nat.mul_zero, Nat.zero_mod]
    rw [constEnd_eq]
    omega
  have hn : namesOff A C sel H.size ps = constEnd A C sel H.size ps := by
    unfold namesOff
    rw [pad4_snd]
    omega
  have hx2 : (H.size ≤ x ∧ x < attribOff H.size) ∨
      (attribEnd A H.size ps ≤ x ∧ x < constOff A H.size ps) := by
    rcases hx with hx | hx | hx
    · exact Or.inl hx
    · exact Or.inr hx
    · omega
  clear hx hm
  unfold Emitted.mem
  apply load_zero
  intro w hw hxw
  rw [mem_emit] at hw
  rcases hw with hw | hw | hw | hw | hw | hw | hw | hw | hw
  · have := (hpre w hw).1; omega
  · obtain ⟨i1, f1, v1, g1, g2, g3⟩ := (isHdrW_iff _ _ _ _ _ _ _).1 hw
    have := fields_inside _ _ hH i1 f1 g1
    have := st_addr _ _ _ _ g3
    omega
  · exact (isPadW_addr _ _ _ _ _ _ hw).1
  · have := isAttrW_lt _ _ _ _ hA hw
    have := isAttrW_ge _ _ _ _ hw
    omega
  · have := isHeadW_ge _ _ _ _ _ _ hw; omega
  · have := isSlotW_ge _ _ _ _ _ _ _ hw; omega
  · have := isStrW_addr _ _ _ _ _ _ hw; omega
  · exfalso
    rcases isPatchW_addr A C sel H.size ps w hs hw with ⟨j1, q, b0, _, b4, b1, b2⟩ |
      ⟨j1, q, b0, _, b3, b1, b2⟩
    · omega
    · have := attr_rec_end A H.size ps j1 q b0 b3
      omega
  · have := isInsnW_addr _ _ _ _ _ _ _ _ hw; omega

theorem emit_writes_pad16 (H : Header) (A : AttribLayout) (C : ConstLayout) (pre : List Write)
    (sel : param → Bool) (idx : param → Nat → Nat) (enc : Nat → Nat)
    (ps : List param) (insns : List program_exec) :
    ∃ a, (emit H A C pre sel idx enc ps insns).writes =
      a ++ (pad16 (namesEnd A C sel H.size ps)).1 ++
        (st H.ucode_off 4 (SWAP32 (ucodeOff A C sel H.size ps % 2 ^ 32)) ++
          (st H.num_insn 2 (SWAP16 insns.length) ++
            insnWrites enc (ucodeOff A C sel H.size ps) 0 insns)) :=
  ⟨pre ++ (pad4 H.size).1 ++
      st H.attrib_off 4 (SWAP32 (attribOff H.size % 2 ^ 32)) ++
      attribWrites A (attribOff H.size) 0 ps ++
      st H.num_attrib 2 (SWAP16 (attribCount 0 ps)) ++
      (pad4 (attribEnd A H.size ps)).1 ++
      st H.const_off 4 (SWAP32 (constOff A H.size ps % 2 ^ 32)) ++
      constWrites C sel idx (constOff A H.size ps) 0 ps ++
      st H.num_const 2 (SWAP16 (constCount sel 0 ps)) ++
      (pad4 (constEnd A C sel H.size ps)).1 ++
      nameWrites (namesOff A C sel H.size ps) (ps.zip (usersOf A C sel H.size ps)),
    by simp only [emit, List.append_assoc]⟩

/-- The bytes between the name string table and the instruction stream are zero: the last
padding loop stores a zero in each of them after every store of the passes before it, and the
stores after it go to the header and to the instruction stream. -/
theorem tail_zero (H : Header) (A : AttribLayout) (C : ConstLayout) (pre : List Write)
    (sel : param → Bool) (idx : param → Nat → Nat) (enc : Nat → Nat)
    (ps : List param) (insns : List program_exec)
    (hH : fieldsOk H.size H.fields) (x : Nat)
    (h1 : namesEnd A C sel H.size ps ≤ x) (h2 : x < ucodeOff A C sel H.size ps) :
    (emit H A C pre sel idx enc ps insns).mem x = 0 := by
  have hc := offsets_chain A C sel H.size ps
  obtain ⟨a, ha⟩ := emit_writes_pad16 H A C pre sel idx enc ps insns
  have key : holds (emit H A C pre sel idx enc ps insns).mem x 1 0 := by
    unfold Emitted.mem
    rw [ha]
    apply holds_of_mid
    · intro w hw
      simp only [List.mem_append] at hw
      rcases hw with hw | hw | hw
      · have := fields_inside _ _ hH 4 (H.ucode_off, 4) rfl
        have := st_addr _ _ _ _ hw
        simp only at this
        omega
      · have := fields_inside _ _ hH 5 (H.num_insn, 2) rfl
        have := st_addr _ _ _ _ hw
        simp only at this
        omega
      · obtain ⟨i1, e1, j1, _, _, g3⟩ := (mem_insnWrites _ _ _ _ _).1 hw
        have := st_addr _ _ _ _ g3
        omega
    · intro w hw
      obtain ⟨k, hk, rfl⟩ := (mem_st _ _ _ _).1 hw
      have hk0 : k = 0 := by omega
      subst hk0
      simp only [Nat.add_zero, Nat.zero_div, Nat.zero_mod]
      exact padLoop_covers 15 16 _ x h1 h2
    · intro w hw _ _
      rw [(pad16_mem _ _ hw).2.2]
      simp
  have := key 0 (by norm_num)
  simpa using this

/-- The layout of a finished container. -/
theorem emit_layoutSpec (H : Header) (A : AttribLayout) (C : ConstLayout) (pre : List Write)
    (sel : param → Bool) (idx : param → Nat → Nat) (enc : Nat → Nat)
    (ps : List param) (insns : List program_exec)
    (hH : fieldsOk H.size H.fields) (hA : A.ok) (hpre : preOk H pre) (hs : selCovers sel)
    (h4 : C.size % 4 = 0) :
    layoutSpec (emit H A C pre sel idx enc ps insns) H.size A C insns.length := by
  have hc := offsets_chain A C sel H.size ps
  have hm := ucodeOff_mod A C sel H.size ps
  have hl : (emit H A C pre sel idx enc ps insns).file.length =
      ucodeOff A C sel H.size ps + 16 * insns.length := file_length _
  refine ⟨hl, ?_, hc.1, hc.2.2.1, hc.2.2.2.2.1, hc.2.2.2.2.2.1, hc.2.2.2.2.2.2, ?_, ?_⟩
  · rw [hl]; omega
  · rw [hl]
    show ucodeOff A C sel H.size ps ≤ _
    omega
  · intro x hx
    have hx1 : (H.size ≤ x ∧ x < attribOff H.size) ∨
        (attribEnd A H.size ps ≤ x ∧ x < constOff A H.size ps) ∨
        (constEnd A C sel H.size ps ≤ x ∧ x < namesOff A C sel H.size ps) ∨
        (namesEnd A C sel H.size ps ≤ x ∧ x < ucodeOff A C sel H.size ps) := hx
    have hlt : x < (emit H A C pre sel idx enc ps insns).lastoff := by
      show x < ucodeOff A C sel H.size ps + 16 * insns.length
      omega
    unfold Emitted.file
    rw [bytesAt_get _ _ _ hlt]
    congr 1
    rcases hx1 with h | h | h | h
    · exact gap_zero H A C pre sel idx enc ps insns hH hA hpre hs h4 x (Or.inl h)
    · exact gap_zero H A C pre sel idx enc ps insns hH hA hpre hs h4 x (Or.inr (Or.inl h))
    · exact gap_zero H A C pre sel idx enc ps insns hH hA hpre hs h4 x (Or.inr (Or.inr h))
    · exact tail_zero H A C pre sel idx enc ps insns hH x h.1 h.2

/-- C18: for every input (vertex and fragment), the output file has `ucode_off + 16 * N`
bytes for `N` instructions, a multiple of 16; the header, the attribute table, the constant
table, the name string table and the instruction stream lie in this order without overlap;
every byte between two of them is zero.  The size of a constant record is a multiple of 4. -/
theorem C18_layout (LV : VPLayout) (LF : FPLayout) (vp : VPProgram) (fp : FPProgram)
    (hV : LV.ok) (hF : LF.ok) (h4V : LV.cst.size % 4 = 0) (h4F : LF.cst.size % 4 = 0) :
    layoutSpec (compileVP LV vp) LV.hdr.size LV.attr LV.cst vp.insns.length ∧
      layoutSpec (compileFP LF fp) LF.hdr.size LF.attr LF.cst fp.insns.length := by
  constructor
  · have h := emit_layoutSpec LV.hdr.common LV.attr LV.cst
      (vpPre LV.hdr vp.input_mask vp.output_mask) vpSel vpIndex vpWord vp.params
      (relocate LV.src vp.const_reloc vp.insns) (vp_common_ok _ hV.1) hV.2.1
      (vp_preOk _ hV.1 vp.input_mask vp.output_mask) vp_selCovers h4V
    rw [relocate_length] at h
    exact h
  · exact emit_layoutSpec LF.hdr.common LF.attr LF.cst
      (fpPre LF.hdr fp.num_regs fp.fp_control) fpSel (fpIndex fp.const_relocs) fpWord
      fp.params fp.insns (fp_common_ok _ hF.1) hF.2.1
      (fp_preOk _ hF.1 fp.num_regs fp.fp_control) fp_selCovers h4F

/-- C18, witness: the vertex program with a constant without slots and the fragment
scenario. -/
theorem C18_layout_witness :
    layoutSpec (compileVP sampleVP zeroCountVP) sampleVP.hdr.size sampleVP.attr sampleVP.cst
        zeroCountVP.insns.length ∧
      layoutSpec (compileFP sampleFP scenarioFP) sampleFP.hdr.size sampleFP.attr sampleFP.cst
        scenarioFP.insns.length :=
  C18_layout sampleVP sampleFP zeroCountVP scenarioFP sampleVP_ok sampleFP_ok (by decide)
    (by decide)

/-- C12, as stated, fails: with a front end that fails in the compiler stage (vertex) or in
the parser stage (fragment) on a text that was read, the driver returns `EXIT_SUCCESS` and
writes an output file. -/
theorem C12_counterexample :
    ((failingVP [33, 33, 86, 80]).compile_failed = true ∧
        (compileVP_run sampleVP true readableText failingVP).status = Status.EXIT_SUCCESS ∧
        (compileVP_run sampleVP true readableText failingVP).written.isSome = true) ∧
      ((failingFP [33, 33, 86, 80]).parse_failed = true ∧
        (compileFP_run sampleFP true readableText failingFP).status = Status.EXIT_SUCCESS ∧
        (compileFP_run sampleFP true readableText failingFP).written.isSome = true) :=
  ⟨⟨rfl, rfl, rfl⟩, ⟨rfl, rfl, rfl⟩⟩

/-- C12, amended: `compileVP` and `compileFP` return a failure status and write no output
file when the assembly text is not obtained (the input file cannot be read, the upstream
compiler yields no program or no program string); once the text is obtained and the parser
and the compiler have returned, the container is emitted from the data they left, written to
the output file, and success is returned, whether or not parsing or compiling failed. -/
theorem C12_driver (LV : VPLayout) (LF : FPLayout) (gen_asm : Bool) (e : Upstream)
    (fv : List Nat → Front VPProgram) (ff : List Nat → Front FPProgram) :
    ((acquire gen_asm e = none ∨ acquire gen_asm e = some none) →
      compileVP_run LV gen_asm e fv = { status := Status.EXIT_FAILURE, written := none } ∧
        compileFP_run LF gen_asm e ff = { status := Status.EXIT_FAILURE, written := none }) ∧
    (∀ prg, acquire gen_asm e = some (some prg) →
      compileVP_run LV gen_asm e fv =
          { status := Status.EXIT_SUCCESS,
            written := some (compileVP LV (fv prg).prog).file } ∧
        compileFP_run LF gen_asm e ff =
          { status := Status.EXIT_SUCCESS,
            written := some (compileFP LF (ff prg).prog).file }) := by
  constructor
  · rintro (h | h) <;> unfold compileVP_run compileFP_run <;> rw [h] <;> exact ⟨rfl, rfl⟩
  · intro prg h
    unfold compileVP_run compileFP_run
    rw [h]
    exact ⟨rfl, rfl⟩

/-- C12, witness: a text that is read and a front end that fails, and an input file that
cannot be read. -/
theorem C12_driver_witness :
    (compileVP_run sampleVP true readableText failingVP =
        { status := Status.EXIT_SUCCESS,
          written := some (compileVP sampleVP scenarioVP).file } ∧
      compileFP_run sampleFP true readableText failingFP =
        { status := Status.EXIT_SUCCESS,
          written := some (compileFP sampleFP scenarioFP).file }) ∧
    (compileVP_run sampleVP true { readFile := none, cgCreateProgramFromFile := none }
        failingVP = { status := Status.EXIT_FAILURE, written := none } ∧
      compileFP_run sampleFP true { readFile := none, cgCreateProgramFromFile := none }
        failingFP = { status := Status.EXIT_FAILURE, written := none }) :=
  ⟨(C12_driver sampleVP sampleFP true readableText failingVP failingFP).2 [33, 33, 86, 80] rfl,
    (C12_driver sampleVP sampleFP true { readFile := none, cgCreateProgramFromFile := none }
      failingVP failingFP).1 (Or.inr rfl)⟩

end CgComp
